import Mathlib

/-!
# stdf: the profile log-likelihood evaluators `logProfileCpp` and `logProfileCppH`

A shallow embedding of `src/logProfile.cpp` and `src/logProfileH.cpp`.

* `double` is idealised to an ordered field `α` (the theorems about square roots and
  logarithms are stated over `ℝ`); `sqrt` and `log` are passed to the evaluators explicitly.
* `Eigen::VectorXd` / `Eigen::MatrixXd` are dynamically sized: a size together with a
  coefficient accessor.
* The kernels `covExp`, `covGauss`, `covMat` are declared in headers that are not part of the
  sources at hand; they are a parameter (`Kernels`).
* `Eigen::LLT` and `Eigen::LDLT` are embedded by the algorithms Eigen runs: the column-wise
  Cholesky kernel that stops at the first non-positive pivot, the diagonally pivoted
  `L·D·Lᵀ` factorisation, and the triangular substitutions behind `solve`. Neither
  evaluator reads the status of a factorisation, so a failed one is used as it was left.
* A call returns an `Outcome`: a finite value, a non-finite one (`log` of a non-positive
  entry), or no defined result at all (an access outside an operand).

The definitions come first; the theorems follow, and those named `C1_…`, `C2_…`, … settle
the claims of the specification.
-/

namespace Stdf

open Matrix BigOperators

/-! ## Dynamically sized Eigen objects -/

/-- The type `Eigen::VectorXd`: a run-time size and the coefficient accessor `v(i)`.
Only the coefficients below `size` belong to the vector. -/
structure VectorXd (α : Type) where
  size : ℕ
  coeff : ℕ → α

/-- The type `Eigen::MatrixXd`: run-time row and column counts and the accessor `M(i,k)`.
Only the coefficients below `rows`, `cols` belong to the matrix. -/
structure MatrixXd (α : Type) where
  rows : ℕ
  cols : ℕ
  coeff : ℕ → ℕ → α

section Dynamic

variable {α : Type} [LinearOrderedField α]

/-- The expression `VectorXd::Constant(N, c)`. -/
def VectorXd.Constant (N : ℕ) (c : α) : VectorXd α := ⟨N, fun _ => c⟩

/-- Scalar times vector, `c * v`. -/
def VectorXd.smul (c : α) (v : VectorXd α) : VectorXd α := ⟨v.size, fun i => c * v.coeff i⟩

/-- Vector sum `v + w` (Eigen requires equal sizes; the result has the size of `v`). -/
def VectorXd.add (v w : VectorXd α) : VectorXd α := ⟨v.size, fun i => v.coeff i + w.coeff i⟩

/-- The outer product `v * w.adjoint()`. -/
def VectorXd.mulAdjoint (v w : VectorXd α) : MatrixXd α :=
  ⟨v.size, w.size, fun i k => v.coeff i * w.coeff k⟩

/-- The view `v.asDiagonal()` as a square matrix. -/
def VectorXd.asDiagonal (v : VectorXd α) : MatrixXd α :=
  ⟨v.size, v.size, fun i k => if i = k then v.coeff i else 0⟩

/-- The column `M.col(j)`. -/
def MatrixXd.col (M : MatrixXd α) (j : ℕ) : VectorXd α := ⟨M.rows, fun i => M.coeff i j⟩

/-- The matrix `MatrixXd(N,N).setZero()`. -/
def MatrixXd.setZero (N M : ℕ) : MatrixXd α := ⟨N, M, fun _ _ => 0⟩

/-- The matrix `MatrixXd::Identity(N,N)`. -/
def MatrixXd.Identity (N M : ℕ) : MatrixXd α := ⟨N, M, fun i k => if i = k then 1 else 0⟩

/-- Scalar times matrix, `c * M`. -/
def MatrixXd.smul (c : α) (M : MatrixXd α) : MatrixXd α :=
  ⟨M.rows, M.cols, fun i k => c * M.coeff i k⟩

/-- The coefficient-wise product `A.cwiseProduct(B)`. -/
def MatrixXd.cwiseProduct (A B : MatrixXd α) : MatrixXd α :=
  ⟨A.rows, A.cols, fun i k => A.coeff i k * B.coeff i k⟩

/-- The update `psi += E`: the left operand keeps its shape. -/
def MatrixXd.addAssign (psi E : MatrixXd α) : MatrixXd α :=
  ⟨psi.rows, psi.cols, fun i k => psi.coeff i k + E.coeff i k⟩

/-- The expression `0.5 * DTR.array().pow(2)`. -/
def MatrixXd.halfSquare (DTR : MatrixXd α) : MatrixXd α :=
  ⟨DTR.rows, DTR.cols, fun i k => 0.5 * DTR.coeff i k ^ 2⟩

/-- The matrix-vector product `A * c` (Eigen requires `c.size() == A.cols()`). -/
def MatrixXd.mulVec (A : MatrixXd α) (c : VectorXd α) : VectorXd α :=
  ⟨A.rows, fun i => ∑ t in Finset.range A.cols, A.coeff i t * c.coeff t⟩

/-- The `N × P` block of coefficients of a dynamic matrix, as a statically sized matrix. -/
def MatrixXd.toMatrix (N P : ℕ) (M : MatrixXd α) : Matrix (Fin N) (Fin P) α :=
  fun i k => M.coeff i k

/-- The first `N` coefficients of a dynamic vector. -/
def VectorXd.toVec (N : ℕ) (v : VectorXd α) : Fin N → α := fun i => v.coeff i

/-- A `for (int j = 0; j < J; j++)` loop over a state: `forLoop body J s` is the state after
the iterations `0, …, J-1`. -/
def forLoop {σ : Type} (body : ℕ → σ → σ) : ℕ → σ → σ
  | 0, s => s
  | j + 1, s => body j (forLoop body j s)

end Dynamic

/-! ## The covariance kernels (external headers) -/

/-- The three kernel functions of `covExp.h`, `covGauss.h` and `covMat.h`. Their bodies are
not among the sources; the evaluators use them as `(distances, range[, nu]) ↦ covariance`,
and a kernel returns a matrix of the shape of its argument. -/
structure Kernels (α : Type) where
  covExp : MatrixXd α → α → MatrixXd α
  covGauss : MatrixXd α → α → MatrixXd α
  covMat : MatrixXd α → α → α → MatrixXd α
  covExp_rows : ∀ D t, (covExp D t).rows = D.rows
  covExp_cols : ∀ D t, (covExp D t).cols = D.cols
  covGauss_rows : ∀ D t, (covGauss D t).rows = D.rows
  covGauss_cols : ∀ D t, (covGauss D t).cols = D.cols
  covMat_rows : ∀ D t nu, (covMat D t nu).rows = D.rows
  covMat_cols : ∀ D t nu, (covMat D t nu).cols = D.cols

section Assembly

variable {α : Type} [LinearOrderedField α]

/-- Lines 38–57 of `logProfile.cpp`: the matrix `psi` handed to the factorisations. -/
def logProfileCpp.psi (K : Kernels α) (theta : VectorXd α) (DTR : MatrixXd α)
    (Y : VectorXd α) (subsetStatic : VectorXd α) (PhiTime : MatrixXd α)
    (LambEst : VectorXd α) (nu : α) : MatrixXd α :=
  let N := Y.size
  let J := LambEst.size
  let psi : MatrixXd α := MatrixXd.setZero N N
  let psi :=
    if nu = 0.5 then
      forLoop (fun j psi => psi.addAssign
        (((K.covExp DTR (theta.coeff j)).cwiseProduct
          ((PhiTime.col j).mulAdjoint (PhiTime.col j))).smul (LambEst.coeff j))) J psi
    else if nu > 10 then
      forLoop (fun j psi => psi.addAssign
        (((K.covGauss DTR.halfSquare (theta.coeff j)).cwiseProduct
          ((PhiTime.col j).mulAdjoint (PhiTime.col j))).smul (LambEst.coeff j))) J psi
    else
      forLoop (fun j psi => psi.addAssign
        (((K.covMat DTR (theta.coeff j) nu).cwiseProduct
          ((PhiTime.col j).mulAdjoint (PhiTime.col j))).smul (LambEst.coeff j))) J psi
  let RandNoise : VectorXd α :=
    ((VectorXd.Constant N 1).smul (theta.coeff (J + 1))).add
      (subsetStatic.smul (theta.coeff J - theta.coeff (J + 1)))
  psi.addAssign RandNoise.asDiagonal

/-- Lines 33–50 of `logProfileH.cpp`: the matrix `psi` handed to the factorisations. -/
def logProfileCppH.psi (K : Kernels α) (theta : VectorXd α) (DTR : MatrixXd α)
    (Y : VectorXd α) (PhiTime : MatrixXd α) (LambEst : VectorXd α) (nu : α) : MatrixXd α :=
  let N := Y.size
  let J := LambEst.size
  let psi : MatrixXd α := MatrixXd.setZero N N
  let psi :=
    if nu = 0.5 then
      forLoop (fun j psi => psi.addAssign
        (((K.covExp DTR (theta.coeff j)).cwiseProduct
          ((PhiTime.col j).mulAdjoint (PhiTime.col j))).smul (LambEst.coeff j))) J psi
    else if nu > 10 then
      forLoop (fun j psi => psi.addAssign
        (((K.covGauss DTR.halfSquare (theta.coeff j)).cwiseProduct
          ((PhiTime.col j).mulAdjoint (PhiTime.col j))).smul (LambEst.coeff j))) J psi
    else
      forLoop (fun j psi => psi.addAssign
        (((K.covMat DTR (theta.coeff j) nu).cwiseProduct
          ((PhiTime.col j).mulAdjoint (PhiTime.col j))).smul (LambEst.coeff j))) J psi
  psi.addAssign ((MatrixXd.Identity N N).smul (theta.coeff J))

/-- The kernel matrix of component `j` as the three-way test on `nu` selects it:
`covExp(DTR, θ)` when `nu = 0.5`, else `covGauss(0.5·DTR², θ)` when `nu > 10`, else
`covMat(DTR, θ, nu)`. -/
def selectedKernel (K : Kernels α) (nu : α) (DTR : MatrixXd α) (range : α) : MatrixXd α :=
  if nu = 0.5 then K.covExp DTR range
  else if nu > 10 then K.covGauss DTR.halfSquare range
  else K.covMat DTR range nu

/-- The weighted Hadamard/outer-product sum of section 4.2 of the specification, entry
`(i,k)`, for a family `Kj` of kernel matrices. -/
def kernelSum (Kj : ℕ → MatrixXd α) (PhiTime : MatrixXd α) (LambEst : VectorXd α)
    (i k : ℕ) : α :=
  ∑ j in Finset.range LambEst.size,
    LambEst.coeff j * (Kj j).coeff i k * PhiTime.coeff i j * PhiTime.coeff k j

end Assembly

/-! ## Eigen's factorisations -/

section Factorisations

variable {α : Type} [LinearOrderedField α] {n p : ℕ}

/-- In-place substitution `L.triangularView<Lower>().solveInPlace(b)`: the state after the
rows `0, …, k-1` have been solved. Row `k` becomes `(b k - Σ_{t<k} L k t * y t) / L k k`;
with `unitDiag` the diagonal is taken to be `1` and nothing is divided. Only the lower
triangle of `L` is read. -/
def solveLowerInPlace (unitDiag : Bool) (L : Matrix (Fin n) (Fin n) α) (b : Fin n → α) :
    ℕ → Fin n → α
  | 0 => b
  | k + 1 =>
    let y := solveLowerInPlace unitDiag L b k
    if h : k < n then
      let r : Fin n := ⟨k, h⟩
      let v := y r - ∑ t in Finset.univ.filter (fun t => t < r), L r t * y t
      Function.update y r (if unitDiag then v else v / L r r)
    else y

/-- In-place substitution `U.triangularView<Upper>().solveInPlace(b)`: the state after the
last `k` rows have been solved, from the bottom row upwards. Only the upper triangle of `U`
is read. -/
def solveUpperInPlace (unitDiag : Bool) (U : Matrix (Fin n) (Fin n) α) (b : Fin n → α) :
    ℕ → Fin n → α
  | 0 => b
  | k + 1 =>
    let x := solveUpperInPlace unitDiag U b k
    if h : k < n then
      let r : Fin n := Fin.rev ⟨k, h⟩
      let v := x r - ∑ t in Finset.univ.filter (fun t => r < t), U r t * x t
      Function.update x r (if unitDiag then v else v / U r r)
    else x

/-- The object `Eigen::LLT<MatrixXd>` after `compute`: the working matrix, whose lower
triangle holds the factor, and the status (`true` for `Success`, `false` for
`NumericalIssue`). -/
structure LLT (α : Type) (n : ℕ) where
  m_matrix : Matrix (Fin n) (Fin n) α
  m_info : Bool

/-- One iteration of Eigen's unblocked Cholesky kernel at column `k`:
`x = mat(k,k) - ‖A10‖²`; if `x ≤ 0` the kernel returns (`none`); otherwise
`mat(k,k) = sqrt x` and `A21 = (A21 - A20·A10ᵀ) / sqrt x`. -/
def lltColumn (sqrt : α → α) (mat : Matrix (Fin n) (Fin n) α) (k : Fin n) :
    Option (Matrix (Fin n) (Fin n) α) :=
  let x := mat k k - ∑ t in Finset.univ.filter (fun t => t < k), mat k t * mat k t
  if x ≤ 0 then none
  else
    some (fun i j =>
      if j = k then
        if i = k then sqrt x
        else if k < i then
          (mat i k - ∑ t in Finset.univ.filter (fun t => t < k), mat i t * mat k t) / sqrt x
        else mat i j
      else mat i j)

/-- Eigen's unblocked Cholesky loop: the working matrix and the status after the columns
`0, …, k-1`. Once a pivot is non-positive the loop has returned and the matrix stays as it
was at that point. (From size 32 on Eigen runs this kernel block by block; a factorisation
that succeeds yields the same factor either way.) -/
def lltUnblocked (sqrt : α → α) (A : Matrix (Fin n) (Fin n) α) :
    ℕ → Matrix (Fin n) (Fin n) α × Bool
  | 0 => (A, true)
  | k + 1 =>
    let s := lltUnblocked sqrt A k
    if s.2 then
      if h : k < n then
        match lltColumn sqrt s.1 ⟨k, h⟩ with
        | some m => (m, true)
        | none => (s.1, false)
      else s
    else s

/-- The call `A.llt()`. -/
def llt (sqrt : α → α) (A : Matrix (Fin n) (Fin n) α) : LLT α n :=
  ⟨(lltUnblocked sqrt A n).1, (lltUnblocked sqrt A n).2⟩

/-- The view `matrixL()`: the lower triangle of the working matrix. -/
def LLT.matrixL (F : LLT α n) : Matrix (Fin n) (Fin n) α :=
  fun i j => if j ≤ i then F.m_matrix i j else 0

/-- The call `llt.solve(b)` for one right-hand side: `L y = b`, then `Lᵀ x = y`. -/
def LLT.solveVec (F : LLT α n) (b : Fin n → α) : Fin n → α :=
  solveUpperInPlace false F.matrixLᵀ (solveLowerInPlace false F.matrixL b n) n

/-- The call `llt.solve(B)`, column by column. -/
def LLT.solve (F : LLT α n) (B : Matrix (Fin n) (Fin p) α) : Matrix (Fin n) (Fin p) α :=
  fun i c => F.solveVec (fun r => B r c) i

/-- The object `Eigen::LDLT<MatrixXd>` after `compute`: the working matrix (strict lower
triangle: the unit factor `L`; diagonal: `D`) and the product of the transpositions applied
so far. The status and the sign are not kept: the evaluators never read them. -/
structure LDLT (α : Type) (n : ℕ) where
  m_matrix : Matrix (Fin n) (Fin n) α
  m_transpositions : Equiv.Perm (Fin n)

/-- The pivot search `mat.diagonal().tail(size-k).cwiseAbs().maxCoeff(&index)`: the first
index `≥ k` whose diagonal entry is largest in absolute value. -/
def indexOfBiggestInCorner (d : Fin n → α) (k : Fin n) : Fin n :=
  (List.finRange n).foldl (fun best i => if k < i ∧ |d best| < |d i| then i else best) k

/-- One iteration of Eigen's `ldlt_inplace` at column `k`: bring the biggest remaining
diagonal entry to position `k` by a symmetric transposition, subtract the contribution of
the columns already factored, and scale the column by the pivot when the pivot is not
zero. Eigen swaps within the lower triangle only; on a working matrix whose trailing block
is symmetric that is the symmetric permutation `submatrix s s`. (Eigen's early returns, for
size `≤ 1` and for an all-zero diagonal, leave the same matrix and transpositions as the
loop does.) -/
def ldltColumn (F : LDLT α n) (k : Fin n) : LDLT α n :=
  let index_of_biggest_in_corner := indexOfBiggestInCorner F.m_matrix.diag k
  let s := Equiv.swap k index_of_biggest_in_corner
  let mat := F.m_matrix.submatrix s s
  let temp : Fin n → α := fun t => mat t t * mat k t
  let akk := mat k k - ∑ t in Finset.univ.filter (fun t => t < k), mat k t * temp t
  let a21 : Fin n → α := fun i =>
    mat i k - ∑ t in Finset.univ.filter (fun t => t < k), mat i t * temp t
  ⟨fun i j =>
      if j = k then
        if i = k then akk
        else if k < i then (if |akk| > 0 then a21 i / akk else a21 i)
        else mat i j
      else mat i j,
    F.m_transpositions * s⟩

/-- Eigen's `ldlt_inplace` loop: the state after the columns `0, …, k-1`. -/
def ldltUnblocked (F : LDLT α n) : ℕ → LDLT α n
  | 0 => F
  | k + 1 =>
    if h : k < n then ldltColumn (ldltUnblocked F k) ⟨k, h⟩ else ldltUnblocked F k

/-- The self-adjoint matrix that a factorisation reading only the lower triangle sees. -/
def selfadjointLower (A : Matrix (Fin n) (Fin n) α) : Matrix (Fin n) (Fin n) α :=
  fun i j => if j ≤ i then A i j else A j i

/-- The call `A.ldlt()`. -/
def ldlt (A : Matrix (Fin n) (Fin n) α) : LDLT α n :=
  ldltUnblocked ⟨selfadjointLower A, 1⟩ n

/-- The view `matrixL()` of an `LDLT`: unit lower triangular. -/
def LDLT.matrixL (F : LDLT α n) : Matrix (Fin n) (Fin n) α :=
  fun i j => if j < i then F.m_matrix i j else if i = j then 1 else 0

/-- The view `vectorD()`. -/
def LDLT.vectorD (F : LDLT α n) : Fin n → α := fun i => F.m_matrix i i

/-- The call `ldlt.solve(b)`: `P b`, then `L⁻¹`, then the pseudo-inverse of `D` (an entry of
`D` that is zero gives a zero row; in exact arithmetic Eigen's cut-off, the smallest
positive `double`, is the test against zero), then `L⁻ᵀ`, then `Pᵀ`. -/
def LDLT.solve (F : LDLT α n) (b : Fin n → α) : Fin n → α :=
  let dst : Fin n → α := fun i => b (F.m_transpositions i)
  let dst := solveLowerInPlace true F.matrixL dst n
  let dst : Fin n → α := fun i => if |F.vectorD i| > 0 then dst i / F.vectorD i else 0
  let dst := solveUpperInPlace true F.matrixLᵀ dst n
  fun i => dst (F.m_transpositions.symm i)

end Factorisations

/-! ## Partial factors (used to state the loop invariants) -/

section PartialFactors

variable {α : Type} [LinearOrderedField α] {n : ℕ}

/-- The columns `< k` of the lower triangle of a working matrix and zero elsewhere: what
the Cholesky loop has produced of the factor after `k` iterations. -/
def lowerCols (k : ℕ) (m : Matrix (Fin n) (Fin n) α) : Matrix (Fin n) (Fin n) α :=
  fun i t => if t.val < k ∧ t ≤ i then m i t else 0

/-- The columns `< k` of the unit lower triangular view of a working matrix and zero
elsewhere: what the `L·D·Lᵀ` loop has produced of the factor `L` after `k` iterations. -/
def unitLowerCols (k : ℕ) (m : Matrix (Fin n) (Fin n) α) : Matrix (Fin n) (Fin n) α :=
  fun i t => if t.val < k then (if t < i then m i t else if t = i then 1 else 0) else 0

/-- The first `k` entries of the diagonal of a working matrix and zero elsewhere: what the
`L·D·Lᵀ` loop has produced of `D` after `k` iterations. -/
def diagHead (k : ℕ) (m : Matrix (Fin n) (Fin n) α) : Fin n → α :=
  fun t => if t.val < k then m t t else 0

end PartialFactors

/-! ## The evaluators -/

section Evaluators

variable {α : Type} [LinearOrderedField α]

/-- The value a call returns. `value x`: the finite number `x`. `nonFinite`: a `NaN` or an
infinity, which is what `log` of a non-positive diagonal entry of `U` makes of the sum
`quadForm + logUdet`. `undefinedAccess`: the body indexes past the end of an operand or
combines operands of unequal shapes, for which Eigen defines no result. -/
inductive Outcome (α : Type) where
  | value (x : α)
  | nonFinite
  | undefinedAccess

/-- The local variables of lines 58–64 of `logProfile.cpp` (51–57 of `logProfileH.cpp`). -/
structure Locals (α : Type) (N P : ℕ) where
  U : Matrix (Fin N) (Fin N) α
  SX : Matrix (Fin N) (Fin P) α
  beta : Fin P → α
  resid : Fin N → α
  quadForm : α

/-- Lines 58–64 of `logProfile.cpp`, which are lines 51–57 of `logProfileH.cpp` word for
word: the Cholesky factor, the GLS coefficients, the residual and the quadratic form. -/
def glsLocals {N P : ℕ} (sqrt : α → α) (psi : Matrix (Fin N) (Fin N) α)
    (XTR : Matrix (Fin N) (Fin P) α) (Y : Fin N → α) : Locals α N P :=
  let U := (llt sqrt psi).matrixLᵀ
  let SX := (llt sqrt psi).solve XTR
  let beta := (ldlt (XTRᵀ * SX)).solve (SXᵀ *ᵥ Y)
  let resid := Y - XTR *ᵥ beta
  let quadForm := resid ⬝ᵥ (ldlt psi).solve resid
  ⟨U, SX, beta, resid, quadForm⟩

/-- Lines 65–66: `logUdet = 2*U.diagonal().array().log().sum()` and the returned sum. The
logarithm of a diagonal entry that is not positive is `NaN` or `-∞`, and then so is the
returned value, whatever `quadForm` is. (A zero on the diagonal of `U` is also the only way
a substitution of `llt.solve` can divide by zero.) -/
def Locals.result {N P : ℕ} (log : α → α) (l : Locals α N P) : Outcome α :=
  if ∀ i, 0 < l.U i i then
    let logUdet := 2 * ∑ i, log (l.U.diag i)
    Outcome.value (l.quadForm + logUdet)
  else Outcome.nonFinite

/-- Every coefficient access and every Eigen expression of `logProfileCpp` is within the
shapes of its operands: `theta(J+1)` exists, `subsetStatic` and the rows of `XTR` match
`N = Y.size()`, and, when the loop over the `J` components runs at all, `DTR` is `N × N` and
`PhiTime` has `N` rows and a column for every `j < J`. -/
def logProfileCpp.accessOk (theta : VectorXd α) (DTR : MatrixXd α) (Y : VectorXd α)
    (XTR : MatrixXd α) (subsetStatic : VectorXd α) (PhiTime : MatrixXd α)
    (LambEst : VectorXd α) : Prop :=
  LambEst.size + 2 ≤ theta.size ∧ subsetStatic.size = Y.size ∧ XTR.rows = Y.size ∧
    (0 < LambEst.size → DTR.rows = Y.size ∧ DTR.cols = Y.size ∧ PhiTime.rows = Y.size ∧
      LambEst.size ≤ PhiTime.cols)

instance (theta : VectorXd α) (DTR : MatrixXd α) (Y : VectorXd α)
    (XTR : MatrixXd α) (subsetStatic : VectorXd α) (PhiTime : MatrixXd α)
    (LambEst : VectorXd α) :
    Decidable (logProfileCpp.accessOk theta DTR Y XTR subsetStatic PhiTime LambEst) := by
  unfold logProfileCpp.accessOk; infer_instance

/-- The same for `logProfileCppH`: `theta(J)` exists, the rows of `XTR` match `N`, and, when
the loop runs, `DTR` is `N × N` and `PhiTime` is `N × (≥ J)`. -/
def logProfileCppH.accessOk (theta : VectorXd α) (DTR : MatrixXd α) (Y : VectorXd α)
    (XTR : MatrixXd α) (PhiTime : MatrixXd α) (LambEst : VectorXd α) : Prop :=
  LambEst.size + 1 ≤ theta.size ∧ XTR.rows = Y.size ∧
    (0 < LambEst.size → DTR.rows = Y.size ∧ DTR.cols = Y.size ∧ PhiTime.rows = Y.size ∧
      LambEst.size ≤ PhiTime.cols)

instance (theta : VectorXd α) (DTR : MatrixXd α) (Y : VectorXd α)
    (XTR : MatrixXd α) (PhiTime : MatrixXd α) (LambEst : VectorXd α) :
    Decidable (logProfileCppH.accessOk theta DTR Y XTR PhiTime LambEst) := by
  unfold logProfileCppH.accessOk; infer_instance

/-- The local variables `U`, `SX`, `beta`, `resid`, `quadForm` of a call of
`logProfileCpp`. -/
def logProfileCpp.locals (K : Kernels α) (sqrt : α → α) (theta : VectorXd α)
    (DTR : MatrixXd α) (Y : VectorXd α) (XTR : MatrixXd α) (subsetStatic : VectorXd α)
    (PhiTime : MatrixXd α) (LambEst : VectorXd α) (nu : α) : Locals α Y.size XTR.cols :=
  glsLocals sqrt
    ((logProfileCpp.psi K theta DTR Y subsetStatic PhiTime LambEst nu).toMatrix Y.size Y.size)
    (XTR.toMatrix Y.size XTR.cols) (Y.toVec Y.size)

/-- The function `logProfileCpp` of `src/logProfile.cpp`. -/
def logProfileCpp (K : Kernels α) (sqrt log : α → α) (theta : VectorXd α)
    (DTR : MatrixXd α) (Y : VectorXd α) (XTR : MatrixXd α) (subsetStatic : VectorXd α)
    (PhiTime : MatrixXd α) (LambEst : VectorXd α) (nu : α) : Outcome α :=
  if logProfileCpp.accessOk theta DTR Y XTR subsetStatic PhiTime LambEst then
    (logProfileCpp.locals K sqrt theta DTR Y XTR subsetStatic PhiTime LambEst nu).result log
  else Outcome.undefinedAccess

/-- The local variables `U`, `SX`, `beta`, `resid`, `quadForm` of a call of
`logProfileCppH`. -/
def logProfileCppH.locals (K : Kernels α) (sqrt : α → α) (theta : VectorXd α)
    (DTR : MatrixXd α) (Y : VectorXd α) (XTR : MatrixXd α)
    (PhiTime : MatrixXd α) (LambEst : VectorXd α) (nu : α) : Locals α Y.size XTR.cols :=
  glsLocals sqrt
    ((logProfileCppH.psi K theta DTR Y PhiTime LambEst nu).toMatrix Y.size Y.size)
    (XTR.toMatrix Y.size XTR.cols) (Y.toVec Y.size)

/-- The function `logProfileCppH` of `src/logProfileH.cpp`. -/
def logProfileCppH (K : Kernels α) (sqrt log : α → α) (theta : VectorXd α)
    (DTR : MatrixXd α) (Y : VectorXd α) (XTR : MatrixXd α)
    (PhiTime : MatrixXd α) (LambEst : VectorXd α) (nu : α) : Outcome α :=
  if logProfileCppH.accessOk theta DTR Y XTR PhiTime LambEst then
    (logProfileCppH.locals K sqrt theta DTR Y XTR PhiTime LambEst nu).result log
  else Outcome.undefinedAccess

end Evaluators

/-! ## Concrete inputs -/

section Examples

variable {α : Type} [LinearOrderedField α]

/-- A kernel family for concrete runs: covariance `1` at distance `0` (the value of
`exp(-d/θ)` there) and `0` at every other distance, for each of the three kernels. -/
def nuggetKernels : Kernels α where
  covExp := fun D _ => ⟨D.rows, D.cols, fun i k => if D.coeff i k = 0 then 1 else 0⟩
  covGauss := fun D _ => ⟨D.rows, D.cols, fun i k => if D.coeff i k = 0 then 1 else 0⟩
  covMat := fun D _ _ => ⟨D.rows, D.cols, fun i k => if D.coeff i k = 0 then 1 else 0⟩
  covExp_rows := fun _ _ => rfl
  covExp_cols := fun _ _ => rfl
  covGauss_rows := fun _ _ => rfl
  covGauss_cols := fun _ _ => rfl
  covMat_rows := fun _ _ _ => rfl
  covMat_cols := fun _ _ _ => rfl

/-- The vector `(a, b)`. -/
def vec2 (a b : α) : VectorXd α := ⟨2, fun i => if i = 0 then a else b⟩

/-- The vector `(a, b, c)`. -/
def vec3 (a b c : α) : VectorXd α := ⟨3, fun i => if i = 0 then a else if i = 1 then b else c⟩

/-- The vector `(a)`. -/
def vec1 (a : α) : VectorXd α := ⟨1, fun _ => a⟩

/-- The empty vector. -/
def vec0 : VectorXd α := ⟨0, fun _ => 0⟩

/-- Two sites at distance `1`: the distance matrix `[[0,1],[1,0]]`. -/
def exDTR : MatrixXd α := ⟨2, 2, fun i k => if i = k then 0 else 1⟩

/-- The `2 × 1` matrix with both entries `1` (an intercept column; one temporal loading). -/
def exOnes : MatrixXd α := ⟨2, 1, fun _ _ => 1⟩

/-- The `1 × 1` matrix `[[c]]`. -/
def mat1 (c : α) : MatrixXd α := ⟨1, 1, fun _ _ => c⟩

/-- The vector `(a, b, c, d)`. -/
def vec4 (a b c d : α) : VectorXd α :=
  ⟨4, fun i => if i = 0 then a else if i = 1 then b else if i = 2 then c else d⟩

/-- Two observations at one site: the distance matrix `[[0,0],[0,0]]`. -/
def exSame : MatrixXd α := ⟨2, 2, fun _ _ => 0⟩

/-- The `2 × 1` matrix with the column `(1, 2)` (one temporal loading). -/
def exRamp : MatrixXd α := ⟨2, 1, fun i _ => (i : α) + 1⟩

/-! ### The call in the `R` block at the end of `logProfile.cpp` (lines 69–73) -/

/-- The argument `testTheta <- 1:3`. -/
def testTheta : VectorXd α := vec3 1 2 3

/-- The argument `testDTR <- matrix(1,420,420)`. -/
def testDTR : MatrixXd α := ⟨420, 420, fun _ _ => 1⟩

/-- The argument `testY <- 1:420`. -/
def testY : VectorXd α := ⟨420, fun i => (i : α) + 1⟩

/-- The argument `testXTR <- matrix(1,420,6)`. -/
def testXTR : MatrixXd α := ⟨420, 6, fun _ _ => 1⟩

/-- The argument `testSubsetStatic <- rep(c(0,1), each = 210)`. -/
def testSubsetStatic : VectorXd α := ⟨420, fun i => if i < 210 then 0 else 1⟩

/-- The argument `testPhiTime <- matrix(rep(1:420,2), ncol=2)`: filled by columns, so both
columns are `1, …, 420`. -/
def testPhiTime : MatrixXd α := ⟨420, 2, fun i _ => (i : α) + 1⟩

/-- The argument `testLambEst <- 1:2`. -/
def testLambEst : VectorXd α := vec2 1 2

end Examples

section AssemblyLemmas
variable {α : Type} [LinearOrderedField α]

theorem forLoop_addAssign_coeff (E : ℕ → MatrixXd α) (psi0 : MatrixXd α) (J i k : ℕ) :
    (forLoop (fun j psi => psi.addAssign (E j)) J psi0).coeff i k
      = psi0.coeff i k + ∑ j in Finset.range J, (E j).coeff i k := by
  induction J with
  | zero => simp [forLoop]
  | succ J ih =>
    rw [Finset.sum_range_succ, ← add_assoc, ← ih]
    rfl

theorem kernelLoop_coeff (Kj : ℕ → MatrixXd α) (PhiTime : MatrixXd α) (LambEst : VectorXd α)
    (N i k : ℕ) :
    (forLoop (fun j psi => MatrixXd.addAssign psi
        (((Kj j).cwiseProduct ((PhiTime.col j).mulAdjoint (PhiTime.col j))).smul
          (LambEst.coeff j))) LambEst.size (MatrixXd.setZero N N)).coeff i k
      = kernelSum Kj PhiTime LambEst i k := by
  rw [forLoop_addAssign_coeff]
  simp only [MatrixXd.setZero, MatrixXd.smul, MatrixXd.cwiseProduct, VectorXd.mulAdjoint,
    MatrixXd.col, kernelSum, zero_add]
  refine Finset.sum_congr rfl (fun j _ => ?_)
  ring

theorem logProfileCpp_psi_coeff (K : Kernels α) (theta : VectorXd α) (DTR : MatrixXd α)
    (Y subsetStatic : VectorXd α) (PhiTime : MatrixXd α) (LambEst : VectorXd α) (nu : α)
    (i k : ℕ) :
    (logProfileCpp.psi K theta DTR Y subsetStatic PhiTime LambEst nu).coeff i k
      = kernelSum (fun j => selectedKernel K nu DTR (theta.coeff j)) PhiTime LambEst i k
        + (if i = k then theta.coeff (LambEst.size + 1)
            + (theta.coeff LambEst.size - theta.coeff (LambEst.size + 1)) * subsetStatic.coeff i
          else 0) := by
  unfold logProfileCpp.psi selectedKernel
  simp only [MatrixXd.addAssign]
  congr 1
  · split_ifs with h1 h2
    · exact kernelLoop_coeff _ _ _ _ _ _
    · exact kernelLoop_coeff _ _ _ _ _ _
    · exact kernelLoop_coeff _ _ _ _ _ _
  · simp only [VectorXd.asDiagonal, VectorXd.add, VectorXd.smul, VectorXd.Constant]
    split_ifs <;> ring

theorem logProfileCppH_psi_coeff (K : Kernels α) (theta : VectorXd α) (DTR : MatrixXd α)
    (Y : VectorXd α) (PhiTime : MatrixXd α) (LambEst : VectorXd α) (nu : α)
    (i k : ℕ) :
    (logProfileCppH.psi K theta DTR Y PhiTime LambEst nu).coeff i k
      = kernelSum (fun j => selectedKernel K nu DTR (theta.coeff j)) PhiTime LambEst i k
        + (if i = k then theta.coeff LambEst.size else 0) := by
  unfold logProfileCppH.psi selectedKernel
  simp only [MatrixXd.addAssign]
  congr 1
  · split_ifs with h1 h2
    · exact kernelLoop_coeff _ _ _ _ _ _
    · exact kernelLoop_coeff _ _ _ _ _ _
    · exact kernelLoop_coeff _ _ _ _ _ _
  · simp only [MatrixXd.smul, MatrixXd.Identity]
    split_ifs <;> ring

theorem logProfileCpp_psi_kernel_eq (K : Kernels α) (theta : VectorXd α) (DTR : MatrixXd α)
    (Y subsetStatic : VectorXd α) (PhiTime : MatrixXd α) (LambEst : VectorXd α) (nu : α)
    (Kj : ℕ → MatrixXd α)
    (h : ∀ j, j < LambEst.size → selectedKernel K nu DTR (theta.coeff j) = Kj j) (i k : ℕ) :
    (logProfileCpp.psi K theta DTR Y subsetStatic PhiTime LambEst nu).coeff i k
      = (∑ j in Finset.range LambEst.size,
          LambEst.coeff j * (Kj j).coeff i k * PhiTime.coeff i j * PhiTime.coeff k j)
        + (if i = k then theta.coeff (LambEst.size + 1)
            + (theta.coeff LambEst.size - theta.coeff (LambEst.size + 1)) * subsetStatic.coeff i
          else 0) := by
  rw [logProfileCpp_psi_coeff]
  congr 1
  unfold kernelSum
  refine Finset.sum_congr rfl (fun j hj => ?_)
  dsimp only
  rw [h j (Finset.mem_range.mp hj)]

theorem logProfileCppH_psi_kernel_eq (K : Kernels α) (theta : VectorXd α) (DTR : MatrixXd α)
    (Y : VectorXd α) (PhiTime : MatrixXd α) (LambEst : VectorXd α) (nu : α)
    (Kj : ℕ → MatrixXd α)
    (h : ∀ j, j < LambEst.size → selectedKernel K nu DTR (theta.coeff j) = Kj j) (i k : ℕ) :
    (logProfileCppH.psi K theta DTR Y PhiTime LambEst nu).coeff i k
      = (∑ j in Finset.range LambEst.size,
          LambEst.coeff j * (Kj j).coeff i k * PhiTime.coeff i j * PhiTime.coeff k j)
        + (if i = k then theta.coeff LambEst.size else 0) := by
  rw [logProfileCppH_psi_coeff]
  congr 1
  unfold kernelSum
  refine Finset.sum_congr rfl (fun j hj => ?_)
  dsimp only
  rw [h j (Finset.mem_range.mp hj)]

end AssemblyLemmas

section AssemblyClaims
variable {α : Type} [LinearOrderedField α]

/-- Claim C3. In `logProfileCpp` the factorised matrix has, for all `i, k < N`, the entry
`Σ_{j<J} LambEst(j)·K_j[i,k]·PhiTime[i,j]·PhiTime[k,j]`, plus, on the diagonal,
`theta(J+1) + (theta(J) - theta(J+1))·subsetStatic(i)`, where `K_j` is the kernel selected by
`nu` at range `theta(j)`; so the diagonal noise is `theta(J)` where `subsetStatic(i) = 1` and
`theta(J+1)` where `subsetStatic(i) = 0`. -/
theorem C3_logProfileCpp_psi_entries (K : Kernels α) (theta : VectorXd α) (DTR : MatrixXd α)
    (Y subsetStatic : VectorXd α) (PhiTime : MatrixXd α) (LambEst : VectorXd α) (nu : α)
    (i k : Fin Y.size) :
    ((logProfileCpp.psi K theta DTR Y subsetStatic PhiTime LambEst nu).toMatrix
        Y.size Y.size i k
      = (∑ j in Finset.range LambEst.size,
          LambEst.coeff j * (selectedKernel K nu DTR (theta.coeff j)).coeff i k
            * PhiTime.coeff i j * PhiTime.coeff k j)
        + (if i = k then theta.coeff (LambEst.size + 1)
            + (theta.coeff LambEst.size - theta.coeff (LambEst.size + 1))
              * subsetStatic.coeff i
          else 0))
    ∧ (subsetStatic.coeff i = 1 →
        (logProfileCpp.psi K theta DTR Y subsetStatic PhiTime LambEst nu).toMatrix
            Y.size Y.size i i
          = (∑ j in Finset.range LambEst.size,
              LambEst.coeff j * (selectedKernel K nu DTR (theta.coeff j)).coeff i i
                * PhiTime.coeff i j * PhiTime.coeff i j)
            + theta.coeff LambEst.size)
    ∧ (subsetStatic.coeff i = 0 →
        (logProfileCpp.psi K theta DTR Y subsetStatic PhiTime LambEst nu).toMatrix
            Y.size Y.size i i
          = (∑ j in Finset.range LambEst.size,
              LambEst.coeff j * (selectedKernel K nu DTR (theta.coeff j)).coeff i i
                * PhiTime.coeff i j * PhiTime.coeff i j)
            + theta.coeff (LambEst.size + 1)) := by
  refine ⟨?_, fun h1 => ?_, fun h0 => ?_⟩
  · unfold MatrixXd.toMatrix
    rw [logProfileCpp_psi_coeff]
    simp only [kernelSum, Fin.val_inj]
  · unfold MatrixXd.toMatrix
    rw [logProfileCpp_psi_coeff, h1]
    simp [kernelSum]
  · unfold MatrixXd.toMatrix
    rw [logProfileCpp_psi_coeff, h0]
    simp [kernelSum]

/-- Claim C4. In `logProfileCppH` the factorised matrix has, for all `i, k < N`, the entry
`Σ_{j<J} LambEst(j)·K_j[i,k]·PhiTime[i,j]·PhiTime[k,j]`, plus `theta(J)` on the diagonal;
entries of `theta` beyond index `J` and columns of `PhiTime` beyond `J-1` do not influence
it. -/
theorem C4_logProfileCppH_psi_entries (K : Kernels α) (theta : VectorXd α) (DTR : MatrixXd α)
    (Y : VectorXd α) (PhiTime : MatrixXd α) (LambEst : VectorXd α) (nu : α) :
    (∀ i k : Fin Y.size,
      (logProfileCppH.psi K theta DTR Y PhiTime LambEst nu).toMatrix Y.size Y.size i k
        = (∑ j in Finset.range LambEst.size,
            LambEst.coeff j * (selectedKernel K nu DTR (theta.coeff j)).coeff i k
              * PhiTime.coeff i j * PhiTime.coeff k j)
          + (if i = k then theta.coeff LambEst.size else 0))
    ∧ (∀ (theta2 : VectorXd α) (PhiTime2 : MatrixXd α),
        (∀ j, j ≤ LambEst.size → theta2.coeff j = theta.coeff j) →
        (∀ i j, i < Y.size → j < LambEst.size → PhiTime2.coeff i j = PhiTime.coeff i j) →
        (logProfileCppH.psi K theta2 DTR Y PhiTime2 LambEst nu).toMatrix Y.size Y.size
          = (logProfileCppH.psi K theta DTR Y PhiTime LambEst nu).toMatrix Y.size Y.size) := by
  refine ⟨fun i k => ?_, fun theta2 PhiTime2 ht hp => ?_⟩
  · unfold MatrixXd.toMatrix
    rw [logProfileCppH_psi_coeff]
    simp only [kernelSum, Fin.val_inj]
  · funext i k
    unfold MatrixXd.toMatrix
    rw [logProfileCppH_psi_coeff, logProfileCppH_psi_coeff, ht _ le_rfl]
    congr 1
    unfold kernelSum
    refine Finset.sum_congr rfl (fun j hj => ?_)
    have hj2 := Finset.mem_range.mp hj
    dsimp only
    rw [ht j hj2.le, hp i j i.isLt hj2, hp k j k.isLt hj2]

/-- Claim C5. In both evaluators the kernel family depends on `nu` alone and is the same for
all `J` components: `covExp(DTR, theta(j))` when `nu = 0.5`; otherwise
`covGauss(0.5·DTR², theta(j))` when `nu > 10`; otherwise (so also at `nu = 10` and for every
`nu < 0.5`) `covMat(DTR, theta(j), nu)`. -/
theorem C5_kernel_dispatch (K : Kernels α) (theta : VectorXd α) (DTR : MatrixXd α)
    (Y subsetStatic : VectorXd α) (PhiTime : MatrixXd α) (LambEst : VectorXd α) (nu : α)
    (i k : ℕ) :
    (∃ Kj : α → MatrixXd α,
      ((nu = 0.5 → Kj = fun t => K.covExp DTR t)
        ∧ (nu ≠ 0.5 → nu > 10 → Kj = fun t => K.covGauss DTR.halfSquare t)
        ∧ (nu ≠ 0.5 → ¬ nu > 10 → Kj = fun t => K.covMat DTR t nu))
      ∧ (logProfileCpp.psi K theta DTR Y subsetStatic PhiTime LambEst nu).coeff i k
          = (∑ j in Finset.range LambEst.size,
              LambEst.coeff j * (Kj (theta.coeff j)).coeff i k
                * PhiTime.coeff i j * PhiTime.coeff k j)
            + (if i = k then theta.coeff (LambEst.size + 1)
                + (theta.coeff LambEst.size - theta.coeff (LambEst.size + 1))
                  * subsetStatic.coeff i
              else 0)
      ∧ (logProfileCppH.psi K theta DTR Y PhiTime LambEst nu).coeff i k
          = (∑ j in Finset.range LambEst.size,
              LambEst.coeff j * (Kj (theta.coeff j)).coeff i k
                * PhiTime.coeff i j * PhiTime.coeff k j)
            + (if i = k then theta.coeff LambEst.size else 0))
    ∧ DTR.halfSquare.coeff i k = 0.5 * DTR.coeff i k ^ 2
    ∧ ((10 : α) ≠ 0.5 ∧ ¬ (10 : α) > 10)
    ∧ (nu < 0.5 → nu ≠ 0.5 ∧ ¬ nu > 10) := by
  refine ⟨⟨fun t => selectedKernel K nu DTR t, ⟨?_, ?_, ?_⟩, ?_, ?_⟩, rfl, ⟨?_, ?_⟩, ?_⟩
  · intro h; funext t; simp [selectedKernel, h]
  · intro h1 h2; funext t; simp [selectedKernel, h1, h2]
  · intro h1 h2; funext t; simp [selectedKernel, h1, h2]
  · exact logProfileCpp_psi_kernel_eq K theta DTR Y subsetStatic PhiTime LambEst nu _
      (fun j _ => rfl) i k
  · exact logProfileCppH_psi_kernel_eq K theta DTR Y PhiTime LambEst nu _
      (fun j _ => rfl) i k
  · norm_num
  · norm_num
  · intro h
    refine ⟨ne_of_lt h, ?_⟩
    have : (0.5 : α) < 10 := by norm_num
    exact not_lt.mpr (le_of_lt (lt_trans h this))

/-- Claim C6. When every kernel matrix `K_j` is symmetric, the matrix `psi` assembled by
`logProfileCpp` and by `logProfileCppH` is symmetric, for any `theta`, `LambEst`, `PhiTime`
and `subsetStatic` (negative weights and negative noise parameters included). -/
theorem C6_psi_symmetric (K : Kernels α) (thetaA thetaB : VectorXd α) (DTR : MatrixXd α)
    (Y subsetStatic : VectorXd α) (PhiTime : MatrixXd α) (LambEst : VectorXd α) (nu : α) :
    ((∀ j i k, j < LambEst.size → i < Y.size → k < Y.size →
        (selectedKernel K nu DTR (thetaA.coeff j)).coeff i k
          = (selectedKernel K nu DTR (thetaA.coeff j)).coeff k i) →
      ((logProfileCpp.psi K thetaA DTR Y subsetStatic PhiTime LambEst nu).toMatrix
        Y.size Y.size).IsSymm)
    ∧ ((∀ j i k, j < LambEst.size → i < Y.size → k < Y.size →
        (selectedKernel K nu DTR (thetaB.coeff j)).coeff i k
          = (selectedKernel K nu DTR (thetaB.coeff j)).coeff k i) →
      ((logProfileCppH.psi K thetaB DTR Y PhiTime LambEst nu).toMatrix
        Y.size Y.size).IsSymm) := by
  constructor
  · intro hA
    refine Matrix.IsSymm.ext (fun i k => ?_)
    unfold MatrixXd.toMatrix
    rw [logProfileCpp_psi_coeff, logProfileCpp_psi_coeff]
    congr 1
    · unfold kernelSum
      refine Finset.sum_congr rfl (fun j hj => ?_)
      dsimp only
      rw [hA j k i (Finset.mem_range.mp hj) k.isLt i.isLt]
      ring
    · by_cases h : (k : ℕ) = i
      · simp [h]
      · simp [h, Ne.symm h]
  · intro hB
    refine Matrix.IsSymm.ext (fun i k => ?_)
    unfold MatrixXd.toMatrix
    rw [logProfileCppH_psi_coeff, logProfileCppH_psi_coeff]
    congr 1
    · unfold kernelSum
      refine Finset.sum_congr rfl (fun j hj => ?_)
      dsimp only
      rw [hB j k i (Finset.mem_range.mp hj) k.isLt i.isLt]
      ring
    · by_cases h : (k : ℕ) = i
      · simp [h]
      · simp [h, Ne.symm h]

/-- Claim C1. With a constant indicator `subsetStatic(i) = c`, `logProfileCpp` on `thetaA`
(`J+2` entries) returns what `logProfileCppH` returns on `thetaB` (`J+1` entries), where
`thetaB(j) = thetaA(j)` for `j < J` and
`thetaB(J) = thetaA(J+1) + (thetaA(J) - thetaA(J+1))·c`. -/
theorem C1_constant_indicator_equivalence (K : Kernels α) (sqrt log : α → α)
    (thetaA thetaB : VectorXd α) (DTR : MatrixXd α) (Y : VectorXd α) (XTR : MatrixXd α)
    (subsetStatic : VectorXd α) (PhiTime : MatrixXd α) (LambEst : VectorXd α) (nu c : α)
    (hsizeA : thetaA.size = LambEst.size + 2) (hsizeB : thetaB.size = LambEst.size + 1)
    (hsub : subsetStatic.size = Y.size)
    (hconst : ∀ i, i < Y.size → subsetStatic.coeff i = c)
    (hrange : ∀ j, j < LambEst.size → thetaB.coeff j = thetaA.coeff j)
    (hnugget : thetaB.coeff LambEst.size
      = thetaA.coeff (LambEst.size + 1)
        + (thetaA.coeff LambEst.size - thetaA.coeff (LambEst.size + 1)) * c) :
    logProfileCpp K sqrt log thetaA DTR Y XTR subsetStatic PhiTime LambEst nu
      = logProfileCppH K sqrt log thetaB DTR Y XTR PhiTime LambEst nu := by
  have hpsi :
      (logProfileCpp.psi K thetaA DTR Y subsetStatic PhiTime LambEst nu).toMatrix
          Y.size Y.size
        = (logProfileCppH.psi K thetaB DTR Y PhiTime LambEst nu).toMatrix Y.size Y.size := by
    funext i k
    unfold MatrixXd.toMatrix
    rw [logProfileCpp_psi_coeff, logProfileCppH_psi_coeff, hnugget, hconst i i.isLt]
    congr 1
    unfold kernelSum
    refine Finset.sum_congr rfl (fun j hj => ?_)
    dsimp only
    rw [hrange j (Finset.mem_range.mp hj)]
  have hacc : logProfileCpp.accessOk thetaA DTR Y XTR subsetStatic PhiTime LambEst
      ↔ logProfileCppH.accessOk thetaB DTR Y XTR PhiTime LambEst := by
    unfold logProfileCpp.accessOk logProfileCppH.accessOk
    rw [hsizeA, hsizeB]
    simp [hsub]
  unfold logProfileCpp logProfileCppH logProfileCpp.locals logProfileCppH.locals
  rw [hpsi]
  by_cases h : logProfileCppH.accessOk thetaB DTR Y XTR PhiTime LambEst
  · rw [if_pos h, if_pos (hacc.mpr h)]
  · rw [if_neg h, if_neg (fun h2 => h (hacc.mp h2))]

end AssemblyClaims

section Triangular
variable {α : Type} [LinearOrderedField α] {n : ℕ}

theorem sum_split_at (f : Fin n → α) (i : Fin n) :
    ∑ t, f t = ∑ t in Finset.univ.filter (fun t => t < i), f t + f i
      + ∑ t in Finset.univ.filter (fun t => i < t), f t := by
  classical
  rw [← Finset.sum_filter_add_sum_filter_not Finset.univ (fun t => t < i) f]
  rw [add_assoc]
  congr 1
  rw [← Finset.sum_filter_add_sum_filter_not (Finset.univ.filter (fun t => ¬ t < i))
    (fun t => t = i) f]
  congr 1
  · rw [Finset.filter_filter]
    have : Finset.univ.filter (fun t : Fin n => ¬ t < i ∧ t = i) = {i} := by
      ext t; simp only [Finset.mem_filter, Finset.mem_univ, true_and, Finset.mem_singleton]
      constructor
      · exact fun h => h.2
      · rintro rfl; exact ⟨lt_irrefl _, rfl⟩
    rw [this, Finset.sum_singleton]
  · rw [Finset.filter_filter]
    congr 1
    ext t; simp only [Finset.mem_filter, Finset.mem_univ, true_and]
    constructor
    · rintro ⟨h1, h2⟩; exact lt_of_le_of_ne (not_lt.mp h1) (Ne.symm h2)
    · intro h; exact ⟨not_lt.mpr h.le, ne_of_gt h⟩

theorem solveLowerInPlace_ge (u : Bool) (L : Matrix (Fin n) (Fin n) α) (b : Fin n → α)
    (k : ℕ) (i : Fin n) (h : k ≤ i.val) : solveLowerInPlace u L b k i = b i := by
  induction k with
  | zero => rfl
  | succ k ih =>
    rw [solveLowerInPlace]
    by_cases hk : k < n
    · simp only [hk, dite_true]
      rw [Function.update_noteq, ih (by omega)]
      intro hi; rw [hi] at h; simp at h
    · simp only [hk, dite_false]
      exact ih (by omega)

theorem solveLowerInPlace_stable (u : Bool) (L : Matrix (Fin n) (Fin n) α) (b : Fin n → α)
    (k : ℕ) (i : Fin n) (h : i.val < k) :
    solveLowerInPlace u L b (k + 1) i = solveLowerInPlace u L b k i := by
  rw [solveLowerInPlace]
  by_cases hk : k < n
  · simp only [hk, dite_true]
    rw [Function.update_noteq]
    intro hi; rw [hi] at h; simp at h
  · simp only [hk, dite_false]

theorem solveLowerInPlace_stable_le (u : Bool) (L : Matrix (Fin n) (Fin n) α) (b : Fin n → α)
    (k m : ℕ) (i : Fin n) (h : i.val < k) (hkm : k ≤ m) :
    solveLowerInPlace u L b m i = solveLowerInPlace u L b k i := by
  induction m with
  | zero => have : k = 0 := by omega
            subst this; rfl
  | succ m ih =>
    rcases Nat.eq_or_lt_of_le hkm with h1 | h1
    · rw [h1]
    · rw [solveLowerInPlace_stable u L b m i (by omega), ih (by omega)]

theorem solveLowerInPlace_row (u : Bool) (L : Matrix (Fin n) (Fin n) α) (b : Fin n → α)
    (hd : u = false → ∀ i, L i i ≠ 0) (i : Fin n) :
    (if u then 1 else L i i) * solveLowerInPlace u L b n i
      + ∑ t in Finset.univ.filter (fun t => t < i), L i t * solveLowerInPlace u L b n t
      = b i := by
  have hstep : solveLowerInPlace u L b (i.val + 1) i
      = (if u then
          b i - ∑ t in Finset.univ.filter (fun t => t < i), L i t * solveLowerInPlace u L b i.val t
         else (b i - ∑ t in Finset.univ.filter (fun t => t < i),
            L i t * solveLowerInPlace u L b i.val t) / L i i) := by
    simp only [solveLowerInPlace, i.isLt, dite_true, Fin.eta, Function.update_same]
    rw [solveLowerInPlace_ge u L b i.val i le_rfl]
  have hi : solveLowerInPlace u L b n i = solveLowerInPlace u L b (i.val + 1) i :=
    solveLowerInPlace_stable_le u L b (i.val + 1) n i (by omega) (by omega)
  have hsum : ∑ t in Finset.univ.filter (fun t => t < i), L i t * solveLowerInPlace u L b n t
      = ∑ t in Finset.univ.filter (fun t => t < i), L i t * solveLowerInPlace u L b i.val t := by
    refine Finset.sum_congr rfl (fun t ht => ?_)
    have ht2 : t < i := (Finset.mem_filter.mp ht).2
    rw [solveLowerInPlace_stable_le u L b i.val n t ht2 (by omega)]
  rw [hi, hstep, hsum]
  cases u with
  | true => simp
  | false =>
    have := hd rfl i
    simp only [Bool.false_eq_true, if_false]
    field_simp

theorem solveUpperInPlace_le (u : Bool) (U : Matrix (Fin n) (Fin n) α) (b : Fin n → α)
    (k : ℕ) (i : Fin n) (h : i.val + k < n) : solveUpperInPlace u U b k i = b i := by
  induction k with
  | zero => rfl
  | succ k ih =>
    rw [solveUpperInPlace]
    by_cases hk : k < n
    · simp only [hk, dite_true]
      rw [Function.update_noteq, ih (by omega)]
      intro hi; rw [hi] at h; simp [Fin.rev] at h; omega
    · simp only [hk, dite_false]
      exact ih (by omega)

theorem solveUpperInPlace_stable (u : Bool) (U : Matrix (Fin n) (Fin n) α) (b : Fin n → α)
    (k : ℕ) (i : Fin n) (h : n ≤ i.val + k) :
    solveUpperInPlace u U b (k + 1) i = solveUpperInPlace u U b k i := by
  rw [solveUpperInPlace]
  by_cases hk : k < n
  · simp only [hk, dite_true]
    rw [Function.update_noteq]
    intro hi; rw [hi] at h; simp [Fin.rev] at h; omega
  · simp only [hk, dite_false]

theorem solveUpperInPlace_stable_le (u : Bool) (U : Matrix (Fin n) (Fin n) α) (b : Fin n → α)
    (k m : ℕ) (i : Fin n) (h : n ≤ i.val + k) (hkm : k ≤ m) :
    solveUpperInPlace u U b m i = solveUpperInPlace u U b k i := by
  induction m with
  | zero => have : k = 0 := by omega
            subst this; rfl
  | succ m ih =>
    rcases Nat.eq_or_lt_of_le hkm with h1 | h1
    · rw [h1]
    · rw [solveUpperInPlace_stable u U b m i (by omega), ih (by omega)]

theorem solveUpperInPlace_row (u : Bool) (U : Matrix (Fin n) (Fin n) α) (b : Fin n → α)
    (hd : u = false → ∀ i, U i i ≠ 0) (i : Fin n) :
    (if u then 1 else U i i) * solveUpperInPlace u U b n i
      + ∑ t in Finset.univ.filter (fun t => i < t), U i t * solveUpperInPlace u U b n t
      = b i := by
  have hk : n - 1 - i.val < n := by have := i.isLt; omega
  have hrev : Fin.rev ⟨n - 1 - i.val, hk⟩ = i := by
    apply Fin.ext; simp [Fin.rev]; have := i.isLt; omega
  have hstep : solveUpperInPlace u U b (n - 1 - i.val + 1) i
      = (if u then
          b i - ∑ t in Finset.univ.filter (fun t => i < t),
            U i t * solveUpperInPlace u U b (n - 1 - i.val) t
         else (b i - ∑ t in Finset.univ.filter (fun t => i < t),
            U i t * solveUpperInPlace u U b (n - 1 - i.val) t) / U i i) := by
    simp only [solveUpperInPlace, hk, dite_true, hrev, Function.update_same]
    rw [solveUpperInPlace_le u U b (n - 1 - i.val) i (by have := i.isLt; omega)]
  have hi : solveUpperInPlace u U b n i = solveUpperInPlace u U b (n - 1 - i.val + 1) i :=
    solveUpperInPlace_stable_le u U b (n - 1 - i.val + 1) n i (by have := i.isLt; omega)
      (by have := i.isLt; omega)
  have hsum : ∑ t in Finset.univ.filter (fun t => i < t), U i t * solveUpperInPlace u U b n t
      = ∑ t in Finset.univ.filter (fun t => i < t),
          U i t * solveUpperInPlace u U b (n - 1 - i.val) t := by
    refine Finset.sum_congr rfl (fun t ht => ?_)
    have ht2 : i < t := (Finset.mem_filter.mp ht).2
    have ht3 : i.val < t.val := ht2
    rw [solveUpperInPlace_stable_le u U b (n - 1 - i.val) n t (by have := t.isLt; omega)
      (by omega)]
  rw [hi, hstep, hsum]
  cases u with
  | true => simp
  | false =>
    have := hd rfl i
    simp only [Bool.false_eq_true, if_false]
    field_simp

end Triangular

section Schur
variable {n : ℕ}

theorem isUnit_det_of_lower (M : Matrix (Fin n) (Fin n) ℝ) (htri : ∀ i j, i < j → M i j = 0)
    (hd : ∀ i, M i i ≠ 0) : IsUnit M.det := by
  have h : M.BlockTriangular OrderDual.toDual := by
    intro i j hij
    exact htri i j (by simpa using hij)
  rw [Matrix.det_of_lowerTriangular M h]
  exact isUnit_iff_ne_zero.mpr (Finset.prod_ne_zero_iff.mpr (fun i _ => hd i))

theorem mul_diagonal_mul_transpose_apply (B : Matrix (Fin n) (Fin n) ℝ) (d : Fin n → ℝ)
    (i j : Fin n) : (B * Matrix.diagonal d * Bᵀ) i j = ∑ t, B i t * d t * B j t := by
  simp [Matrix.mul_apply, Matrix.diagonal, Matrix.transpose_apply]

/-- The quadratic form of the Schur complement `A - B·D·Bᵀ` on vectors supported on the
indices `≥ k` is a value of the quadratic form of `A`. -/
theorem schur_quadratic_form (A B : Matrix (Fin n) (Fin n) ℝ) (d : Fin n → ℝ) (k : ℕ)
    (hB0 : ∀ i t, k ≤ t.val → B i t = 0) (hBtri : ∀ i t, i < t → B i t = 0)
    (hBd : ∀ t, t.val < k → B t t ≠ 0)
    (hinv : ∀ i j, (i.val < k ∨ j.val < k) → (B * Matrix.diagonal d * Bᵀ) i j = A i j)
    (w : Fin n → ℝ) (hw : ∀ i, i.val < k → w i = 0) :
    ∃ v : Fin n → ℝ, (w ≠ 0 → v ≠ 0) ∧
      w ⬝ᵥ (A - B * Matrix.diagonal d * Bᵀ) *ᵥ w = v ⬝ᵥ A *ᵥ v := by
  classical
  set M : Matrix (Fin n) (Fin n) ℝ := fun i t => if k ≤ t.val then (if i = t then 1 else 0)
    else B i t with hM
  have hMtri : ∀ i j, i < j → M i j = 0 := by
    intro i j hij
    simp only [hM]
    split_ifs with h1 h2
    · exact absurd h2 (ne_of_lt hij)
    · rfl
    · exact hBtri i j hij
  have hMd : ∀ i, M i i ≠ 0 := by
    intro i
    simp only [hM]
    split_ifs with h1
    · exact one_ne_zero
    · exact hBd i (not_le.mp h1)
  have hdet : IsUnit Mᵀ.det := by
    rw [Matrix.det_transpose]; exact isUnit_det_of_lower M hMtri hMd
  set v : Fin n → ℝ := Mᵀ⁻¹ *ᵥ w with hv
  have hMv : Mᵀ *ᵥ v = w := by
    rw [hv, Matrix.mulVec_mulVec, Matrix.mul_nonsing_inv _ hdet, Matrix.one_mulVec]
  have hMv' : ∀ t, ∑ i, M i t * v i = w t := by
    intro t
    have := congrFun hMv t
    simpa [Matrix.mulVec, Matrix.dotProduct, Matrix.transpose_apply] using this
  have hvw : ∀ t, k ≤ t.val → v t = w t := by
    intro t ht
    have := hMv' t
    simp only [hM, ht, if_true] at this
    simpa using this
  have hBv : Bᵀ *ᵥ v = 0 := by
    funext t
    simp only [Matrix.mulVec, Matrix.dotProduct, Matrix.transpose_apply, Pi.zero_apply]
    by_cases ht : k ≤ t.val
    · exact Finset.sum_eq_zero (fun i _ => by rw [hB0 i t ht, zero_mul])
    · have := hMv' t
      simp only [hM, ht, if_false] at this
      rw [this]
      exact hw t (not_le.mp ht)
  have hS0 : ∀ i j, (i.val < k ∨ j.val < k) → (A - B * Matrix.diagonal d * Bᵀ) i j = 0 := by
    intro i j h
    rw [Matrix.sub_apply, hinv i j h, sub_self]
  have hSv : (A - B * Matrix.diagonal d * Bᵀ) *ᵥ v = (A - B * Matrix.diagonal d * Bᵀ) *ᵥ w := by
    funext i
    simp only [Matrix.mulVec, Matrix.dotProduct]
    refine Finset.sum_congr rfl (fun j _ => ?_)
    by_cases hj : k ≤ j.val
    · rw [hvw j hj]
    · rw [hS0 i j (Or.inr (not_le.mp hj)), zero_mul, zero_mul]
  refine ⟨v, ?_, ?_⟩
  · intro hw0 hv0
    apply hw0
    rw [← hMv, hv0, Matrix.mulVec_zero]
  · have h1 : v ⬝ᵥ A *ᵥ v = v ⬝ᵥ (A - B * Matrix.diagonal d * Bᵀ) *ᵥ v := by
      have : A = (A - B * Matrix.diagonal d * Bᵀ) + B * Matrix.diagonal d * Bᵀ := by
        rw [sub_add_cancel]
      conv_lhs => rw [this]
      rw [Matrix.add_mulVec, Matrix.dotProduct_add]
      have : (B * Matrix.diagonal d * Bᵀ) *ᵥ v = 0 := by
        rw [← Matrix.mulVec_mulVec, hBv, Matrix.mulVec_zero]
      rw [this, Matrix.dotProduct_zero, add_zero]
    rw [h1, hSv]
    simp only [Matrix.dotProduct]
    refine Finset.sum_congr rfl (fun i _ => ?_)
    by_cases hi : k ≤ i.val
    · rw [hvw i hi]
    · have : ((A - B * Matrix.diagonal d * Bᵀ) *ᵥ w) i = 0 := by
        simp only [Matrix.mulVec, Matrix.dotProduct]
        exact Finset.sum_eq_zero (fun j _ => by rw [hS0 i j (Or.inl (not_le.mp hi)), zero_mul])
      rw [this, mul_zero, mul_zero]

theorem single_quadratic_form (S : Matrix (Fin n) (Fin n) ℝ) (k : Fin n) :
    (Pi.single k (1 : ℝ)) ⬝ᵥ S *ᵥ (Pi.single k (1 : ℝ)) = S k k := by
  rw [Matrix.mulVec_single, Matrix.single_dotProduct]
  simp

theorem schur_diag_pos (A B : Matrix (Fin n) (Fin n) ℝ) (hA : A.PosDef) (d : Fin n → ℝ)
    (k : Fin n)
    (hB0 : ∀ i t, k.val ≤ t.val → B i t = 0) (hBtri : ∀ i t, i < t → B i t = 0)
    (hBd : ∀ t, t.val < k.val → B t t ≠ 0)
    (hinv : ∀ i j, (i.val < k.val ∨ j.val < k.val) →
      (B * Matrix.diagonal d * Bᵀ) i j = A i j) :
    0 < (A - B * Matrix.diagonal d * Bᵀ) k k := by
  classical
  have hw : ∀ i : Fin n, i.val < k.val → (Pi.single k (1 : ℝ) : Fin n → ℝ) i = 0 := by
    intro i hi
    rw [Pi.single_apply, if_neg]
    intro h; rw [h] at hi; exact lt_irrefl _ hi
  obtain ⟨v, hv0, hv⟩ := schur_quadratic_form A B d k.val hB0 hBtri hBd hinv _ hw
  rw [single_quadratic_form] at hv
  rw [hv]
  have hne : (Pi.single k (1 : ℝ) : Fin n → ℝ) ≠ 0 := by
    intro h
    have := congrFun h k
    simp at this
  have := hA.2 v (hv0 hne)
  simpa using this

theorem schur_diag_nonneg (A B : Matrix (Fin n) (Fin n) ℝ) (hA : A.PosSemidef) (d : Fin n → ℝ)
    (k : Fin n)
    (hB0 : ∀ i t, k.val ≤ t.val → B i t = 0) (hBtri : ∀ i t, i < t → B i t = 0)
    (hBd : ∀ t, t.val < k.val → B t t ≠ 0)
    (hinv : ∀ i j, (i.val < k.val ∨ j.val < k.val) →
      (B * Matrix.diagonal d * Bᵀ) i j = A i j) :
    0 ≤ (A - B * Matrix.diagonal d * Bᵀ) k k := by
  classical
  have hw : ∀ i : Fin n, i.val < k.val → (Pi.single k (1 : ℝ) : Fin n → ℝ) i = 0 := by
    intro i hi
    rw [Pi.single_apply, if_neg]
    intro h; rw [h] at hi; exact lt_irrefl _ hi
  obtain ⟨v, _, hv⟩ := schur_quadratic_form A B d k.val hB0 hBtri hBd hinv _ hw
  rw [single_quadratic_form] at hv
  rw [hv]
  have := hA.2 v
  simpa using this

theorem schur_col_zero (A B : Matrix (Fin n) (Fin n) ℝ) (hA : A.PosSemidef) (d : Fin n → ℝ)
    (k : Fin n)
    (hB0 : ∀ i t, k.val ≤ t.val → B i t = 0) (hBtri : ∀ i t, i < t → B i t = 0)
    (hBd : ∀ t, t.val < k.val → B t t ≠ 0)
    (hinv : ∀ i j, (i.val < k.val ∨ j.val < k.val) →
      (B * Matrix.diagonal d * Bᵀ) i j = A i j)
    (h0 : (A - B * Matrix.diagonal d * Bᵀ) k k = 0) (i : Fin n) (hi : k < i) :
    (A - B * Matrix.diagonal d * Bᵀ) i k = 0 := by
  classical
  set S := A - B * Matrix.diagonal d * Bᵀ with hS
  have hsymm : S k i = S i k := by
    have hAs : A k i = A i k := by
      have := congrFun (congrFun hA.1 i) k
      simpa [Matrix.conjTranspose_apply] using this
    simp only [hS, Matrix.sub_apply, mul_diagonal_mul_transpose_apply, hAs]
    congr 1
    exact Finset.sum_congr rfl (fun t _ => by ring)
  have key : ∀ r : ℝ, 0 ≤ S i i + 2 * r * S i k := by
    intro r
    have hw : ∀ j : Fin n, j.val < k.val →
        (Pi.single i (1 : ℝ) + Pi.single k r : Fin n → ℝ) j = 0 := by
      intro j hj
      have h1 : j ≠ i := by
        intro h; rw [h] at hj; exact absurd hj (not_lt.mpr (le_of_lt hi))
      have h2 : j ≠ k := by
        intro h; rw [h] at hj; exact lt_irrefl _ hj
      simp [Pi.single_apply, h1, h2]
    obtain ⟨v, _, hv⟩ := schur_quadratic_form A B d k.val hB0 hBtri hBd hinv _ hw
    have hnn : 0 ≤ v ⬝ᵥ A *ᵥ v := by simpa using hA.2 v
    rw [← hv, ← hS] at hnn
    have hexp : (Pi.single i (1 : ℝ) + Pi.single k r : Fin n → ℝ) ⬝ᵥ
        S *ᵥ (Pi.single i (1 : ℝ) + Pi.single k r) = S i i + 2 * r * S i k := by
      rw [Matrix.mulVec_add, Matrix.add_dotProduct, Matrix.dotProduct_add, Matrix.dotProduct_add,
        Matrix.mulVec_single, Matrix.mulVec_single, Matrix.single_dotProduct,
        Matrix.single_dotProduct, Matrix.single_dotProduct, Matrix.single_dotProduct]
      rw [h0, hsymm]
      ring
    rw [hexp] at hnn
    exact hnn
  by_contra hne
  have := key (-(S i i + 1) / (2 * S i k))
  have h2 : 2 * (-(S i i + 1) / (2 * S i k)) * S i k = -(S i i + 1) := by
    field_simp
    ring
  rw [h2] at this
  linarith

end Schur

section LLTProofs
variable {n : ℕ}

theorem column_update_mul (B B2 : Matrix (Fin n) (Fin n) ℝ) (d d2 : Fin n → ℝ) (kf : Fin n)
    (c : Fin n → ℝ) (hB2 : ∀ i t, B2 i t = if t = kf then c i else B i t)
    (hBk : ∀ i, B i kf = 0) (hd : ∀ t, t ≠ kf → d2 t = d t) (i j : Fin n) :
    (B2 * Matrix.diagonal d2 * B2ᵀ) i j
      = (B * Matrix.diagonal d * Bᵀ) i j + c i * d2 kf * c j := by
  rw [mul_diagonal_mul_transpose_apply, mul_diagonal_mul_transpose_apply]
  have : ∀ t, B2 i t * d2 t * B2 j t
      = B i t * d t * B j t + (if t = kf then c i * d2 kf * c j else 0) := by
    intro t
    rw [hB2, hB2]
    by_cases h : t = kf
    · subst h; simp [hBk]
    · simp [h, hd t h]
  rw [Finset.sum_congr rfl (fun t _ => this t), Finset.sum_add_distrib]
  simp

theorem lowerCols_zero_of_ge (k : ℕ) (m : Matrix (Fin n) (Fin n) ℝ) (i t : Fin n)
    (h : k ≤ t.val) : lowerCols k m i t = 0 := by
  simp only [lowerCols]
  rw [if_neg]
  intro h2; omega

theorem lowerCols_zero_of_lt (k : ℕ) (m : Matrix (Fin n) (Fin n) ℝ) (i t : Fin n)
    (h : i < t) : lowerCols k m i t = 0 := by
  simp only [lowerCols]
  rw [if_neg]
  intro h2; exact absurd h2.2 (not_le.mpr h)

theorem lowerCols_diag (k : ℕ) (m : Matrix (Fin n) (Fin n) ℝ) (t : Fin n)
    (h : t.val < k) : lowerCols k m t t = m t t := by
  simp only [lowerCols]
  rw [if_pos ⟨h, le_rfl⟩]

theorem lowerCols_filter_sum (m : Matrix (Fin n) (Fin n) ℝ) (kf i : Fin n) (hi : kf ≤ i) :
    ∑ t in Finset.univ.filter (fun t => t < kf), m i t * m kf t
      = (lowerCols kf.val m * Matrix.diagonal (fun _ : Fin n => (1 : ℝ)) * (lowerCols kf.val m)ᵀ)
          i kf := by
  rw [mul_diagonal_mul_transpose_apply, Finset.sum_filter]
  refine Finset.sum_congr rfl (fun t _ => ?_)
  simp only [lowerCols]
  by_cases h : t < kf
  · have h1 : t.val < kf.val := h
    have h2 : t ≤ i := le_trans (le_of_lt h) hi
    simp [h, h1, h2, le_of_lt h]
  · have h1 : ¬ t.val < kf.val := h
    simp [h, h1]

/-- The loop invariant of the Cholesky kernel on a positive definite matrix. -/
theorem lltUnblocked_invariant (A : Matrix (Fin n) (Fin n) ℝ) (hA : A.PosDef) (k : ℕ)
    (hk : k ≤ n) :
    (lltUnblocked Real.sqrt A k).2 = true
    ∧ (∀ i j : Fin n, k ≤ j.val → (lltUnblocked Real.sqrt A k).1 i j = A i j)
    ∧ (∀ t : Fin n, t.val < k → 0 < (lltUnblocked Real.sqrt A k).1 t t)
    ∧ (∀ i j : Fin n, (i.val < k ∨ j.val < k) →
        (lowerCols k (lltUnblocked Real.sqrt A k).1 * Matrix.diagonal (fun _ : Fin n => (1 : ℝ))
          * (lowerCols k (lltUnblocked Real.sqrt A k).1)ᵀ) i j = A i j) := by
  induction k with
  | zero =>
    refine ⟨rfl, fun i j _ => rfl, fun t ht => absurd ht (Nat.not_lt_zero _), ?_⟩
    intro i j h
    rcases h with h | h <;> exact absurd h (Nat.not_lt_zero _)
  | succ k ih =>
    obtain ⟨ih1, ih2, ih3, ih4⟩ := ih (by omega)
    have hkn : k < n := by omega
    set m := (lltUnblocked Real.sqrt A k).1 with hm
    set kf : Fin n := ⟨k, hkn⟩ with hkf
    set B := lowerCols k m with hB
    set S := A - B * Matrix.diagonal (fun _ : Fin n => (1 : ℝ)) * Bᵀ with hS
    have hAsymm : ∀ i j, A i j = A j i := by
      intro i j
      have := congrFun (congrFun hA.1 j) i
      simpa [Matrix.conjTranspose_apply] using this
    have hBBsymm : ∀ i j, (B * Matrix.diagonal (fun _ : Fin n => (1 : ℝ)) * Bᵀ) i j
        = (B * Matrix.diagonal (fun _ : Fin n => (1 : ℝ)) * Bᵀ) j i := by
      intro i j
      rw [mul_diagonal_mul_transpose_apply, mul_diagonal_mul_transpose_apply]
      exact Finset.sum_congr rfl (fun t _ => by ring)
    have hSsymm : ∀ i j, S i j = S j i := by
      intro i j
      simp only [hS, Matrix.sub_apply]
      rw [hAsymm i j, hBBsymm i j]
    have hSpos : 0 < S kf kf :=
      schur_diag_pos A B hA _ kf (fun i t h => lowerCols_zero_of_ge k m i t h)
        (fun i t h => lowerCols_zero_of_lt k m i t h)
        (fun t h => by rw [hB, lowerCols_diag k m t h]; exact ne_of_gt (ih3 t h))
        ih4
    have hcol : ∀ i, kf ≤ i →
        m i kf - ∑ t in Finset.univ.filter (fun t => t < kf), m i t * m kf t = S i kf := by
      intro i hi
      rw [lowerCols_filter_sum m kf i hi, ih2 i kf le_rfl]
      rfl
    have hx : m kf kf - ∑ t in Finset.univ.filter (fun t => t < kf), m kf t * m kf t
        = S kf kf := hcol kf le_rfl
    have hstep : lltUnblocked Real.sqrt A (k + 1)
        = ((fun i j =>
            if j = kf then
              if i = kf then Real.sqrt (S kf kf)
              else if kf < i then S i kf / Real.sqrt (S kf kf)
              else m i j
            else m i j), true) := by
      rw [lltUnblocked]
      simp only [ih1, if_true, hkn, dite_true]
      unfold lltColumn
      simp only [← hm, ← hkf, hx, not_le.mpr hSpos, if_false]
      congr 1
      funext i j
      by_cases hj : j = kf
      · by_cases hi : i = kf
        · simp [hj, hi]
        · by_cases hi2 : kf < i
          · simp only [hj, hi, hi2, if_true, if_false]
            rw [hcol i (le_of_lt hi2)]
          · simp [hj, hi, hi2]
      · simp [hj]
    rw [hstep]
    simp only
    have hsq : 0 < Real.sqrt (S kf kf) := Real.sqrt_pos.mpr hSpos
    refine ⟨trivial, ?_, ?_, ?_⟩
    · intro i j hj
      have hjk : j ≠ kf := by
        intro h; rw [h] at hj; simp [hkf] at hj
      rw [if_neg hjk]
      exact ih2 i j (by omega)
    · intro t ht
      by_cases htk : t = kf
      · rw [if_pos htk, if_pos htk]; exact hsq
      · rw [if_neg htk]
        apply ih3
        have : t.val ≠ k := fun h => htk (Fin.ext h)
        omega
    · intro i j hij
      set m2 : Matrix (Fin n) (Fin n) ℝ := fun i j =>
            if j = kf then
              if i = kf then Real.sqrt (S kf kf)
              else if kf < i then S i kf / Real.sqrt (S kf kf)
              else m i j
            else m i j with hm2
      set c : Fin n → ℝ := fun i => if i = kf then Real.sqrt (S kf kf)
        else if kf < i then S i kf / Real.sqrt (S kf kf) else 0 with hc
      have hB2 : ∀ i t, lowerCols (k + 1) m2 i t = if t = kf then c i else B i t := by
        intro i t
        simp only [lowerCols, hm2, hc, hB]
        by_cases ht : t = kf
        · subst ht
          by_cases hi : i = kf
          · subst hi; simp [hkf]
          · by_cases hi2 : kf < i
            · simp [hi, hi2, le_of_lt hi2, hkf]
            · have : ¬ kf ≤ i := fun h => hi (le_antisymm (not_lt.mp hi2) h)
              simp [hi, hi2, this]
        · have h1 : t.val ≠ k := fun h => ht (Fin.ext h)
          have h2 : (t.val < k + 1) ↔ (t.val < k) := by omega
          simp [ht, h2]
      have hBk : ∀ i, B i kf = 0 := fun i => lowerCols_zero_of_ge k m i kf le_rfl
      rw [column_update_mul B (lowerCols (k + 1) m2) (fun _ => 1) (fun _ => 1) kf c hB2 hBk
        (fun _ _ => rfl) i j]
      have hck : c kf = Real.sqrt (S kf kf) := by simp [hc]
      have hclt : ∀ i, i.val < k → c i = 0 := by
        intro i hi
        have h1 : i ≠ kf := by intro h; rw [h] at hi; simp [hkf] at hi
        have h2 : ¬ kf < i := by
          intro h; have : k < i.val := h; omega
        simp [hc, h1, h2]
      have hcgt : ∀ i, kf < i → c i = S i kf / Real.sqrt (S kf kf) := by
        intro i hi
        simp [hc, ne_of_gt hi, hi]
      by_cases hlow : i.val < k ∨ j.val < k
      · rw [ih4 i j hlow]
        rcases hlow with h | h
        · rw [hclt i h]; ring
        · rw [hclt j h]; ring
      · push_neg at hlow
        obtain ⟨hi, hj⟩ := hlow
        have hSij : (B * Matrix.diagonal (fun _ : Fin n => (1 : ℝ)) * Bᵀ) i j = A i j - S i j := by
          simp only [hS, Matrix.sub_apply]; ring
        rw [hSij]
        have hcc : c i * 1 * c j = S i j := by
          rcases hij with h | h
          · have hik : i = kf := Fin.ext (by simp [hkf]; omega)
            rcases Nat.eq_or_lt_of_le hj with h2 | h2
            · have hjk : j = kf := Fin.ext (by simp [hkf]; omega)
              rw [hik, hjk, hck, mul_one, Real.mul_self_sqrt hSpos.le]
            · have hjk : kf < j := h2
              rw [hik, hck, hcgt j hjk, hSsymm kf j]
              field_simp
          · have hjk : j = kf := Fin.ext (by simp [hkf]; omega)
            rcases Nat.eq_or_lt_of_le hi with h2 | h2
            · have hik : i = kf := Fin.ext (by simp [hkf]; omega)
              rw [hik, hjk, hck, mul_one, Real.mul_self_sqrt hSpos.le]
            · have hik : kf < i := h2
              rw [hjk, hck, hcgt i hik]
              field_simp
        rw [hcc]; ring

end LLTProofs

section SolveMatrixForm
variable {α : Type} [LinearOrderedField α] {n : ℕ}

theorem lower_mulVec_solve (u : Bool) (L : Matrix (Fin n) (Fin n) α) (b : Fin n → α)
    (htri : ∀ i t, i < t → L i t = 0) (hd : u = false → ∀ i, L i i ≠ 0)
    (hu : u = true → ∀ i, L i i = 1) :
    L *ᵥ solveLowerInPlace u L b n = b := by
  funext i
  have h := solveLowerInPlace_row u L b hd i
  simp only [Matrix.mulVec, Matrix.dotProduct]
  rw [sum_split_at _ i]
  have hz : ∑ t in Finset.univ.filter (fun t => i < t), L i t * solveLowerInPlace u L b n t
      = 0 :=
    Finset.sum_eq_zero (fun t ht => by rw [htri i t (Finset.mem_filter.mp ht).2, zero_mul])
  rw [hz, add_zero, ← h]
  cases u with
  | true => simp only [if_true, hu rfl i]; ring
  | false => simp only [Bool.false_eq_true, if_false]; ring

theorem upper_mulVec_solve (u : Bool) (U : Matrix (Fin n) (Fin n) α) (b : Fin n → α)
    (htri : ∀ i t, t < i → U i t = 0) (hd : u = false → ∀ i, U i i ≠ 0)
    (hu : u = true → ∀ i, U i i = 1) :
    U *ᵥ solveUpperInPlace u U b n = b := by
  funext i
  have h := solveUpperInPlace_row u U b hd i
  simp only [Matrix.mulVec, Matrix.dotProduct]
  rw [sum_split_at _ i]
  have hz : ∑ t in Finset.univ.filter (fun t => t < i), U i t * solveUpperInPlace u U b n t
      = 0 :=
    Finset.sum_eq_zero (fun t ht => by rw [htri i t (Finset.mem_filter.mp ht).2, zero_mul])
  rw [hz, zero_add, ← h]
  cases u with
  | true => simp only [if_true, hu rfl i]
  | false => simp only [Bool.false_eq_true, if_false]

end SolveMatrixForm

section LLTCorrect
variable {n p : ℕ}

theorem llt_matrixL_eq_lowerCols (A : Matrix (Fin n) (Fin n) ℝ) :
    (llt Real.sqrt A).matrixL = lowerCols n (lltUnblocked Real.sqrt A n).1 := by
  funext i t
  simp [LLT.matrixL, llt, lowerCols]

/-- On a positive definite matrix the Cholesky kernel succeeds and leaves a lower triangular
factor with positive diagonal whose product with its transpose is the matrix. -/
theorem llt_posDef (A : Matrix (Fin n) (Fin n) ℝ) (hA : A.PosDef) :
    (llt Real.sqrt A).m_info = true
    ∧ (∀ i, 0 < (llt Real.sqrt A).matrixL i i)
    ∧ (∀ i t, i < t → (llt Real.sqrt A).matrixL i t = 0)
    ∧ (llt Real.sqrt A).matrixL * ((llt Real.sqrt A).matrixL)ᵀ = A := by
  obtain ⟨h1, _, h3, h4⟩ := lltUnblocked_invariant A hA n le_rfl
  refine ⟨h1, ?_, ?_, ?_⟩
  · intro i
    rw [llt_matrixL_eq_lowerCols, lowerCols_diag n _ i i.isLt]
    exact h3 i i.isLt
  · intro i t hit
    rw [llt_matrixL_eq_lowerCols]
    exact lowerCols_zero_of_lt n _ i t hit
  · rw [llt_matrixL_eq_lowerCols]
    funext i j
    have := h4 i j (Or.inl i.isLt)
    rw [Matrix.diagonal_one, Matrix.mul_one] at this
    exact this

theorem llt_solveVec_posDef (A : Matrix (Fin n) (Fin n) ℝ) (hA : A.PosDef) (b : Fin n → ℝ) :
    (llt Real.sqrt A).solveVec b = A⁻¹ *ᵥ b := by
  obtain ⟨_, hpos, htri, hLL⟩ := llt_posDef A hA
  set L := (llt Real.sqrt A).matrixL with hL
  have h1 : L *ᵥ solveLowerInPlace false L b n = b :=
    lower_mulVec_solve false L b htri (fun _ i => ne_of_gt (hpos i)) (fun h => by simp at h)
  have h2 : Lᵀ *ᵥ (llt Real.sqrt A).solveVec b = solveLowerInPlace false L b n := by
    unfold LLT.solveVec
    exact upper_mulVec_solve false Lᵀ _ (fun i t h => htri t i h)
      (fun _ i => ne_of_gt (hpos i)) (fun h => by simp at h)
  have h3 : A *ᵥ (llt Real.sqrt A).solveVec b = b := by
    have e : A *ᵥ (llt Real.sqrt A).solveVec b = (L * Lᵀ) *ᵥ (llt Real.sqrt A).solveVec b := by
      rw [hLL]
    rw [e, ← Matrix.mulVec_mulVec, h2, h1]
  have hdet : IsUnit A.det := isUnit_iff_ne_zero.mpr (ne_of_gt hA.det_pos)
  calc (llt Real.sqrt A).solveVec b
      = (A⁻¹ * A) *ᵥ (llt Real.sqrt A).solveVec b := by
        rw [Matrix.nonsing_inv_mul _ hdet, Matrix.one_mulVec]
    _ = A⁻¹ *ᵥ b := by rw [← Matrix.mulVec_mulVec, h3]

theorem llt_solve_posDef (A : Matrix (Fin n) (Fin n) ℝ) (hA : A.PosDef)
    (B : Matrix (Fin n) (Fin p) ℝ) : (llt Real.sqrt A).solve B = A⁻¹ * B := by
  funext i c
  unfold LLT.solve
  rw [llt_solveVec_posDef A hA]
  simp [Matrix.mulVec, Matrix.dotProduct, Matrix.mul_apply]

theorem llt_logdet_posDef (A : Matrix (Fin n) (Fin n) ℝ) (hA : A.PosDef) :
    2 * ∑ i, Real.log ((llt Real.sqrt A).matrixLᵀ i i) = Real.log A.det := by
  obtain ⟨_, hpos, htri, hLL⟩ := llt_posDef A hA
  set L := (llt Real.sqrt A).matrixL with hL
  have hdetL : L.det = ∏ i, L i i := by
    apply Matrix.det_of_lowerTriangular
    intro i j hij
    exact htri i j (by simpa using hij)
  have hdet : A.det = (∏ i, L i i) * (∏ i, L i i) := by
    have e : A.det = (L * Lᵀ).det := by rw [hLL]
    rw [e, Matrix.det_mul, Matrix.det_transpose, hdetL]
  have hne : (∏ i, L i i) ≠ 0 := Finset.prod_ne_zero_iff.mpr (fun i _ => ne_of_gt (hpos i))
  rw [hdet, Real.log_mul hne hne, Real.log_prod _ _ (fun i _ => ne_of_gt (hpos i))]
  simp only [Matrix.transpose_apply]
  ring

end LLTCorrect

section LDLTProofs
variable {n : ℕ}

theorem foldl_ge_of_ge {β : Type} (f : Fin n → β → Fin n) (k : Fin n)
    (hf : ∀ best i, k ≤ best → k ≤ f best i) (l : List β) (best : Fin n) (hb : k ≤ best) :
    k ≤ l.foldl f best := by
  induction l generalizing best with
  | nil => exact hb
  | cons a l ih => exact ih _ (hf best a hb)

theorem indexOfBiggestInCorner_ge (d : Fin n → ℝ) (k : Fin n) :
    k ≤ indexOfBiggestInCorner d k := by
  unfold indexOfBiggestInCorner
  apply foldl_ge_of_ge _ k _ _ k le_rfl
  intro best i hb
  split_ifs with h
  · exact le_of_lt h.1
  · exact hb

theorem unitLowerCols_zero_of_ge (k : ℕ) (m : Matrix (Fin n) (Fin n) ℝ) (i t : Fin n)
    (h : k ≤ t.val) : unitLowerCols k m i t = 0 := by
  simp only [unitLowerCols]
  rw [if_neg (by omega)]

theorem unitLowerCols_zero_of_lt (k : ℕ) (m : Matrix (Fin n) (Fin n) ℝ) (i t : Fin n)
    (h : i < t) : unitLowerCols k m i t = 0 := by
  simp only [unitLowerCols]
  split_ifs with h1 h2 h3
  · exact absurd h2 (not_lt.mpr (le_of_lt h))
  · exact absurd h3 (ne_of_gt h)
  · rfl
  · rfl

theorem unitLowerCols_diag (k : ℕ) (m : Matrix (Fin n) (Fin n) ℝ) (t : Fin n)
    (h : t.val < k) : unitLowerCols k m t t = 1 := by
  simp [unitLowerCols, h]

theorem unitLowerCols_filter_sum (m : Matrix (Fin n) (Fin n) ℝ) (kf i : Fin n) (hi : kf ≤ i) :
    ∑ t in Finset.univ.filter (fun t => t < kf), m i t * (m t t * m kf t)
      = (unitLowerCols kf.val m * Matrix.diagonal (diagHead kf.val m)
          * (unitLowerCols kf.val m)ᵀ) i kf := by
  rw [mul_diagonal_mul_transpose_apply, Finset.sum_filter]
  refine Finset.sum_congr rfl (fun t _ => ?_)
  simp only [unitLowerCols, diagHead]
  by_cases h : t < kf
  · have h1 : t.val < kf.val := h
    have h2 : t < i := lt_of_lt_of_le h hi
    simp only [h, h1, h2, if_true]
    ring
  · have h1 : ¬ t.val < kf.val := h
    simp [h, h1]

/-- One iteration of the `L·D·Lᵀ` loop keeps the invariant: the trailing block is the
permuted input, and the columns factored so far reproduce the permuted input on every entry
with a row or column index among them. -/
theorem ldltColumn_invariant (G : Matrix (Fin n) (Fin n) ℝ) (hG : G.PosSemidef)
    (F : LDLT ℝ n) (kf : Fin n)
    (h1 : ∀ i j : Fin n, kf.val ≤ i.val → kf.val ≤ j.val →
      F.m_matrix i j = G (F.m_transpositions i) (F.m_transpositions j))
    (h2 : ∀ i j : Fin n, (i.val < kf.val ∨ j.val < kf.val) →
      (unitLowerCols kf.val F.m_matrix * Matrix.diagonal (diagHead kf.val F.m_matrix)
        * (unitLowerCols kf.val F.m_matrix)ᵀ) i j
        = G (F.m_transpositions i) (F.m_transpositions j)) :
    (∀ i j : Fin n, kf.val + 1 ≤ i.val → kf.val + 1 ≤ j.val →
      (ldltColumn F kf).m_matrix i j
        = G ((ldltColumn F kf).m_transpositions i) ((ldltColumn F kf).m_transpositions j))
    ∧ (∀ i j : Fin n, (i.val < kf.val + 1 ∨ j.val < kf.val + 1) →
      (unitLowerCols (kf.val + 1) (ldltColumn F kf).m_matrix
        * Matrix.diagonal (diagHead (kf.val + 1) (ldltColumn F kf).m_matrix)
        * (unitLowerCols (kf.val + 1) (ldltColumn F kf).m_matrix)ᵀ) i j
        = G ((ldltColumn F kf).m_transpositions i)
            ((ldltColumn F kf).m_transpositions j)) := by
  classical
  set idx := indexOfBiggestInCorner F.m_matrix.diag kf with hidxdef
  have hidx : kf ≤ idx := indexOfBiggestInCorner_ge _ kf
  set s : Equiv.Perm (Fin n) := Equiv.swap kf idx with hs
  set mat : Matrix (Fin n) (Fin n) ℝ := F.m_matrix.submatrix s s with hmat
  set σ2 : Equiv.Perm (Fin n) := F.m_transpositions * s with hσ2
  have hs_lt : ∀ t : Fin n, t.val < kf.val → s t = t := by
    intro t ht
    apply Equiv.swap_apply_of_ne_of_ne
    · intro h; rw [h] at ht; exact lt_irrefl _ ht
    · intro h; rw [h] at ht; exact absurd ht (not_lt.mpr hidx)
  have hs_ge : ∀ i : Fin n, kf.val ≤ i.val → kf.val ≤ (s i).val := by
    intro i hi
    by_cases h1 : i = kf
    · rw [h1, hs, Equiv.swap_apply_left]; exact hidx
    · by_cases h2 : i = idx
      · rw [h2, hs, Equiv.swap_apply_right]
      · rw [hs, Equiv.swap_apply_of_ne_of_ne h1 h2]; exact hi
  have hs_lt_iff : ∀ i : Fin n, (s i).val < kf.val ↔ i.val < kf.val := by
    intro i
    constructor
    · intro h
      by_contra hc
      exact absurd h (not_lt.mpr (hs_ge i (not_lt.mp hc)))
    · intro h; rw [hs_lt i h]; exact h
  have hσ2app : ∀ i, σ2 i = F.m_transpositions (s i) := fun i => rfl
  have g1 : ∀ i j : Fin n, kf.val ≤ i.val → kf.val ≤ j.val → mat i j = G (σ2 i) (σ2 j) := by
    intro i j hi hj
    rw [hσ2app, hσ2app]
    exact h1 (s i) (s j) (hs_ge i hi) (hs_ge j hj)
  have hBs : ∀ i t, unitLowerCols kf.val mat i t = unitLowerCols kf.val F.m_matrix (s i) t := by
    intro i t
    simp only [unitLowerCols]
    by_cases ht : t.val < kf.val
    · simp only [ht, if_true, hmat, Matrix.submatrix_apply, hs_lt t ht]
      by_cases hi : i.val < kf.val
      · rw [hs_lt i hi]
      · have hi2 : kf.val ≤ (s i).val := hs_ge i (not_lt.mp hi)
        have a1 : t < i := by
          have : t.val < i.val := by omega
          exact this
        have a2 : t < s i := by
          have : t.val < (s i).val := by omega
          exact this
        simp [a1, a2]
    · simp [ht]
  have hds : diagHead kf.val mat = diagHead kf.val F.m_matrix := by
    funext t
    simp only [diagHead]
    by_cases ht : t.val < kf.val
    · simp only [ht, if_true, hmat, Matrix.submatrix_apply, hs_lt t ht]
    · simp [ht]
  have g2 : ∀ i j : Fin n, (i.val < kf.val ∨ j.val < kf.val) →
      (unitLowerCols kf.val mat * Matrix.diagonal (diagHead kf.val mat)
        * (unitLowerCols kf.val mat)ᵀ) i j = G (σ2 i) (σ2 j) := by
    intro i j hij
    rw [mul_diagonal_mul_transpose_apply, hds]
    simp only [hBs]
    rw [← mul_diagonal_mul_transpose_apply, hσ2app, hσ2app]
    apply h2
    rcases hij with h | h
    · exact Or.inl ((hs_lt_iff i).mpr h)
    · exact Or.inr ((hs_lt_iff j).mpr h)
  set Gs : Matrix (Fin n) (Fin n) ℝ := G.submatrix σ2 σ2 with hGs
  have hGsPSD : Gs.PosSemidef := hG.submatrix σ2
  set B := unitLowerCols kf.val mat with hB
  set d := diagHead kf.val mat with hd
  set S := Gs - B * Matrix.diagonal d * Bᵀ with hS
  have hGsymm : ∀ i j, Gs i j = Gs j i := by
    intro i j
    have := congrFun (congrFun hGsPSD.1 j) i
    simpa [Matrix.conjTranspose_apply] using this
  have hSsymm : ∀ i j, S i j = S j i := by
    intro i j
    simp only [hS, Matrix.sub_apply, mul_diagonal_mul_transpose_apply]
    rw [hGsymm i j]
    congr 1
    exact Finset.sum_congr rfl (fun t _ => by ring)
  have hB0 : ∀ i t : Fin n, kf.val ≤ t.val → B i t = 0 :=
    fun i t h => unitLowerCols_zero_of_ge _ _ i t h
  have hBtri : ∀ i t : Fin n, i < t → B i t = 0 :=
    fun i t h => unitLowerCols_zero_of_lt _ _ i t h
  have hBd : ∀ t : Fin n, t.val < kf.val → B t t ≠ 0 := by
    intro t ht
    rw [hB, unitLowerCols_diag _ _ t ht]; exact one_ne_zero
  have g2' : ∀ i j : Fin n, (i.val < kf.val ∨ j.val < kf.val) →
      (B * Matrix.diagonal d * Bᵀ) i j = Gs i j := fun i j h => g2 i j h
  have hcol : ∀ i, kf ≤ i →
      mat i kf - ∑ t in Finset.univ.filter (fun t => t < kf), mat i t * (mat t t * mat kf t)
        = S i kf := by
    intro i hi
    rw [unitLowerCols_filter_sum mat kf i hi, g1 i kf hi le_rfl]
    rfl
  have hzero : S kf kf = 0 → ∀ i, kf < i → S i kf = 0 := fun h0 i hi =>
    schur_col_zero Gs B hGsPSD d kf hB0 hBtri hBd g2' h0 i hi
  set c : Fin n → ℝ := fun i => if i = kf then 1
    else if kf < i then (if |S kf kf| > 0 then S i kf / S kf kf else S i kf) else 0 with hc
  have hnew : (ldltColumn F kf).m_matrix = fun i j =>
      if j = kf then
        if i = kf then S kf kf
        else if kf < i then (if |S kf kf| > 0 then S i kf / S kf kf else S i kf)
        else mat i j
      else mat i j := by
    unfold ldltColumn
    simp only [← hidxdef, ← hs, ← hmat]
    funext i j
    by_cases hj : j = kf
    · by_cases hi : i = kf
      · simp only [hj, hi, if_true]
        exact hcol kf le_rfl
      · by_cases hi2 : kf < i
        · simp only [hj, hi, hi2, if_true, if_false]
          rw [hcol kf le_rfl, hcol i (le_of_lt hi2)]
        · simp only [hj, hi, hi2, if_true, if_false]
    · simp only [hj, if_false]
  have hnewσ : (ldltColumn F kf).m_transpositions = σ2 := rfl
  rw [hnewσ]
  constructor
  · intro i j hi hj
    rw [hnew]
    have hjk : j ≠ kf := by
      intro h; rw [h] at hj; omega
    simp only [hjk, if_false]
    exact g1 i j (by omega) (by omega)
  · intro i j hij
    have hB2 : ∀ i t, unitLowerCols (kf.val + 1) (ldltColumn F kf).m_matrix i t
        = if t = kf then c i else B i t := by
      intro i t
      rw [hnew]
      simp only [unitLowerCols, hc, hB]
      by_cases ht : t = kf
      · subst ht
        by_cases hi : i = t
        · subst hi; simp
        · by_cases hi2 : t < i
          · simp [hi, hi2, ne_of_gt hi2]
          · simp [hi, hi2, Ne.symm hi]
      · have h1 : t.val ≠ kf.val := fun h => ht (Fin.ext h)
        have h2 : (t.val < kf.val + 1) ↔ (t.val < kf.val) := by omega
        simp only [ht, h2, if_false]
    have hd2 : ∀ t, t ≠ kf → diagHead (kf.val + 1) (ldltColumn F kf).m_matrix t = d t := by
      intro t ht
      rw [hnew]
      have h1 : t.val ≠ kf.val := fun h => ht (Fin.ext h)
      have h2 : (t.val < kf.val + 1) ↔ (t.val < kf.val) := by omega
      simp only [diagHead, hd, ht, h2, if_false]
    have hdk : diagHead (kf.val + 1) (ldltColumn F kf).m_matrix kf = S kf kf := by
      rw [hnew]
      simp [diagHead]
    rw [column_update_mul B _ d _ kf c hB2 (fun i => hB0 i kf le_rfl) hd2 i j, hdk]
    have hck : c kf = 1 := by simp [hc]
    have hclt : ∀ i : Fin n, i.val < kf.val → c i = 0 := by
      intro i hi
      have a1 : i ≠ kf := by intro h; rw [h] at hi; exact lt_irrefl _ hi
      have a2 : ¬ kf < i := by
        intro h; have : kf.val < i.val := h; omega
      simp [hc, a1, a2]
    have hcgt : ∀ i : Fin n, kf < i → c i * S kf kf = S i kf := by
      intro i hi
      simp only [hc, ne_of_gt hi, hi, if_true, if_false]
      by_cases h0 : S kf kf = 0
      · rw [h0, hzero h0 i hi]; simp
      · have : |S kf kf| > 0 := abs_pos.mpr h0
        simp only [this, if_true]
        field_simp
    by_cases hlow : i.val < kf.val ∨ j.val < kf.val
    · rw [g2' i j hlow]
      rcases hlow with h | h
      · rw [hclt i h]; simp [hGs]
      · rw [hclt j h]; simp [hGs]
    · push_neg at hlow
      obtain ⟨hi, hj⟩ := hlow
      have hSij : (B * Matrix.diagonal d * Bᵀ) i j = Gs i j - S i j := by
        simp only [hS, Matrix.sub_apply]; ring
      rw [hSij]
      have hcc : c i * S kf kf * c j = S i j := by
        rcases hij with h | h
        · have hik : i = kf := Fin.ext (by omega)
          rcases Nat.eq_or_lt_of_le hj with h3 | h3
          · have hjk : j = kf := Fin.ext (by omega)
            rw [hik, hjk, hck]; ring
          · have hjk : kf < j := h3
            rw [hik, hck, one_mul, mul_comm, hcgt j hjk, hSsymm kf j]
        · have hjk : j = kf := Fin.ext (by omega)
          rcases Nat.eq_or_lt_of_le hi with h3 | h3
          · have hik : i = kf := Fin.ext (by omega)
            rw [hik, hjk, hck]; ring
          · have hik : kf < i := h3
            rw [hjk, hck, mul_one, hcgt i hik]
      rw [hcc]
      simp [hGs]

end LDLTProofs

section LDLTCorrect
variable {n p : ℕ}

theorem selfadjointLower_of_isSymm (G : Matrix (Fin n) (Fin n) ℝ) (h : ∀ i j, G i j = G j i) :
    selfadjointLower G = G := by
  funext i j
  simp only [selfadjointLower]
  split_ifs
  · rfl
  · exact h j i

theorem posSemidef_symm (G : Matrix (Fin n) (Fin n) ℝ) (hG : G.PosSemidef) (i j : Fin n) :
    G i j = G j i := by
  have := congrFun (congrFun hG.1 j) i
  simpa [Matrix.conjTranspose_apply] using this

theorem ldltUnblocked_invariant (G : Matrix (Fin n) (Fin n) ℝ) (hG : G.PosSemidef) (k : ℕ)
    (hk : k ≤ n) :
    (∀ i j : Fin n, k ≤ i.val → k ≤ j.val →
      (ldltUnblocked ⟨selfadjointLower G, 1⟩ k).m_matrix i j
        = G ((ldltUnblocked ⟨selfadjointLower G, 1⟩ k).m_transpositions i)
            ((ldltUnblocked ⟨selfadjointLower G, 1⟩ k).m_transpositions j))
    ∧ (∀ i j : Fin n, (i.val < k ∨ j.val < k) →
      (unitLowerCols k (ldltUnblocked ⟨selfadjointLower G, 1⟩ k).m_matrix
        * Matrix.diagonal (diagHead k (ldltUnblocked ⟨selfadjointLower G, 1⟩ k).m_matrix)
        * (unitLowerCols k (ldltUnblocked ⟨selfadjointLower G, 1⟩ k).m_matrix)ᵀ) i j
        = G ((ldltUnblocked ⟨selfadjointLower G, 1⟩ k).m_transpositions i)
            ((ldltUnblocked ⟨selfadjointLower G, 1⟩ k).m_transpositions j)) := by
  induction k with
  | zero =>
    constructor
    · intro i j _ _
      simp only [ldltUnblocked]
      rw [selfadjointLower_of_isSymm G (posSemidef_symm G hG)]
      rfl
    · intro i j h
      rcases h with h | h <;> exact absurd h (Nat.not_lt_zero _)
  | succ k ih =>
    obtain ⟨ih1, ih2⟩ := ih (by omega)
    have hkn : k < n := by omega
    have hstep : ldltUnblocked (⟨selfadjointLower G, 1⟩ : LDLT ℝ n) (k + 1)
        = ldltColumn (ldltUnblocked ⟨selfadjointLower G, 1⟩ k) ⟨k, hkn⟩ := by
      rw [ldltUnblocked]; simp only [hkn, dite_true]
    rw [hstep]
    exact ldltColumn_invariant G hG _ ⟨k, hkn⟩ ih1 ih2

theorem ldlt_matrixL_eq (G : Matrix (Fin n) (Fin n) ℝ) :
    (ldlt G).matrixL = unitLowerCols n (ldlt G).m_matrix := by
  funext i t
  simp [LDLT.matrixL, unitLowerCols, eq_comm]

theorem ldlt_vectorD_eq (G : Matrix (Fin n) (Fin n) ℝ) :
    (ldlt G).vectorD = diagHead n (ldlt G).m_matrix := by
  funext t
  simp [LDLT.vectorD, diagHead]

/-- On a positive semidefinite matrix the pivoted factorisation is exact:
`L·D·Lᵀ` is the symmetrically permuted input. -/
theorem ldlt_factor (G : Matrix (Fin n) (Fin n) ℝ) (hG : G.PosSemidef) :
    (ldlt G).matrixL * Matrix.diagonal (ldlt G).vectorD * ((ldlt G).matrixL)ᵀ
      = G.submatrix (ldlt G).m_transpositions (ldlt G).m_transpositions := by
  obtain ⟨_, h2⟩ := ldltUnblocked_invariant G hG n le_rfl
  rw [ldlt_matrixL_eq, ldlt_vectorD_eq]
  funext i j
  exact h2 i j (Or.inl i.isLt)

theorem ldlt_matrixL_tri (G : Matrix (Fin n) (Fin n) ℝ) (i t : Fin n) (h : i < t) :
    (ldlt G).matrixL i t = 0 := by
  rw [ldlt_matrixL_eq]; exact unitLowerCols_zero_of_lt _ _ i t h

theorem ldlt_matrixL_diag (G : Matrix (Fin n) (Fin n) ℝ) (i : Fin n) :
    (ldlt G).matrixL i i = 1 := by
  rw [ldlt_matrixL_eq]; exact unitLowerCols_diag _ _ i i.isLt

theorem ldlt_matrixL_det (G : Matrix (Fin n) (Fin n) ℝ) : IsUnit (ldlt G).matrixL.det :=
  isUnit_det_of_lower _ (ldlt_matrixL_tri G) (fun i => by rw [ldlt_matrixL_diag]; exact one_ne_zero)

/-- The solve of the pivoted factorisation returns a solution whenever the intermediate
vector `L⁻¹ P b` vanishes where `D` does. -/
theorem ldlt_solve_of_zero_rows (G : Matrix (Fin n) (Fin n) ℝ) (hG : G.PosSemidef)
    (b : Fin n → ℝ)
    (hC : ∀ i, (ldlt G).vectorD i = 0 →
      solveLowerInPlace true (ldlt G).matrixL (fun i => b ((ldlt G).m_transpositions i)) n i
        = 0) :
    G *ᵥ (ldlt G).solve b = b := by
  set F := ldlt G with hF
  set L := F.matrixL with hL
  set D := F.vectorD with hD
  set σ := F.m_transpositions with hσ
  have hfac : L * Matrix.diagonal D * Lᵀ = G.submatrix σ σ := ldlt_factor G hG
  set y := solveLowerInPlace true L (fun i => b (σ i)) n with hy
  have hLy : L *ᵥ y = fun i => b (σ i) :=
    lower_mulVec_solve true L _ (ldlt_matrixL_tri G) (fun h => by simp at h)
      (fun _ i => ldlt_matrixL_diag G i)
  set z : Fin n → ℝ := fun i => if |D i| > 0 then y i / D i else 0 with hz
  have hDz : Matrix.diagonal D *ᵥ z = y := by
    funext i
    rw [Matrix.mulVec_diagonal]
    simp only [hz]
    by_cases h0 : D i = 0
    · rw [h0, hC i h0]; simp
    · have : |D i| > 0 := abs_pos.mpr h0
      simp only [this, if_true]
      field_simp
  set u := solveUpperInPlace true Lᵀ z n with hu
  have hLu : Lᵀ *ᵥ u = z :=
    upper_mulVec_solve true Lᵀ z (fun i t h => ldlt_matrixL_tri G t i h)
      (fun h => by simp at h) (fun _ i => ldlt_matrixL_diag G i)
  have hsolve : F.solve b = fun i => u (σ.symm i) := rfl
  have hGu : (G.submatrix σ σ) *ᵥ u = fun i => b (σ i) := by
    rw [← hfac, ← Matrix.mulVec_mulVec, ← Matrix.mulVec_mulVec, hLu, hDz, hLy]
  funext i
  have := congrFun hGu (σ.symm i)
  simp only [Equiv.apply_symm_apply] at this
  rw [← this, hsolve]
  simp only [Matrix.mulVec, Matrix.dotProduct, Matrix.submatrix_apply, Equiv.apply_symm_apply]
  rw [← Equiv.sum_comp σ]
  simp

theorem ldlt_vectorD_ne_zero (G : Matrix (Fin n) (Fin n) ℝ) (hG : G.PosDef) (i : Fin n) :
    (ldlt G).vectorD i ≠ 0 := by
  classical
  set F := ldlt G with hF
  set L := F.matrixL with hL
  set D := F.vectorD with hD
  set σ := F.m_transpositions with hσ
  have hfac : L * Matrix.diagonal D * Lᵀ = G.submatrix σ σ := ldlt_factor G hG.posSemidef
  have hdet : IsUnit Lᵀ.det := by rw [Matrix.det_transpose]; exact ldlt_matrixL_det G
  intro h0
  set v : Fin n → ℝ := Lᵀ⁻¹ *ᵥ Pi.single i 1 with hv
  have hLv : Lᵀ *ᵥ v = Pi.single i 1 := by
    rw [hv, Matrix.mulVec_mulVec, Matrix.mul_nonsing_inv _ hdet, Matrix.one_mulVec]
  have hvne : v ≠ 0 := by
    intro hv0
    rw [hv0, Matrix.mulVec_zero] at hLv
    have := congrFun hLv i
    simp at this
  set x : Fin n → ℝ := fun j => v (σ.symm j) with hx
  have hxne : x ≠ 0 := by
    intro hx0
    apply hvne
    funext j
    have := congrFun hx0 (σ j)
    simpa [hx] using this
  have hpos := hG.2 x hxne
  have hquad : star x ⬝ᵥ G *ᵥ x = v ⬝ᵥ (G.submatrix σ σ) *ᵥ v := by
    simp only [star_trivial, Matrix.dotProduct, Matrix.mulVec, Matrix.submatrix_apply]
    rw [← Equiv.sum_comp σ]
    refine Finset.sum_congr rfl (fun a _ => ?_)
    congr 1
    · simp [hx]
    · rw [← Equiv.sum_comp σ]
      refine Finset.sum_congr rfl (fun c _ => ?_)
      simp [hx]
  rw [hquad, ← hfac, ← Matrix.mulVec_mulVec, ← Matrix.mulVec_mulVec, hLv] at hpos
  have hzero : Matrix.diagonal D *ᵥ (Pi.single i 1 : Fin n → ℝ) = 0 := by
    funext a
    rw [Matrix.mulVec_diagonal]
    by_cases ha : a = i
    · rw [ha, h0]; simp
    · simp [Pi.single_apply, ha]
  rw [hzero, Matrix.mulVec_zero, Matrix.dotProduct_zero] at hpos
  exact lt_irrefl _ hpos

end LDLTCorrect

section GLS
variable {n p : ℕ}

theorem ldlt_solve_posDef (G : Matrix (Fin n) (Fin n) ℝ) (hG : G.PosDef) (b : Fin n → ℝ) :
    (ldlt G).solve b = G⁻¹ *ᵥ b := by
  have h : G *ᵥ (ldlt G).solve b = b :=
    ldlt_solve_of_zero_rows G hG.posSemidef b
      (fun i h0 => absurd h0 (ldlt_vectorD_ne_zero G hG i))
  have hdet : IsUnit G.det := isUnit_iff_ne_zero.mpr (ne_of_gt hG.det_pos)
  calc (ldlt G).solve b = (G⁻¹ * G) *ᵥ (ldlt G).solve b := by
        rw [Matrix.nonsing_inv_mul _ hdet, Matrix.one_mulVec]
    _ = G⁻¹ *ᵥ b := by rw [← Matrix.mulVec_mulVec, h]

theorem posDef_symm (W : Matrix (Fin n) (Fin n) ℝ) (hW : W.PosDef) : Wᵀ = W := by
  have := hW.1
  rwa [Matrix.IsHermitian, Matrix.conjTranspose_eq_transpose_of_trivial] at this

theorem gram_posSemidef (X : Matrix (Fin n) (Fin p) ℝ) (W : Matrix (Fin n) (Fin n) ℝ)
    (hW : W.PosDef) : (Xᵀ * (W * X)).PosSemidef := by
  have := hW.posSemidef.conjTranspose_mul_mul_same X
  rwa [Matrix.conjTranspose_eq_transpose_of_trivial, Matrix.mul_assoc] at this

/-- The coefficients returned by the pivoted solve satisfy the normal equations, whatever
the rank of the design matrix. -/
theorem ldlt_solve_normal_equations (X : Matrix (Fin n) (Fin p) ℝ)
    (W : Matrix (Fin n) (Fin n) ℝ) (hW : W.PosDef) (Y : Fin n → ℝ) :
    (Xᵀ * (W * X)) *ᵥ (ldlt (Xᵀ * (W * X))).solve ((W * X)ᵀ *ᵥ Y) = (W * X)ᵀ *ᵥ Y := by
  classical
  set G := Xᵀ * (W * X) with hGdef
  have hG : G.PosSemidef := gram_posSemidef X W hW
  apply ldlt_solve_of_zero_rows G hG
  set F := ldlt G with hF
  set L := F.matrixL with hL
  set D := F.vectorD with hD
  set σ := F.m_transpositions with hσ
  have hfac : L * Matrix.diagonal D * Lᵀ = G.submatrix σ σ := ldlt_factor G hG
  have hdet : IsUnit L.det := ldlt_matrixL_det G
  set bσ : Fin p → ℝ := fun i => ((W * X)ᵀ *ᵥ Y) (σ i) with hbσ
  set y := solveLowerInPlace true L bσ p with hy
  have hLy : L *ᵥ y = bσ :=
    lower_mulVec_solve true L _ (ldlt_matrixL_tri G) (fun h => by simp at h)
      (fun _ i => ldlt_matrixL_diag G i)
  set Xσ : Matrix (Fin n) (Fin p) ℝ := X.submatrix id σ with hXσ
  set Z : Matrix (Fin n) (Fin p) ℝ := Xσ * L⁻¹ᵀ with hZ
  have hWs : Wᵀ = W := posDef_symm W hW
  have hGs : G.submatrix σ σ = Xσᵀ * W * Xσ := by
    ext i j
    simp [hGdef, hXσ, Matrix.mul_apply, Matrix.submatrix_apply, Finset.sum_mul, Finset.mul_sum,
      mul_assoc]
    rw [Finset.sum_comm]
  have hDiag : Matrix.diagonal D = Zᵀ * W * Z := by
    have h1 : L⁻¹ * (L * Matrix.diagonal D * Lᵀ) * L⁻¹ᵀ = Matrix.diagonal D := by
      have e1 : L⁻¹ * (L * Matrix.diagonal D * Lᵀ) * L⁻¹ᵀ
          = (L⁻¹ * L) * Matrix.diagonal D * (L⁻¹ * L)ᵀ := by
        rw [Matrix.transpose_mul]
        simp only [Matrix.mul_assoc]
      rw [e1, Matrix.nonsing_inv_mul _ hdet, Matrix.transpose_one, Matrix.one_mul,
        Matrix.mul_one]
    rw [← h1, hfac, hGs, hZ, Matrix.transpose_mul, Matrix.transpose_transpose]
    simp only [Matrix.mul_assoc]
  have hbσ2 : bσ = Xσᵀ *ᵥ (W *ᵥ Y) := by
    funext i
    simp only [hbσ, hXσ]
    have : (W * X)ᵀ = Xᵀ * W := by rw [Matrix.transpose_mul, hWs]
    rw [this, ← Matrix.mulVec_mulVec]
    simp [Matrix.mulVec, Matrix.dotProduct]
  have hyZ : y = Zᵀ *ᵥ (W *ᵥ Y) := by
    have : y = L⁻¹ *ᵥ bσ := by
      rw [← hLy, Matrix.mulVec_mulVec, Matrix.nonsing_inv_mul _ hdet, Matrix.one_mulVec]
    rw [this, hbσ2, hZ, Matrix.transpose_mul, Matrix.transpose_transpose,
      Matrix.mulVec_mulVec]
  intro i h0
  have hcol : (fun r => Z r i) = 0 := by
    by_contra hne
    have hpos := hW.2 (fun r => Z r i) hne
    have hDi : D i = (fun r => Z r i) ⬝ᵥ W *ᵥ (fun r => Z r i) := by
      have := congrFun (congrFun hDiag i) i
      rw [Matrix.diagonal_apply_eq] at this
      rw [this]
      simp [Matrix.mul_apply, Matrix.dotProduct, Matrix.mulVec, Finset.sum_mul, Finset.mul_sum,
        mul_assoc]
      rw [Finset.sum_comm]
    rw [star_trivial, ← hDi, h0] at hpos
    exact lt_irrefl _ hpos
  show y i = 0
  rw [hyZ]
  simp only [Matrix.mulVec, Matrix.dotProduct, Matrix.transpose_apply]
  exact Finset.sum_eq_zero (fun r _ => by rw [congrFun hcol r]; simp)

end GLS

section Tail
variable {n p : ℕ}

theorem mulVec_dotProduct_eq (X : Matrix (Fin n) (Fin p) ℝ) (c : Fin p → ℝ) (u : Fin n → ℝ) :
    (X *ᵥ c) ⬝ᵥ u = c ⬝ᵥ (Xᵀ *ᵥ u) := by
  rw [Matrix.dotProduct_mulVec, Matrix.vecMul_transpose]

theorem glsLocals_U (psi : Matrix (Fin n) (Fin n) ℝ) (XTR : Matrix (Fin n) (Fin p) ℝ)
    (Y : Fin n → ℝ) : (glsLocals Real.sqrt psi XTR Y).U = ((llt Real.sqrt psi).matrixL)ᵀ := rfl

theorem glsLocals_SX (psi : Matrix (Fin n) (Fin n) ℝ) (hpsi : psi.PosDef)
    (XTR : Matrix (Fin n) (Fin p) ℝ) (Y : Fin n → ℝ) :
    (glsLocals Real.sqrt psi XTR Y).SX = psi⁻¹ * XTR :=
  llt_solve_posDef psi hpsi XTR

theorem glsLocals_beta (psi : Matrix (Fin n) (Fin n) ℝ) (hpsi : psi.PosDef)
    (XTR : Matrix (Fin n) (Fin p) ℝ) (Y : Fin n → ℝ) :
    (glsLocals Real.sqrt psi XTR Y).beta
      = (ldlt (XTRᵀ * (psi⁻¹ * XTR))).solve ((psi⁻¹ * XTR)ᵀ *ᵥ Y) := by
  show (ldlt (XTRᵀ * (llt Real.sqrt psi).solve XTR)).solve
      (((llt Real.sqrt psi).solve XTR)ᵀ *ᵥ Y) = _
  rw [llt_solve_posDef psi hpsi XTR]

/-- The computed `beta` satisfies the GLS normal equations. -/
theorem glsLocals_normal_equations (psi : Matrix (Fin n) (Fin n) ℝ) (hpsi : psi.PosDef)
    (XTR : Matrix (Fin n) (Fin p) ℝ) (Y : Fin n → ℝ) :
    (XTRᵀ * psi⁻¹ * XTR) *ᵥ (glsLocals Real.sqrt psi XTR Y).beta
      = (XTRᵀ * psi⁻¹) *ᵥ Y := by
  rw [glsLocals_beta psi hpsi]
  have h := ldlt_solve_normal_equations XTR psi⁻¹ hpsi.inv Y
  have hs : (psi⁻¹ * XTR)ᵀ = XTRᵀ * psi⁻¹ := by
    rw [Matrix.transpose_mul, posDef_symm _ hpsi.inv]
  rw [Matrix.mul_assoc, hs]
  rw [hs] at h
  exact h

theorem glsLocals_resid (psi : Matrix (Fin n) (Fin n) ℝ)
    (XTR : Matrix (Fin n) (Fin p) ℝ) (Y : Fin n → ℝ) :
    (glsLocals Real.sqrt psi XTR Y).resid
      = Y - XTR *ᵥ (glsLocals Real.sqrt psi XTR Y).beta := rfl

theorem glsLocals_quadForm (psi : Matrix (Fin n) (Fin n) ℝ) (hpsi : psi.PosDef)
    (XTR : Matrix (Fin n) (Fin p) ℝ) (Y : Fin n → ℝ) :
    (glsLocals Real.sqrt psi XTR Y).quadForm
      = (glsLocals Real.sqrt psi XTR Y).resid
          ⬝ᵥ psi⁻¹ *ᵥ (glsLocals Real.sqrt psi XTR Y).resid := by
  show (glsLocals Real.sqrt psi XTR Y).resid
      ⬝ᵥ (ldlt psi).solve (glsLocals Real.sqrt psi XTR Y).resid = _
  rw [ldlt_solve_posDef psi hpsi]

theorem glsLocals_U_pos (psi : Matrix (Fin n) (Fin n) ℝ) (hpsi : psi.PosDef)
    (XTR : Matrix (Fin n) (Fin p) ℝ) (Y : Fin n → ℝ) (i : Fin n) :
    0 < (glsLocals Real.sqrt psi XTR Y).U i i := by
  rw [glsLocals_U, Matrix.transpose_apply]
  exact (llt_posDef psi hpsi).2.1 i

theorem glsLocals_result (psi : Matrix (Fin n) (Fin n) ℝ) (hpsi : psi.PosDef)
    (XTR : Matrix (Fin n) (Fin p) ℝ) (Y : Fin n → ℝ) :
    (glsLocals Real.sqrt psi XTR Y).result Real.log
      = Outcome.value ((glsLocals Real.sqrt psi XTR Y).quadForm
          + 2 * ∑ i, Real.log ((glsLocals Real.sqrt psi XTR Y).U i i)) := by
  unfold Locals.result
  rw [if_pos (glsLocals_U_pos psi hpsi XTR Y)]
  rfl

theorem glsLocals_logdet (psi : Matrix (Fin n) (Fin n) ℝ) (hpsi : psi.PosDef)
    (XTR : Matrix (Fin n) (Fin p) ℝ) (Y : Fin n → ℝ) :
    2 * ∑ i, Real.log ((glsLocals Real.sqrt psi XTR Y).U i i) = Real.log psi.det := by
  rw [glsLocals_U]
  exact llt_logdet_posDef psi hpsi

/-- A solution of the normal equations minimises the weighted sum of squares. -/
theorem normal_equations_minimise (X : Matrix (Fin n) (Fin p) ℝ)
    (W : Matrix (Fin n) (Fin n) ℝ) (hW : W.PosDef) (Y : Fin n → ℝ) (beta : Fin p → ℝ)
    (hbeta : (Xᵀ * W * X) *ᵥ beta = (Xᵀ * W) *ᵥ Y) (b : Fin p → ℝ) :
    (Y - X *ᵥ beta) ⬝ᵥ W *ᵥ (Y - X *ᵥ beta) ≤ (Y - X *ᵥ b) ⬝ᵥ W *ᵥ (Y - X *ᵥ b) := by
  set r := Y - X *ᵥ beta with hr
  set e := X *ᵥ (beta - b) with he
  have hdecomp : Y - X *ᵥ b = r + e := by
    rw [hr, he, Matrix.mulVec_sub]; abel
  have hXWr : Xᵀ *ᵥ (W *ᵥ r) = 0 := by
    rw [hr, Matrix.mulVec_sub, Matrix.mulVec_sub, Matrix.mulVec_mulVec, Matrix.mulVec_mulVec,
      Matrix.mulVec_mulVec, hbeta, sub_self]
  have heWr : e ⬝ᵥ W *ᵥ r = 0 := by
    rw [he, mulVec_dotProduct_eq, hXWr, Matrix.dotProduct_zero]
  have hrWe : r ⬝ᵥ W *ᵥ e = 0 := by
    rw [Matrix.dotProduct_mulVec, ← Matrix.mulVec_transpose, posDef_symm W hW,
      Matrix.dotProduct_comm]
    exact heWr
  have hee : 0 ≤ e ⬝ᵥ W *ᵥ e := by
    have := hW.posSemidef.2 e
    simpa using this
  rw [hdecomp, Matrix.mulVec_add, Matrix.add_dotProduct, Matrix.dotProduct_add,
    Matrix.dotProduct_add, hrWe, heWr]
  linarith

/-- When `Y` is in the column space of the design matrix, a solution of the normal
equations reproduces it. -/
theorem normal_equations_exact (X : Matrix (Fin n) (Fin p) ℝ)
    (W : Matrix (Fin n) (Fin n) ℝ) (hW : W.PosDef) (b0 beta : Fin p → ℝ)
    (hbeta : (Xᵀ * W * X) *ᵥ beta = (Xᵀ * W) *ᵥ (X *ᵥ b0)) :
    X *ᵥ b0 - X *ᵥ beta = 0 := by
  set e := X *ᵥ (b0 - beta) with he
  have h1 : Xᵀ *ᵥ (W *ᵥ e) = 0 := by
    rw [he, Matrix.mulVec_sub, Matrix.mulVec_sub, Matrix.mulVec_sub, Matrix.mulVec_mulVec,
      Matrix.mulVec_mulVec, Matrix.mulVec_mulVec, Matrix.mulVec_mulVec,
      hbeta, Matrix.mulVec_mulVec, sub_self]
  have h2 : e ⬝ᵥ W *ᵥ e = 0 := by
    conv_lhs => rw [he]
    rw [mulVec_dotProduct_eq, h1, Matrix.dotProduct_zero]
  have h3 : e = 0 := by
    by_contra hne
    have := hW.2 e hne
    rw [star_trivial, h2] at this
    exact lt_irrefl _ this
  rw [← Matrix.mulVec_sub]
  exact h3

end Tail

section TailFacts
variable {n p : ℕ}

theorem glsLocals_factor (psi : Matrix (Fin n) (Fin n) ℝ) (hpsi : psi.PosDef)
    (XTR : Matrix (Fin n) (Fin p) ℝ) (Y : Fin n → ℝ) :
    ((glsLocals Real.sqrt psi XTR Y).U)ᵀ * (glsLocals Real.sqrt psi XTR Y).U = psi
    ∧ (∀ i j, j < i → (glsLocals Real.sqrt psi XTR Y).U i j = 0) := by
  obtain ⟨_, _, htri, hLL⟩ := llt_posDef psi hpsi
  rw [glsLocals_U, Matrix.transpose_transpose]
  exact ⟨hLL, fun i j h => htri j i h⟩

theorem glsLocals_beta_unique (psi : Matrix (Fin n) (Fin n) ℝ) (hpsi : psi.PosDef)
    (XTR : Matrix (Fin n) (Fin p) ℝ) (Y : Fin n → ℝ)
    (hG : (XTRᵀ * psi⁻¹ * XTR).det ≠ 0) (b : Fin p → ℝ)
    (hb : (XTRᵀ * psi⁻¹ * XTR) *ᵥ b = (XTRᵀ * psi⁻¹) *ᵥ Y) :
    b = (glsLocals Real.sqrt psi XTR Y).beta := by
  have hdet : IsUnit (XTRᵀ * psi⁻¹ * XTR).det := isUnit_iff_ne_zero.mpr hG
  have h := glsLocals_normal_equations psi hpsi XTR Y
  calc b = ((XTRᵀ * psi⁻¹ * XTR)⁻¹ * (XTRᵀ * psi⁻¹ * XTR)) *ᵥ b := by
        rw [Matrix.nonsing_inv_mul _ hdet, Matrix.one_mulVec]
    _ = ((XTRᵀ * psi⁻¹ * XTR)⁻¹ * (XTRᵀ * psi⁻¹ * XTR))
          *ᵥ (glsLocals Real.sqrt psi XTR Y).beta := by
        rw [← Matrix.mulVec_mulVec, hb, ← h, Matrix.mulVec_mulVec]
    _ = (glsLocals Real.sqrt psi XTR Y).beta := by
        rw [Matrix.nonsing_inv_mul _ hdet, Matrix.one_mulVec]

theorem glsLocals_least (psi : Matrix (Fin n) (Fin n) ℝ) (hpsi : psi.PosDef)
    (XTR : Matrix (Fin n) (Fin p) ℝ) (Y : Fin n → ℝ) :
    IsLeast (Set.range (fun b : Fin p → ℝ =>
        (Y - XTR *ᵥ b) ⬝ᵥ psi⁻¹ *ᵥ (Y - XTR *ᵥ b) + Real.log psi.det))
      ((glsLocals Real.sqrt psi XTR Y).quadForm
        + 2 * ∑ i, Real.log ((glsLocals Real.sqrt psi XTR Y).U i i)) := by
  rw [glsLocals_logdet psi hpsi, glsLocals_quadForm psi hpsi, glsLocals_resid]
  constructor
  · exact ⟨(glsLocals Real.sqrt psi XTR Y).beta, rfl⟩
  · rintro _ ⟨b, rfl⟩
    have := normal_equations_minimise XTR psi⁻¹ hpsi.inv Y _
      (glsLocals_normal_equations psi hpsi XTR Y) b
    dsimp only
    linarith

theorem glsLocals_exact (psi : Matrix (Fin n) (Fin n) ℝ) (hpsi : psi.PosDef)
    (XTR : Matrix (Fin n) (Fin p) ℝ) (b : Fin p → ℝ) :
    (glsLocals Real.sqrt psi XTR (XTR *ᵥ b)).resid = 0
    ∧ (glsLocals Real.sqrt psi XTR (XTR *ᵥ b)).quadForm = 0 := by
  have h1 : (glsLocals Real.sqrt psi XTR (XTR *ᵥ b)).resid = 0 := by
    rw [glsLocals_resid]
    exact normal_equations_exact XTR psi⁻¹ hpsi.inv b _
      (glsLocals_normal_equations psi hpsi XTR (XTR *ᵥ b))
  refine ⟨h1, ?_⟩
  rw [glsLocals_quadForm psi hpsi, h1, Matrix.zero_dotProduct]

end TailFacts

section FailedPivot
variable {α : Type} [LinearOrderedField α] {n : ℕ}

theorem lltUnblocked_failed_stays (sqrt : α → α) (A : Matrix (Fin n) (Fin n) α) (k : ℕ)
    (h : (lltUnblocked sqrt A k).2 = false) (m : ℕ) :
    lltUnblocked sqrt A (k + m) = lltUnblocked sqrt A k := by
  induction m with
  | zero => rfl
  | succ m ih =>
    have : k + (m + 1) = (k + m) + 1 := by omega
    rw [this, lltUnblocked]
    simp only [ih, h, Bool.false_eq_true, if_false]

theorem lltColumn_untouched (sqrt : α → α) (m m2 : Matrix (Fin n) (Fin n) α) (k : Fin n)
    (h : lltColumn sqrt m k = some m2) (i j : Fin n) (hj : j ≠ k) : m2 i j = m i j := by
  unfold lltColumn at h
  simp only at h
  split_ifs at h with hx
  have := Option.some.inj h
  rw [← this]
  simp only [hj, if_false]

theorem lltUnblocked_untouched (sqrt : α → α) (A : Matrix (Fin n) (Fin n) α) (k : ℕ)
    (i j : Fin n) (hj : k ≤ j.val) : (lltUnblocked sqrt A k).1 i j = A i j := by
  induction k with
  | zero => rfl
  | succ k ih =>
    rw [lltUnblocked]
    by_cases h2 : (lltUnblocked sqrt A k).2 = true
    · by_cases hk : k < n
      · simp only [h2, if_true, hk, dite_true]
        cases hc : lltColumn sqrt (lltUnblocked sqrt A k).1 ⟨k, hk⟩ with
        | none => exact ih (by omega)
        | some m2 =>
          have hne : j ≠ ⟨k, hk⟩ := by
            intro h; rw [h] at hj; simp at hj
          show m2 i j = A i j
          rw [lltColumn_untouched sqrt _ m2 ⟨k, hk⟩ hc i j hne]
          exact ih (by omega)
      · simp only [h2, if_true, hk, dite_false]
        exact ih (by omega)
    · simp only [h2, if_false]
      exact ih (by omega)

/-- A non-positive diagonal entry of the input makes the Cholesky kernel stop with
`NumericalIssue`, at that column or before, and the entry is still in place afterwards. -/
theorem llt_nonpos_diag (sqrt : α → α) (A : Matrix (Fin n) (Fin n) α) (i0 : Fin n)
    (h : A i0 i0 ≤ 0) :
    (llt sqrt A).m_info = false ∧ (llt sqrt A).m_matrix i0 i0 = A i0 i0 := by
  have hfail : (lltUnblocked sqrt A (i0.val + 1)).2 = false := by
    rw [lltUnblocked]
    by_cases h2 : (lltUnblocked sqrt A i0.val).2 = true
    · simp only [h2, if_true, i0.isLt, dite_true]
      have hx : (lltUnblocked sqrt A i0.val).1 i0 i0
          - ∑ t in Finset.univ.filter (fun t => t < i0),
              (lltUnblocked sqrt A i0.val).1 i0 t * (lltUnblocked sqrt A i0.val).1 i0 t ≤ 0 := by
        rw [lltUnblocked_untouched sqrt A i0.val i0 i0 le_rfl]
        have : 0 ≤ ∑ t in Finset.univ.filter (fun t => t < i0),
            (lltUnblocked sqrt A i0.val).1 i0 t * (lltUnblocked sqrt A i0.val).1 i0 t :=
          Finset.sum_nonneg (fun t _ => mul_self_nonneg _)
        linarith
      have hnone : lltColumn sqrt (lltUnblocked sqrt A i0.val).1 ⟨i0.val, i0.isLt⟩ = none := by
        unfold lltColumn
        simp only [Fin.eta, hx, if_true]
      rw [hnone]
    · simp only [h2, if_false]
      simpa using h2
  have hstay : lltUnblocked sqrt A n = lltUnblocked sqrt A (i0.val + 1) := by
    have := lltUnblocked_failed_stays sqrt A (i0.val + 1) hfail (n - (i0.val + 1))
    rw [show i0.val + 1 + (n - (i0.val + 1)) = n by have := i0.isLt; omega] at this
    exact this
  have hdiag : (lltUnblocked sqrt A (i0.val + 1)).1 i0 i0 = A i0 i0 := by
    rw [lltUnblocked]
    by_cases h2 : (lltUnblocked sqrt A i0.val).2 = true
    · simp only [h2, if_true, i0.isLt, dite_true]
      cases hc : lltColumn sqrt (lltUnblocked sqrt A i0.val).1 ⟨i0.val, i0.isLt⟩ with
      | none => exact lltUnblocked_untouched sqrt A i0.val i0 i0 le_rfl
      | some m2 =>
        exfalso
        have hf := hfail
        rw [lltUnblocked] at hf
        simp only [h2, if_true, i0.isLt, dite_true, hc] at hf
        exact Bool.noConfusion hf
    · simp only [h2, if_false]
      exact lltUnblocked_untouched sqrt A i0.val i0 i0 le_rfl
  unfold llt
  rw [hstay]
  exact ⟨hfail, hdiag⟩

end FailedPivot

section ExampleFacts

theorem exPsiA_eq (y1 y2 : ℝ) :
    (logProfileCpp.psi (nuggetKernels : Kernels ℝ) (vec3 1 2 3) exDTR (vec2 y1 y2) (vec2 0 1)
        exOnes (vec1 1) 0.5).toMatrix (vec2 y1 y2).size (vec2 y1 y2).size
      = Matrix.diagonal (fun i : Fin 2 => if i = 0 then (4 : ℝ) else 3) := by
  funext i k
  unfold MatrixXd.toMatrix
  rw [logProfileCpp_psi_coeff]
  simp only [kernelSum, selectedKernel, nuggetKernels, vec1, vec2, vec3, exDTR, exOnes,
    Finset.sum_range_one, if_true]
  fin_cases i <;> fin_cases k <;> simp [Matrix.diagonal] <;> norm_num

theorem exPsiA_posDef (y1 y2 : ℝ) :
    ((logProfileCpp.psi (nuggetKernels : Kernels ℝ) (vec3 1 2 3) exDTR (vec2 y1 y2) (vec2 0 1)
        exOnes (vec1 1) 0.5).toMatrix (vec2 y1 y2).size (vec2 y1 y2).size).PosDef := by
  rw [exPsiA_eq]
  apply Matrix.PosDef.diagonal
  intro i
  fin_cases i <;> simp

theorem exPsiB_eq (y1 y2 : ℝ) :
    (logProfileCppH.psi (nuggetKernels : Kernels ℝ) (vec2 1 3) exDTR (vec2 y1 y2)
        exOnes (vec1 1) 0.5).toMatrix (vec2 y1 y2).size (vec2 y1 y2).size
      = Matrix.diagonal (fun _ : Fin 2 => (4 : ℝ)) := by
  funext i k
  unfold MatrixXd.toMatrix
  rw [logProfileCppH_psi_coeff]
  simp only [kernelSum, selectedKernel, nuggetKernels, vec1, vec2, exDTR, exOnes,
    Finset.sum_range_one, if_true]
  fin_cases i <;> fin_cases k <;> simp [Matrix.diagonal] <;> norm_num

theorem exPsiB_posDef (y1 y2 : ℝ) :
    ((logProfileCppH.psi (nuggetKernels : Kernels ℝ) (vec2 1 3) exDTR (vec2 y1 y2)
        exOnes (vec1 1) 0.5).toMatrix (vec2 y1 y2).size (vec2 y1 y2).size).PosDef := by
  rw [exPsiB_eq]
  apply Matrix.PosDef.diagonal
  intro i
  norm_num

theorem exAccessA (y1 y2 : ℝ) :
    logProfileCpp.accessOk (vec3 (1 : ℝ) 2 3) exDTR (vec2 y1 y2) exOnes (vec2 0 1) exOnes
      (vec1 1) := by
  unfold logProfileCpp.accessOk
  simp [vec1, vec2, vec3, exDTR, exOnes]

theorem exAccessB (y1 y2 : ℝ) :
    logProfileCppH.accessOk (vec2 (1 : ℝ) 3) exDTR (vec2 y1 y2) exOnes exOnes (vec1 1) := by
  unfold logProfileCppH.accessOk
  simp [vec1, vec2, exDTR, exOnes]

end ExampleFacts

section NumericClaims

/-- Claim C7. For a positive definite `psi`, the `U` of both evaluators is upper triangular
with positive diagonal and `Uᵀ·U = psi` (it is the transpose of the lower Cholesky factor),
and `logUdet = 2·Σ log U[i,i]` equals `log (det psi)`. -/
theorem C7_logUdet_eq_log_det (K : Kernels ℝ) (thetaA thetaB : VectorXd ℝ) (DTR : MatrixXd ℝ)
    (Y : VectorXd ℝ) (XTR : MatrixXd ℝ) (subsetStatic : VectorXd ℝ) (PhiTime : MatrixXd ℝ)
    (LambEst : VectorXd ℝ) (nu : ℝ) :
    (((logProfileCpp.psi K thetaA DTR Y subsetStatic PhiTime LambEst nu).toMatrix
        Y.size Y.size).PosDef →
      2 * ∑ i, Real.log ((logProfileCpp.locals K Real.sqrt thetaA DTR Y XTR subsetStatic
          PhiTime LambEst nu).U.diag i)
        = Real.log ((logProfileCpp.psi K thetaA DTR Y subsetStatic PhiTime LambEst
            nu).toMatrix Y.size Y.size).det
      ∧ ((logProfileCpp.locals K Real.sqrt thetaA DTR Y XTR subsetStatic PhiTime LambEst
            nu).U)ᵀ
          * (logProfileCpp.locals K Real.sqrt thetaA DTR Y XTR subsetStatic PhiTime LambEst
            nu).U
          = (logProfileCpp.psi K thetaA DTR Y subsetStatic PhiTime LambEst nu).toMatrix
              Y.size Y.size
      ∧ (∀ i, 0 < (logProfileCpp.locals K Real.sqrt thetaA DTR Y XTR subsetStatic PhiTime
            LambEst nu).U i i)
      ∧ (∀ i j, j < i → (logProfileCpp.locals K Real.sqrt thetaA DTR Y XTR subsetStatic
            PhiTime LambEst nu).U i j = 0))
    ∧ (((logProfileCppH.psi K thetaB DTR Y PhiTime LambEst nu).toMatrix
        Y.size Y.size).PosDef →
      2 * ∑ i, Real.log ((logProfileCppH.locals K Real.sqrt thetaB DTR Y XTR
          PhiTime LambEst nu).U.diag i)
        = Real.log ((logProfileCppH.psi K thetaB DTR Y PhiTime LambEst
            nu).toMatrix Y.size Y.size).det
      ∧ ((logProfileCppH.locals K Real.sqrt thetaB DTR Y XTR PhiTime LambEst nu).U)ᵀ
          * (logProfileCppH.locals K Real.sqrt thetaB DTR Y XTR PhiTime LambEst nu).U
          = (logProfileCppH.psi K thetaB DTR Y PhiTime LambEst nu).toMatrix Y.size Y.size
      ∧ (∀ i, 0 < (logProfileCppH.locals K Real.sqrt thetaB DTR Y XTR PhiTime
            LambEst nu).U i i)
      ∧ (∀ i j, j < i → (logProfileCppH.locals K Real.sqrt thetaB DTR Y XTR
            PhiTime LambEst nu).U i j = 0)) :=
  ⟨fun hA => ⟨glsLocals_logdet _ hA _ _, (glsLocals_factor _ hA _ _).1,
      glsLocals_U_pos _ hA _ _, (glsLocals_factor _ hA _ _).2⟩,
    fun hB => ⟨glsLocals_logdet _ hB _ _, (glsLocals_factor _ hB _ _).1,
      glsLocals_U_pos _ hB _ _, (glsLocals_factor _ hB _ _).2⟩⟩

/-- Claim C8. For a positive definite `psi` and a nonsingular Gram matrix
`XTRᵀ·psi⁻¹·XTR`, in both evaluators `SX = psi⁻¹·XTR`, the computed `beta` is the unique
solution of the GLS normal equations `(XTRᵀ·psi⁻¹·XTR)·beta = XTRᵀ·psi⁻¹·Y`, and
`resid = Y - XTR·beta`. -/
theorem C8_beta_solves_normal_equations (K : Kernels ℝ) (thetaA thetaB : VectorXd ℝ)
    (DTR : MatrixXd ℝ) (Y : VectorXd ℝ) (XTR : MatrixXd ℝ) (subsetStatic : VectorXd ℝ)
    (PhiTime : MatrixXd ℝ) (LambEst : VectorXd ℝ) (nu : ℝ) :
    (((logProfileCpp.psi K thetaA DTR Y subsetStatic PhiTime LambEst nu).toMatrix
        Y.size Y.size).PosDef →
      ((XTR.toMatrix Y.size XTR.cols)ᵀ
        * ((logProfileCpp.psi K thetaA DTR Y subsetStatic PhiTime LambEst nu).toMatrix
            Y.size Y.size)⁻¹ * XTR.toMatrix Y.size XTR.cols).det ≠ 0 →
      (logProfileCpp.locals K Real.sqrt thetaA DTR Y XTR subsetStatic PhiTime LambEst nu).SX
        = ((logProfileCpp.psi K thetaA DTR Y subsetStatic PhiTime LambEst nu).toMatrix
            Y.size Y.size)⁻¹ * XTR.toMatrix Y.size XTR.cols
      ∧ ((XTR.toMatrix Y.size XTR.cols)ᵀ
          * ((logProfileCpp.psi K thetaA DTR Y subsetStatic PhiTime LambEst nu).toMatrix
              Y.size Y.size)⁻¹ * XTR.toMatrix Y.size XTR.cols)
          *ᵥ (logProfileCpp.locals K Real.sqrt thetaA DTR Y XTR subsetStatic PhiTime
            LambEst nu).beta
        = ((XTR.toMatrix Y.size XTR.cols)ᵀ
          * ((logProfileCpp.psi K thetaA DTR Y subsetStatic PhiTime LambEst nu).toMatrix
              Y.size Y.size)⁻¹) *ᵥ Y.toVec Y.size
      ∧ (∀ b, ((XTR.toMatrix Y.size XTR.cols)ᵀ
          * ((logProfileCpp.psi K thetaA DTR Y subsetStatic PhiTime LambEst nu).toMatrix
              Y.size Y.size)⁻¹ * XTR.toMatrix Y.size XTR.cols) *ᵥ b
          = ((XTR.toMatrix Y.size XTR.cols)ᵀ
            * ((logProfileCpp.psi K thetaA DTR Y subsetStatic PhiTime LambEst nu).toMatrix
                Y.size Y.size)⁻¹) *ᵥ Y.toVec Y.size →
          b = (logProfileCpp.locals K Real.sqrt thetaA DTR Y XTR subsetStatic PhiTime
            LambEst nu).beta)
      ∧ (logProfileCpp.locals K Real.sqrt thetaA DTR Y XTR subsetStatic PhiTime
            LambEst nu).resid
          = Y.toVec Y.size - XTR.toMatrix Y.size XTR.cols
            *ᵥ (logProfileCpp.locals K Real.sqrt thetaA DTR Y XTR subsetStatic PhiTime
              LambEst nu).beta)
    ∧ (((logProfileCppH.psi K thetaB DTR Y PhiTime LambEst nu).toMatrix
        Y.size Y.size).PosDef →
      ((XTR.toMatrix Y.size XTR.cols)ᵀ
        * ((logProfileCppH.psi K thetaB DTR Y PhiTime LambEst nu).toMatrix
            Y.size Y.size)⁻¹ * XTR.toMatrix Y.size XTR.cols).det ≠ 0 →
      (logProfileCppH.locals K Real.sqrt thetaB DTR Y XTR PhiTime LambEst nu).SX
        = ((logProfileCppH.psi K thetaB DTR Y PhiTime LambEst nu).toMatrix
            Y.size Y.size)⁻¹ * XTR.toMatrix Y.size XTR.cols
      ∧ ((XTR.toMatrix Y.size XTR.cols)ᵀ
          * ((logProfileCppH.psi K thetaB DTR Y PhiTime LambEst nu).toMatrix
              Y.size Y.size)⁻¹ * XTR.toMatrix Y.size XTR.cols)
          *ᵥ (logProfileCppH.locals K Real.sqrt thetaB DTR Y XTR PhiTime LambEst nu).beta
        = ((XTR.toMatrix Y.size XTR.cols)ᵀ
          * ((logProfileCppH.psi K thetaB DTR Y PhiTime LambEst nu).toMatrix
              Y.size Y.size)⁻¹) *ᵥ Y.toVec Y.size
      ∧ (∀ b, ((XTR.toMatrix Y.size XTR.cols)ᵀ
          * ((logProfileCppH.psi K thetaB DTR Y PhiTime LambEst nu).toMatrix
              Y.size Y.size)⁻¹ * XTR.toMatrix Y.size XTR.cols) *ᵥ b
          = ((XTR.toMatrix Y.size XTR.cols)ᵀ
            * ((logProfileCppH.psi K thetaB DTR Y PhiTime LambEst nu).toMatrix
                Y.size Y.size)⁻¹) *ᵥ Y.toVec Y.size →
          b = (logProfileCppH.locals K Real.sqrt thetaB DTR Y XTR PhiTime LambEst nu).beta)
      ∧ (logProfileCppH.locals K Real.sqrt thetaB DTR Y XTR PhiTime LambEst nu).resid
          = Y.toVec Y.size - XTR.toMatrix Y.size XTR.cols
            *ᵥ (logProfileCppH.locals K Real.sqrt thetaB DTR Y XTR PhiTime LambEst
              nu).beta) :=
  ⟨fun hA hGA => ⟨glsLocals_SX _ hA _ _, glsLocals_normal_equations _ hA _ _,
      fun b hb => glsLocals_beta_unique _ hA _ _ hGA b hb, rfl⟩,
    fun hB hGB => ⟨glsLocals_SX _ hB _ _, glsLocals_normal_equations _ hB _ _,
      fun b hb => glsLocals_beta_unique _ hB _ _ hGB b hb, rfl⟩⟩

/-- Claim C9. For a positive definite `psi` (and operands of matching shapes), the value
returned by both evaluators is the least value of
`(Y - XTR·b)ᵀ·psi⁻¹·(Y - XTR·b) + log (det psi)` over all coefficient vectors `b`. -/
theorem C9_profile_minimum (K : Kernels ℝ) (thetaA thetaB : VectorXd ℝ)
    (DTR : MatrixXd ℝ) (Y : VectorXd ℝ) (XTR : MatrixXd ℝ) (subsetStatic : VectorXd ℝ)
    (PhiTime : MatrixXd ℝ) (LambEst : VectorXd ℝ) (nu : ℝ) :
    (logProfileCpp.accessOk thetaA DTR Y XTR subsetStatic PhiTime LambEst →
      ((logProfileCpp.psi K thetaA DTR Y subsetStatic PhiTime LambEst nu).toMatrix
        Y.size Y.size).PosDef →
      ∃ v, logProfileCpp K Real.sqrt Real.log thetaA DTR Y XTR subsetStatic PhiTime LambEst nu
        = Outcome.value v
      ∧ IsLeast (Set.range (fun b : Fin XTR.cols → ℝ =>
          (Y.toVec Y.size - XTR.toMatrix Y.size XTR.cols *ᵥ b)
            ⬝ᵥ ((logProfileCpp.psi K thetaA DTR Y subsetStatic PhiTime LambEst nu).toMatrix
                Y.size Y.size)⁻¹ *ᵥ (Y.toVec Y.size - XTR.toMatrix Y.size XTR.cols *ᵥ b)
          + Real.log ((logProfileCpp.psi K thetaA DTR Y subsetStatic PhiTime LambEst
              nu).toMatrix Y.size Y.size).det)) v)
    ∧ (logProfileCppH.accessOk thetaB DTR Y XTR PhiTime LambEst →
      ((logProfileCppH.psi K thetaB DTR Y PhiTime LambEst nu).toMatrix
        Y.size Y.size).PosDef →
      ∃ v, logProfileCppH K Real.sqrt Real.log thetaB DTR Y XTR PhiTime LambEst nu
        = Outcome.value v
      ∧ IsLeast (Set.range (fun b : Fin XTR.cols → ℝ =>
          (Y.toVec Y.size - XTR.toMatrix Y.size XTR.cols *ᵥ b)
            ⬝ᵥ ((logProfileCppH.psi K thetaB DTR Y PhiTime LambEst nu).toMatrix
                Y.size Y.size)⁻¹ *ᵥ (Y.toVec Y.size - XTR.toMatrix Y.size XTR.cols *ᵥ b)
          + Real.log ((logProfileCppH.psi K thetaB DTR Y PhiTime LambEst
              nu).toMatrix Y.size Y.size).det)) v) := by
  constructor
  · intro haccA hA
    refine ⟨_, ?_, glsLocals_least _ hA (XTR.toMatrix Y.size XTR.cols) (Y.toVec Y.size)⟩
    unfold logProfileCpp
    rw [if_pos haccA]
    exact glsLocals_result _ hA _ _
  · intro haccB hB
    refine ⟨_, ?_, glsLocals_least _ hB (XTR.toMatrix Y.size XTR.cols) (Y.toVec Y.size)⟩
    unfold logProfileCppH
    rw [if_pos haccB]
    exact glsLocals_result _ hB _ _

/-- Claim C2. For a positive definite `psi` and `Y = XTR·b` (any `XTR`, of any rank), both
evaluators compute `resid = 0` and `quadForm = 0`, and return `logUdet` alone. -/
theorem C2_gls_exactness (K : Kernels ℝ) (thetaA thetaB : VectorXd ℝ)
    (DTR : MatrixXd ℝ) (Y : VectorXd ℝ) (XTR : MatrixXd ℝ) (subsetStatic : VectorXd ℝ)
    (PhiTime : MatrixXd ℝ) (LambEst : VectorXd ℝ) (nu : ℝ) (b : Fin XTR.cols → ℝ)
    (hY : Y.toVec Y.size = XTR.toMatrix Y.size XTR.cols *ᵥ b) :
    (logProfileCpp.accessOk thetaA DTR Y XTR subsetStatic PhiTime LambEst →
      ((logProfileCpp.psi K thetaA DTR Y subsetStatic PhiTime LambEst nu).toMatrix
        Y.size Y.size).PosDef →
      (logProfileCpp.locals K Real.sqrt thetaA DTR Y XTR subsetStatic PhiTime LambEst
          nu).resid = 0
      ∧ (logProfileCpp.locals K Real.sqrt thetaA DTR Y XTR subsetStatic PhiTime LambEst
          nu).quadForm = 0
      ∧ logProfileCpp K Real.sqrt Real.log thetaA DTR Y XTR subsetStatic PhiTime LambEst nu
        = Outcome.value (2 * ∑ i, Real.log ((logProfileCpp.locals K Real.sqrt thetaA DTR Y
            XTR subsetStatic PhiTime LambEst nu).U.diag i)))
    ∧ (logProfileCppH.accessOk thetaB DTR Y XTR PhiTime LambEst →
      ((logProfileCppH.psi K thetaB DTR Y PhiTime LambEst nu).toMatrix
        Y.size Y.size).PosDef →
      (logProfileCppH.locals K Real.sqrt thetaB DTR Y XTR PhiTime LambEst nu).resid = 0
      ∧ (logProfileCppH.locals K Real.sqrt thetaB DTR Y XTR PhiTime LambEst nu).quadForm = 0
      ∧ logProfileCppH K Real.sqrt Real.log thetaB DTR Y XTR PhiTime LambEst nu
        = Outcome.value (2 * ∑ i, Real.log ((logProfileCppH.locals K Real.sqrt thetaB DTR Y
            XTR PhiTime LambEst nu).U.diag i))) := by
  constructor
  · intro haccA hA
    have h := glsLocals_exact _ hA (XTR.toMatrix Y.size XTR.cols) b
    rw [← hY] at h
    refine ⟨h.1, h.2, ?_⟩
    unfold logProfileCpp
    rw [if_pos haccA]
    have hr := glsLocals_result _ hA (XTR.toMatrix Y.size XTR.cols) (Y.toVec Y.size)
    rw [h.2, zero_add] at hr
    exact hr
  · intro haccB hB
    have h := glsLocals_exact _ hB (XTR.toMatrix Y.size XTR.cols) b
    rw [← hY] at h
    refine ⟨h.1, h.2, ?_⟩
    unfold logProfileCppH
    rw [if_pos haccB]
    have hr := glsLocals_result _ hB (XTR.toMatrix Y.size XTR.cols) (Y.toVec Y.size)
    rw [h.2, zero_add] at hr
    exact hr

end NumericClaims

section NuggetClaim

/-- Claim C10 as stated fails. One observation, `J = 1`, `LambEst = (5)`, `theta = (1, -1)`,
`DTR = [[0]]`, `XTR = PhiTime = [[1]]`, `Y = (1)`, `nu = 0.5`: the noise parameter
`theta(J) = -1` is negative, yet `psi = 5·1 - 1 = 4` is positive definite, the factorisation
succeeds and `logProfileCppH` returns the finite value `log 4`. -/
theorem C10_counterexample_negative_nugget_finite :
    (vec2 (1 : ℝ) (-1)).coeff (vec1 (5 : ℝ)).size ≤ 0
    ∧ (llt Real.sqrt ((logProfileCppH.psi (nuggetKernels : Kernels ℝ) (vec2 1 (-1)) (mat1 0)
          (vec1 1) (mat1 1) (vec1 5) 0.5).toMatrix (vec1 (1 : ℝ)).size
          (vec1 (1 : ℝ)).size)).m_info = true
    ∧ logProfileCppH (nuggetKernels : Kernels ℝ) Real.sqrt Real.log (vec2 1 (-1))
        (mat1 0) (vec1 1) (mat1 1) (mat1 1) (vec1 5) 0.5 = Outcome.value (Real.log 4) := by
  have hpsi : (logProfileCppH.psi (nuggetKernels : Kernels ℝ) (vec2 1 (-1)) (mat1 0)
        (vec1 1) (mat1 1) (vec1 5) 0.5).toMatrix (vec1 (1 : ℝ)).size
        (vec1 (1 : ℝ)).size = Matrix.diagonal (fun _ : Fin 1 => (4 : ℝ)) := by
    funext i k
    unfold MatrixXd.toMatrix
    rw [logProfileCppH_psi_coeff]
    simp only [kernelSum, selectedKernel, nuggetKernels, vec1, vec2, mat1,
      Finset.sum_range_one, if_true]
    fin_cases i
    fin_cases k
    simp [Matrix.diagonal]
    norm_num
  have hpd : ((logProfileCppH.psi (nuggetKernels : Kernels ℝ) (vec2 1 (-1)) (mat1 0)
        (vec1 1) (mat1 1) (vec1 5) 0.5).toMatrix (vec1 (1 : ℝ)).size
        (vec1 (1 : ℝ)).size).PosDef := by
    rw [hpsi]
    apply Matrix.PosDef.diagonal
    intro i
    norm_num
  have hacc : logProfileCppH.accessOk (vec2 (1 : ℝ) (-1)) (mat1 0) (vec1 1) (mat1 1) (mat1 1)
      (vec1 5) := by
    unfold logProfileCppH.accessOk
    simp [vec1, vec2, mat1]
  have hY : (vec1 (1 : ℝ)).toVec (vec1 (1 : ℝ)).size
      = (mat1 (1 : ℝ)).toMatrix (vec1 (1 : ℝ)).size (mat1 (1 : ℝ)).cols *ᵥ (fun _ => 1) := by
    funext i
    simp only [VectorXd.toVec, vec1, Matrix.mulVec, Matrix.dotProduct, MatrixXd.toMatrix,
      mat1, one_mul]
    show _ = ∑ x : Fin 1, (1 : ℝ)
    simp
  refine ⟨?_, (llt_posDef _ hpd).1, ?_⟩
  · simp [vec1, vec2]
  · unfold logProfileCppH
    rw [if_pos hacc]
    have hq := (glsLocals_exact _ hpd ((mat1 (1 : ℝ)).toMatrix (vec1 (1 : ℝ)).size
      (mat1 (1 : ℝ)).cols) (fun _ => 1)).2
    rw [← hY] at hq
    have hr := glsLocals_result _ hpd ((mat1 (1 : ℝ)).toMatrix (vec1 (1 : ℝ)).size
      (mat1 (1 : ℝ)).cols) ((vec1 (1 : ℝ)).toVec (vec1 (1 : ℝ)).size)
    have hdet : ((logProfileCppH.psi (nuggetKernels : Kernels ℝ) (vec2 1 (-1)) (mat1 0)
        (vec1 1) (mat1 1) (vec1 5) 0.5).toMatrix (vec1 (1 : ℝ)).size
        (vec1 (1 : ℝ)).size).det = 4 := by
      rw [hpsi, Matrix.det_diagonal]
      show (∏ _i : Fin 1, (4 : ℝ)) = 4
      simp
    rw [hq, zero_add, glsLocals_logdet _ hpd, hdet] at hr
    exact hr

variable {α : Type} [LinearOrderedField α]

/-- Claim C10, amended. When some diagonal entry of `psi` in `logProfileCppH`, the kernel part
`Σ_j LambEst(j)·K_j[i,i]·PhiTime[i,j]²` plus the noise parameter `theta(J)`, is not positive
(every one of them is when `theta(J) ≤ 0` and `J = 0`), the Cholesky kernel stops with status
`NumericalIssue` and the value returned is not finite (`log` of that entry of `U`). -/
theorem C10_nonpositive_diagonal (K : Kernels α) (sqrt log : α → α) (theta : VectorXd α)
    (DTR : MatrixXd α) (Y : VectorXd α) (XTR : MatrixXd α) (PhiTime : MatrixXd α)
    (LambEst : VectorXd α) (nu : α) (i : ℕ)
    (hacc : logProfileCppH.accessOk theta DTR Y XTR PhiTime LambEst)
    (hi : i < Y.size)
    (hdiag : (∑ j in Finset.range LambEst.size,
        LambEst.coeff j * (selectedKernel K nu DTR (theta.coeff j)).coeff i i
          * PhiTime.coeff i j * PhiTime.coeff i j) + theta.coeff LambEst.size ≤ 0) :
    (llt sqrt ((logProfileCppH.psi K theta DTR Y PhiTime LambEst nu).toMatrix
        Y.size Y.size)).m_info = false
    ∧ logProfileCppH K sqrt log theta DTR Y XTR PhiTime LambEst nu = Outcome.nonFinite := by
  have h00 : (logProfileCppH.psi K theta DTR Y PhiTime LambEst nu).toMatrix Y.size Y.size
      ⟨i, hi⟩ ⟨i, hi⟩ ≤ 0 := by
    unfold MatrixXd.toMatrix
    rw [logProfileCppH_psi_coeff]
    simpa [kernelSum] using hdiag
  obtain ⟨h1, h2⟩ := llt_nonpos_diag sqrt _ ⟨i, hi⟩ h00
  refine ⟨h1, ?_⟩
  unfold logProfileCppH
  rw [if_pos hacc]
  unfold Locals.result
  rw [if_neg]
  intro hall
  have := hall ⟨i, hi⟩
  have hU : (logProfileCppH.locals K sqrt theta DTR Y XTR PhiTime LambEst nu).U ⟨i, hi⟩ ⟨i, hi⟩
      = (logProfileCppH.psi K theta DTR Y PhiTime LambEst nu).toMatrix Y.size Y.size
          ⟨i, hi⟩ ⟨i, hi⟩ := by
    show ((llt sqrt _).matrixL)ᵀ ⟨i, hi⟩ ⟨i, hi⟩ = _
    rw [Matrix.transpose_apply]
    unfold LLT.matrixL
    rw [if_pos le_rfl, h2]
  rw [hU] at this
  exact absurd this (not_lt.mpr h00)

/-- A run of the amended C10: `J = 0` and `theta = (-1)`, so `psi = -I`; the second diagonal
entry is used. -/
theorem C10_nonpositive_diagonal_witness :
    logProfileCppH.accessOk (vec1 (-1 : ℝ)) exDTR (vec2 1 2) exOnes exOnes vec0
    ∧ 1 < (vec2 (1 : ℝ) 2).size
    ∧ (∑ j in Finset.range (vec0 : VectorXd ℝ).size,
        (vec0 : VectorXd ℝ).coeff j
          * (selectedKernel nuggetKernels 0.5 exDTR ((vec1 (-1 : ℝ)).coeff j)).coeff 1 1
          * (exOnes : MatrixXd ℝ).coeff 1 j * (exOnes : MatrixXd ℝ).coeff 1 j)
        + (vec1 (-1 : ℝ)).coeff (vec0 : VectorXd ℝ).size ≤ 0
    ∧ (llt Real.sqrt ((logProfileCppH.psi nuggetKernels (vec1 (-1 : ℝ)) exDTR (vec2 1 2)
        exOnes vec0 0.5).toMatrix (vec2 (1 : ℝ) 2).size (vec2 (1 : ℝ) 2).size)).m_info = false
    ∧ logProfileCppH nuggetKernels Real.sqrt Real.log (vec1 (-1 : ℝ)) exDTR (vec2 1 2) exOnes
        exOnes vec0 0.5 = Outcome.nonFinite := by
  have hacc : logProfileCppH.accessOk (vec1 (-1 : ℝ)) exDTR (vec2 1 2) exOnes exOnes vec0 := by
    unfold logProfileCppH.accessOk
    simp [vec0, vec1, vec2, exOnes]
  have hN : 1 < (vec2 (1 : ℝ) 2).size := by simp [vec2]
  have hp : (∑ j in Finset.range (vec0 : VectorXd ℝ).size,
        (vec0 : VectorXd ℝ).coeff j
          * (selectedKernel nuggetKernels 0.5 exDTR ((vec1 (-1 : ℝ)).coeff j)).coeff 1 1
          * (exOnes : MatrixXd ℝ).coeff 1 j * (exOnes : MatrixXd ℝ).coeff 1 j)
        + (vec1 (-1 : ℝ)).coeff (vec0 : VectorXd ℝ).size ≤ 0 := by
    simp [vec0, vec1]
  exact ⟨hacc, hN, hp,
    C10_nonpositive_diagonal nuggetKernels Real.sqrt Real.log (vec1 (-1)) exDTR (vec2 1 2)
      exOnes exOnes vec0 0.5 1 hacc hN hp⟩

end NuggetClaim

section Witnesses

/-- A design matrix of full column rank has a nonsingular Gram matrix. -/
theorem gram_det_ne_zero {n p : ℕ} (X : Matrix (Fin n) (Fin p) ℝ)
    (W : Matrix (Fin n) (Fin n) ℝ) (hW : W.PosDef) (hX : ∀ c, X *ᵥ c = 0 → c = 0) :
    (Xᵀ * W * X).det ≠ 0 := by
  have hpsd : (Xᵀ * W * X).PosSemidef := by
    rw [Matrix.mul_assoc]; exact gram_posSemidef X W hW
  have hpd : (Xᵀ * W * X).PosDef := by
    refine ⟨hpsd.1, fun c hc => ?_⟩
    have hXc : X *ᵥ c ≠ 0 := fun h => hc (hX c h)
    have := hW.2 (X *ᵥ c) hXc
    rw [star_trivial] at this ⊢
    rw [mulVec_dotProduct_eq, Matrix.mulVec_mulVec, Matrix.mulVec_mulVec] at this
    exact this
  exact ne_of_gt hpd.det_pos

theorem exOnes_injective (N : ℕ) (hN : 0 < N) (c : Fin (exOnes : MatrixXd ℝ).cols → ℝ)
    (h : (exOnes : MatrixXd ℝ).toMatrix N (exOnes : MatrixXd ℝ).cols *ᵥ c = 0) : c = 0 := by
  funext j
  have h0 := congrFun h ⟨0, hN⟩
  simp only [Matrix.mulVec, Matrix.dotProduct, MatrixXd.toMatrix, exOnes, one_mul,
    Pi.zero_apply] at h0
  have hj : j = ⟨0, by simp [exOnes]⟩ := Fin.ext (by
    have := j.isLt
    simp only [exOnes] at this
    simp only [Fin.val_mk]
    omega)
  have hs : ∑ x : Fin 1, c x = c ⟨0, by simp [exOnes]⟩ := by
    simp
  rw [hs] at h0
  rw [hj]
  exact h0

/-- A run of C1: two sites, one temporal component, `subsetStatic = (1, 1)`,
`thetaA = (1, 2, 3)` and `thetaB = (1, 2)`. -/
theorem C1_constant_indicator_equivalence_witness :
    (vec3 (1 : ℝ) 2 3).size = (vec1 (1 : ℝ)).size + 2
    ∧ (vec2 (1 : ℝ) 2).size = (vec1 (1 : ℝ)).size + 1
    ∧ (vec2 (1 : ℝ) 1).size = (vec2 (1 : ℝ) 2).size
    ∧ (∀ i, i < (vec2 (1 : ℝ) 2).size → (vec2 (1 : ℝ) 1).coeff i = 1)
    ∧ logProfileCpp nuggetKernels Real.sqrt Real.log (vec3 1 2 3) exDTR (vec2 1 2) exOnes
        (vec2 1 1) exOnes (vec1 1) 0.5
      = logProfileCppH nuggetKernels Real.sqrt Real.log (vec2 1 2) exDTR (vec2 1 2) exOnes
        exOnes (vec1 1) 0.5 := by
  have h4 : ∀ i, i < (vec2 (1 : ℝ) 2).size → (vec2 (1 : ℝ) 1).coeff i = 1 := by
    intro i _
    simp [vec2]
  exact ⟨rfl, rfl, rfl, h4,
    C1_constant_indicator_equivalence nuggetKernels Real.sqrt Real.log (vec3 1 2 3) (vec2 1 2)
      exDTR (vec2 1 2) exOnes (vec2 1 1) exOnes (vec1 1) 0.5 1 rfl rfl rfl h4
      (by intro j hj
          have : j = 0 := by simpa [vec1] using hj
          subst this
          simp [vec2, vec3])
      (by simp [vec1, vec2, vec3])⟩

/-- A run of C6 on the two-site input: the kernel matrices are symmetric there, and both
assembled matrices are symmetric. -/
theorem C6_psi_symmetric_witness :
    (∀ j i k, j < (vec1 (1 : ℝ)).size → i < (vec2 (1 : ℝ) 2).size → k < (vec2 (1 : ℝ) 2).size →
      (selectedKernel (nuggetKernels : Kernels ℝ) 0.5 exDTR ((vec3 (1 : ℝ) 2 3).coeff j)).coeff
          i k
        = (selectedKernel (nuggetKernels : Kernels ℝ) 0.5 exDTR
            ((vec3 (1 : ℝ) 2 3).coeff j)).coeff k i)
    ∧ ((logProfileCpp.psi (nuggetKernels : Kernels ℝ) (vec3 1 2 3) exDTR (vec2 1 2) (vec2 0 1)
        exOnes (vec1 1) 0.5).toMatrix (vec2 (1 : ℝ) 2).size (vec2 (1 : ℝ) 2).size).IsSymm
    ∧ ((logProfileCppH.psi (nuggetKernels : Kernels ℝ) (vec2 1 3) exDTR (vec2 1 2)
        exOnes (vec1 1) 0.5).toMatrix (vec2 (1 : ℝ) 2).size (vec2 (1 : ℝ) 2).size).IsSymm := by
  have hsym : ∀ (t : ℝ) (i k : ℕ),
      (selectedKernel (nuggetKernels : Kernels ℝ) 0.5 exDTR t).coeff i k
        = (selectedKernel (nuggetKernels : Kernels ℝ) 0.5 exDTR t).coeff k i := by
    intro t i k
    simp only [selectedKernel, nuggetKernels, exDTR, if_true]
    by_cases h : i = k
    · simp [h]
    · simp [h, Ne.symm h]
  exact ⟨fun j i k _ _ _ => hsym _ i k,
    (C6_psi_symmetric nuggetKernels (vec3 1 2 3) (vec2 1 3) exDTR (vec2 1 2) (vec2 0 1) exOnes
      (vec1 1) 0.5).1 (fun j i k _ _ _ => hsym _ i k),
    (C6_psi_symmetric nuggetKernels (vec3 1 2 3) (vec2 1 3) exDTR (vec2 1 2) (vec2 0 1) exOnes
      (vec1 1) 0.5).2 (fun j i k _ _ _ => hsym _ i k)⟩

/-- A run of C7 on the two-site input (`psi = diag(4, 3)` and `psi = 4·I`). -/
theorem C7_logUdet_eq_log_det_witness :
    ((logProfileCpp.psi (nuggetKernels : Kernels ℝ) (vec3 1 2 3) exDTR (vec2 1 2) (vec2 0 1)
        exOnes (vec1 1) 0.5).toMatrix (vec2 (1 : ℝ) 2).size (vec2 (1 : ℝ) 2).size).PosDef
    ∧ ((logProfileCppH.psi (nuggetKernels : Kernels ℝ) (vec2 1 3) exDTR (vec2 1 2)
        exOnes (vec1 1) 0.5).toMatrix (vec2 (1 : ℝ) 2).size (vec2 (1 : ℝ) 2).size).PosDef
    ∧ 2 * ∑ i, Real.log ((logProfileCpp.locals nuggetKernels Real.sqrt (vec3 1 2 3) exDTR
          (vec2 1 2) exOnes (vec2 0 1) exOnes (vec1 1) 0.5).U.diag i)
        = Real.log ((logProfileCpp.psi (nuggetKernels : Kernels ℝ) (vec3 1 2 3) exDTR
            (vec2 1 2) (vec2 0 1) exOnes (vec1 1) 0.5).toMatrix (vec2 (1 : ℝ) 2).size
            (vec2 (1 : ℝ) 2).size).det
    ∧ 2 * ∑ i, Real.log ((logProfileCppH.locals nuggetKernels Real.sqrt (vec2 1 3) exDTR
          (vec2 1 2) exOnes exOnes (vec1 1) 0.5).U.diag i)
        = Real.log ((logProfileCppH.psi (nuggetKernels : Kernels ℝ) (vec2 1 3) exDTR
            (vec2 1 2) exOnes (vec1 1) 0.5).toMatrix (vec2 (1 : ℝ) 2).size
            (vec2 (1 : ℝ) 2).size).det :=
  ⟨exPsiA_posDef 1 2, exPsiB_posDef 1 2,
    ((C7_logUdet_eq_log_det nuggetKernels (vec3 1 2 3) (vec2 1 3) exDTR (vec2 1 2) exOnes
      (vec2 0 1) exOnes (vec1 1) 0.5).1 (exPsiA_posDef 1 2)).1,
    ((C7_logUdet_eq_log_det nuggetKernels (vec3 1 2 3) (vec2 1 3) exDTR (vec2 1 2) exOnes
      (vec2 0 1) exOnes (vec1 1) 0.5).2 (exPsiB_posDef 1 2)).1⟩

/-- A run of C8 on the two-site input with the intercept column as design matrix: the Gram
matrices are nonsingular and the computed `beta` solves the normal equations. -/
theorem C8_beta_solves_normal_equations_witness :
    (((exOnes : MatrixXd ℝ).toMatrix (vec2 (1 : ℝ) 2).size (exOnes : MatrixXd ℝ).cols)ᵀ
      * ((logProfileCpp.psi (nuggetKernels : Kernels ℝ) (vec3 1 2 3) exDTR (vec2 1 2)
          (vec2 0 1) exOnes (vec1 1) 0.5).toMatrix (vec2 (1 : ℝ) 2).size
          (vec2 (1 : ℝ) 2).size)⁻¹
      * (exOnes : MatrixXd ℝ).toMatrix (vec2 (1 : ℝ) 2).size (exOnes : MatrixXd ℝ).cols).det ≠ 0
    ∧ (((exOnes : MatrixXd ℝ).toMatrix (vec2 (1 : ℝ) 2).size (exOnes : MatrixXd ℝ).cols)ᵀ
      * ((logProfileCppH.psi (nuggetKernels : Kernels ℝ) (vec2 1 3) exDTR (vec2 1 2)
          exOnes (vec1 1) 0.5).toMatrix (vec2 (1 : ℝ) 2).size (vec2 (1 : ℝ) 2).size)⁻¹
      * (exOnes : MatrixXd ℝ).toMatrix (vec2 (1 : ℝ) 2).size (exOnes : MatrixXd ℝ).cols).det ≠ 0
    ∧ (((exOnes : MatrixXd ℝ).toMatrix (vec2 (1 : ℝ) 2).size (exOnes : MatrixXd ℝ).cols)ᵀ
        * ((logProfileCpp.psi (nuggetKernels : Kernels ℝ) (vec3 1 2 3) exDTR (vec2 1 2)
            (vec2 0 1) exOnes (vec1 1) 0.5).toMatrix (vec2 (1 : ℝ) 2).size
            (vec2 (1 : ℝ) 2).size)⁻¹
        * (exOnes : MatrixXd ℝ).toMatrix (vec2 (1 : ℝ) 2).size (exOnes : MatrixXd ℝ).cols)
        *ᵥ (logProfileCpp.locals nuggetKernels Real.sqrt (vec3 1 2 3) exDTR (vec2 1 2) exOnes
          (vec2 0 1) exOnes (vec1 1) 0.5).beta
      = (((exOnes : MatrixXd ℝ).toMatrix (vec2 (1 : ℝ) 2).size (exOnes : MatrixXd ℝ).cols)ᵀ
        * ((logProfileCpp.psi (nuggetKernels : Kernels ℝ) (vec3 1 2 3) exDTR (vec2 1 2)
            (vec2 0 1) exOnes (vec1 1) 0.5).toMatrix (vec2 (1 : ℝ) 2).size
            (vec2 (1 : ℝ) 2).size)⁻¹) *ᵥ (vec2 (1 : ℝ) 2).toVec (vec2 (1 : ℝ) 2).size :=
  ⟨gram_det_ne_zero _ _ (exPsiA_posDef 1 2).inv (exOnes_injective _ (by simp [vec2])),
    gram_det_ne_zero _ _ (exPsiB_posDef 1 2).inv (exOnes_injective _ (by simp [vec2])),
    ((C8_beta_solves_normal_equations nuggetKernels (vec3 1 2 3) (vec2 1 3) exDTR (vec2 1 2)
      exOnes (vec2 0 1) exOnes (vec1 1) 0.5).1 (exPsiA_posDef 1 2)
      (gram_det_ne_zero _ _ (exPsiA_posDef 1 2).inv
        (exOnes_injective _ (by simp [vec2])))).2.1⟩

/-- A run of C9 on the two-site input: both evaluators return a finite value. -/
theorem C9_profile_minimum_witness :
    logProfileCpp.accessOk (vec3 (1 : ℝ) 2 3) exDTR (vec2 1 2) exOnes (vec2 0 1) exOnes
      (vec1 1)
    ∧ logProfileCppH.accessOk (vec2 (1 : ℝ) 3) exDTR (vec2 1 2) exOnes exOnes (vec1 1)
    ∧ (∃ v, logProfileCpp nuggetKernels Real.sqrt Real.log (vec3 1 2 3) exDTR (vec2 1 2)
        exOnes (vec2 0 1) exOnes (vec1 1) 0.5 = Outcome.value v)
    ∧ (∃ v, logProfileCppH nuggetKernels Real.sqrt Real.log (vec2 1 3) exDTR (vec2 1 2)
        exOnes exOnes (vec1 1) 0.5 = Outcome.value v) :=
  ⟨exAccessA 1 2, exAccessB 1 2,
    ((C9_profile_minimum nuggetKernels (vec3 1 2 3) (vec2 1 3) exDTR (vec2 1 2) exOnes
      (vec2 0 1) exOnes (vec1 1) 0.5).1 (exAccessA 1 2) (exPsiA_posDef 1 2)).imp
      (fun _ h => h.1),
    ((C9_profile_minimum nuggetKernels (vec3 1 2 3) (vec2 1 3) exDTR (vec2 1 2) exOnes
      (vec2 0 1) exOnes (vec1 1) 0.5).2 (exAccessB 1 2) (exPsiB_posDef 1 2)).imp
      (fun _ h => h.1)⟩

/-- A run of C2: `Y = (2, 2)` is twice the intercept column, and both evaluators compute a
zero residual. -/
theorem C2_gls_exactness_witness :
    (vec2 (2 : ℝ) 2).toVec (vec2 (2 : ℝ) 2).size
      = (exOnes : MatrixXd ℝ).toMatrix (vec2 (2 : ℝ) 2).size (exOnes : MatrixXd ℝ).cols
        *ᵥ (fun _ => 2)
    ∧ (logProfileCpp.locals nuggetKernels Real.sqrt (vec3 1 2 3) exDTR (vec2 2 2) exOnes
        (vec2 0 1) exOnes (vec1 1) 0.5).resid = 0
    ∧ (logProfileCppH.locals nuggetKernels Real.sqrt (vec2 1 3) exDTR (vec2 2 2) exOnes
        exOnes (vec1 1) 0.5).resid = 0 := by
  have hY : (vec2 (2 : ℝ) 2).toVec (vec2 (2 : ℝ) 2).size
      = (exOnes : MatrixXd ℝ).toMatrix (vec2 (2 : ℝ) 2).size (exOnes : MatrixXd ℝ).cols
        *ᵥ (fun _ => 2) := by
    funext i
    simp only [VectorXd.toVec, vec2, Matrix.mulVec, Matrix.dotProduct, MatrixXd.toMatrix,
      exOnes, one_mul]
    show _ = ∑ x : Fin 1, (2 : ℝ)
    simp
  exact ⟨hY,
    ((C2_gls_exactness nuggetKernels (vec3 1 2 3) (vec2 1 3) exDTR (vec2 2 2) exOnes
      (vec2 0 1) exOnes (vec1 1) 0.5 (fun _ => 2) hY).1 (exAccessA 2 2)
      (exPsiA_posDef 2 2)).1,
    ((C2_gls_exactness nuggetKernels (vec3 1 2 3) (vec2 1 3) exDTR (vec2 2 2) exOnes
      (vec2 0 1) exOnes (vec1 1) 0.5 (fun _ => 2) hY).2 (exAccessB 2 2)
      (exPsiB_posDef 2 2)).1⟩

end Witnesses

section AssemblyWitnesses

/-- A run of C3 on the two-site input: the second site has `subsetStatic = 1` and receives
the diagonal noise `theta(J) = 2`. -/
theorem C3_logProfileCpp_psi_entries_witness :
    (vec2 (0 : ℝ) 1).coeff 1 = 1
    ∧ (logProfileCpp.psi (nuggetKernels : Kernels ℝ) (vec3 1 2 3) exDTR (vec2 1 2) (vec2 0 1)
        exOnes (vec1 1) 0.5).toMatrix (vec2 (1 : ℝ) 2).size (vec2 (1 : ℝ) 2).size
          ⟨1, Nat.lt_succ_self 1⟩ ⟨1, Nat.lt_succ_self 1⟩
        = (∑ j in Finset.range (vec1 (1 : ℝ)).size,
            (vec1 (1 : ℝ)).coeff j
              * (selectedKernel nuggetKernels 0.5 exDTR ((vec3 (1 : ℝ) 2 3).coeff j)).coeff 1 1
              * (exOnes : MatrixXd ℝ).coeff 1 j * (exOnes : MatrixXd ℝ).coeff 1 j)
          + (vec3 (1 : ℝ) 2 3).coeff (vec1 (1 : ℝ)).size := by
  have h1 : (vec2 (0 : ℝ) 1).coeff 1 = 1 := by simp [vec2]
  exact ⟨h1,
    (C3_logProfileCpp_psi_entries nuggetKernels (vec3 1 2 3) exDTR (vec2 1 2) (vec2 0 1)
      exOnes (vec1 1) 0.5 ⟨1, Nat.lt_succ_self 1⟩ ⟨1, Nat.lt_succ_self 1⟩).2.1 h1⟩

/-- A run of C4 on the two-site input: a third entry of `theta` and a second column of
`PhiTime` leave `psi` as it is. -/
theorem C4_logProfileCppH_psi_entries_witness :
    (logProfileCppH.psi (nuggetKernels : Kernels ℝ) (vec3 1 3 99) exDTR (vec2 1 2)
        ⟨2, 2, fun _ k => if k = 0 then 1 else 7⟩ (vec1 1) 0.5).toMatrix
        (vec2 (1 : ℝ) 2).size (vec2 (1 : ℝ) 2).size
      = (logProfileCppH.psi (nuggetKernels : Kernels ℝ) (vec2 1 3) exDTR (vec2 1 2)
        exOnes (vec1 1) 0.5).toMatrix (vec2 (1 : ℝ) 2).size (vec2 (1 : ℝ) 2).size :=
  (C4_logProfileCppH_psi_entries nuggetKernels (vec2 1 3) exDTR (vec2 1 2) exOnes (vec1 1)
    0.5).2 (vec3 1 3 99) ⟨2, 2, fun _ k => if k = 0 then 1 else 7⟩
    (by intro j hj
        have hj2 : j ≤ 1 := hj
        interval_cases j <;> simp [vec2, vec3])
    (by intro i j _ hj
        have hj2 : j < 1 := hj
        interval_cases j
        simp [exOnes])

end AssemblyWitnesses

section LLTConverse
variable {n : ℕ}

theorem lltUnblocked_success_prev (A : Matrix (Fin n) (Fin n) ℝ) (k : ℕ)
    (hs : (lltUnblocked Real.sqrt A (k + 1)).2 = true) :
    (lltUnblocked Real.sqrt A k).2 = true := by
  by_contra h
  rw [lltUnblocked] at hs
  simp only [h, if_false] at hs
  exact h hs

theorem lltUnblocked_success_pivot (A : Matrix (Fin n) (Fin n) ℝ) (k : ℕ) (hkn : k < n)
    (hs : (lltUnblocked Real.sqrt A (k + 1)).2 = true) :
    0 < (lltUnblocked Real.sqrt A k).1 ⟨k, hkn⟩ ⟨k, hkn⟩
      - ∑ t in Finset.univ.filter (fun t => t < (⟨k, hkn⟩ : Fin n)),
          (lltUnblocked Real.sqrt A k).1 ⟨k, hkn⟩ t * (lltUnblocked Real.sqrt A k).1 ⟨k, hkn⟩ t := by
  have hprev := lltUnblocked_success_prev A k hs
  by_contra hle
  have hle2 := not_lt.mp hle
  rw [lltUnblocked] at hs
  simp only [hprev, if_true, hkn, dite_true] at hs
  have hnone : lltColumn Real.sqrt (lltUnblocked Real.sqrt A k).1 ⟨k, hkn⟩ = none := by
    unfold lltColumn
    simp only [hle2, if_true]
  rw [hnone] at hs
  exact Bool.noConfusion hs

/-- The loop invariant of the Cholesky kernel on a symmetric matrix, as long as no pivot
has been rejected: positive diagonal so far, and the columns so far reproduce the input. -/
theorem lltUnblocked_success_invariant (A : Matrix (Fin n) (Fin n) ℝ)
    (hAsymm : ∀ i j, A i j = A j i) (k : ℕ) (hk : k ≤ n)
    (hs : (lltUnblocked Real.sqrt A k).2 = true) :
    (∀ t : Fin n, t.val < k → 0 < (lltUnblocked Real.sqrt A k).1 t t)
    ∧ (∀ i j : Fin n, (i.val < k ∨ j.val < k) →
        (lowerCols k (lltUnblocked Real.sqrt A k).1 * Matrix.diagonal (fun _ : Fin n => (1 : ℝ))
          * (lowerCols k (lltUnblocked Real.sqrt A k).1)ᵀ) i j = A i j) := by
  induction k with
  | zero =>
    refine ⟨fun t ht => absurd ht (Nat.not_lt_zero _), ?_⟩
    intro i j h
    rcases h with h | h <;> exact absurd h (Nat.not_lt_zero _)
  | succ k ih =>
    have ih1 : (lltUnblocked Real.sqrt A k).2 = true := lltUnblocked_success_prev A k hs
    obtain ⟨ih3, ih4⟩ := ih (by omega) ih1
    have ih2 : ∀ i j : Fin n, k ≤ j.val → (lltUnblocked Real.sqrt A k).1 i j = A i j :=
      fun i j hj => lltUnblocked_untouched Real.sqrt A k i j hj
    have hkn : k < n := by omega
    have hpiv := lltUnblocked_success_pivot A k hkn hs
    set m := (lltUnblocked Real.sqrt A k).1 with hm
    set kf : Fin n := ⟨k, hkn⟩ with hkf
    set B := lowerCols k m with hB
    set S := A - B * Matrix.diagonal (fun _ : Fin n => (1 : ℝ)) * Bᵀ with hS
    have hBBsymm : ∀ i j, (B * Matrix.diagonal (fun _ : Fin n => (1 : ℝ)) * Bᵀ) i j
        = (B * Matrix.diagonal (fun _ : Fin n => (1 : ℝ)) * Bᵀ) j i := by
      intro i j
      rw [mul_diagonal_mul_transpose_apply, mul_diagonal_mul_transpose_apply]
      exact Finset.sum_congr rfl (fun t _ => by ring)
    have hSsymm : ∀ i j, S i j = S j i := by
      intro i j
      simp only [hS, Matrix.sub_apply]
      rw [hAsymm i j, hBBsymm i j]
    have hcol : ∀ i, kf ≤ i →
        m i kf - ∑ t in Finset.univ.filter (fun t => t < kf), m i t * m kf t = S i kf := by
      intro i hi
      rw [lowerCols_filter_sum m kf i hi, ih2 i kf le_rfl]
      rfl
    have hx : m kf kf - ∑ t in Finset.univ.filter (fun t => t < kf), m kf t * m kf t
        = S kf kf := hcol kf le_rfl
    have hSpos : 0 < S kf kf := by rw [← hx]; exact hpiv
    have hstep : lltUnblocked Real.sqrt A (k + 1)
        = ((fun i j =>
            if j = kf then
              if i = kf then Real.sqrt (S kf kf)
              else if kf < i then S i kf / Real.sqrt (S kf kf)
              else m i j
            else m i j), true) := by
      rw [lltUnblocked]
      simp only [ih1, if_true, hkn, dite_true]
      unfold lltColumn
      simp only [← hm, ← hkf, hx, not_le.mpr hSpos, if_false]
      congr 1
      funext i j
      by_cases hj : j = kf
      · by_cases hi : i = kf
        · simp [hj, hi]
        · by_cases hi2 : kf < i
          · simp only [hj, hi, hi2, if_true, if_false]
            rw [hcol i (le_of_lt hi2)]
          · simp [hj, hi, hi2]
      · simp [hj]
    rw [hstep]
    simp only
    have hsq : 0 < Real.sqrt (S kf kf) := Real.sqrt_pos.mpr hSpos
    refine ⟨?_, ?_⟩
    · intro t ht
      by_cases htk : t = kf
      · rw [if_pos htk, if_pos htk]; exact hsq
      · rw [if_neg htk]
        apply ih3
        have : t.val ≠ k := fun h => htk (Fin.ext h)
        omega
    · intro i j hij
      set m2 : Matrix (Fin n) (Fin n) ℝ := fun i j =>
            if j = kf then
              if i = kf then Real.sqrt (S kf kf)
              else if kf < i then S i kf / Real.sqrt (S kf kf)
              else m i j
            else m i j with hm2
      set c : Fin n → ℝ := fun i => if i = kf then Real.sqrt (S kf kf)
        else if kf < i then S i kf / Real.sqrt (S kf kf) else 0 with hc
      have hB2 : ∀ i t, lowerCols (k + 1) m2 i t = if t = kf then c i else B i t := by
        intro i t
        simp only [lowerCols, hm2, hc, hB]
        by_cases ht : t = kf
        · subst ht
          by_cases hi : i = kf
          · subst hi; simp [hkf]
          · by_cases hi2 : kf < i
            · simp [hi, hi2, le_of_lt hi2, hkf]
            · have : ¬ kf ≤ i := fun h => hi (le_antisymm (not_lt.mp hi2) h)
              simp [hi, hi2, this]
        · have h1 : t.val ≠ k := fun h => ht (Fin.ext h)
          have h2 : (t.val < k + 1) ↔ (t.val < k) := by omega
          simp [ht, h2]
      have hBk : ∀ i, B i kf = 0 := fun i => lowerCols_zero_of_ge k m i kf le_rfl
      rw [column_update_mul B (lowerCols (k + 1) m2) (fun _ => 1) (fun _ => 1) kf c hB2 hBk
        (fun _ _ => rfl) i j]
      have hck : c kf = Real.sqrt (S kf kf) := by simp [hc]
      have hclt : ∀ i, i.val < k → c i = 0 := by
        intro i hi
        have h1 : i ≠ kf := by intro h; rw [h] at hi; simp [hkf] at hi
        have h2 : ¬ kf < i := by
          intro h; have : k < i.val := h; omega
        simp [hc, h1, h2]
      have hcgt : ∀ i, kf < i → c i = S i kf / Real.sqrt (S kf kf) := by
        intro i hi
        simp [hc, ne_of_gt hi, hi]
      by_cases hlow : i.val < k ∨ j.val < k
      · rw [ih4 i j hlow]
        rcases hlow with h | h
        · rw [hclt i h]; ring
        · rw [hclt j h]; ring
      · push_neg at hlow
        obtain ⟨hi, hj⟩ := hlow
        have hSij : (B * Matrix.diagonal (fun _ : Fin n => (1 : ℝ)) * Bᵀ) i j = A i j - S i j := by
          simp only [hS, Matrix.sub_apply]; ring
        rw [hSij]
        have hcc : c i * 1 * c j = S i j := by
          rcases hij with h | h
          · have hik : i = kf := Fin.ext (by simp [hkf]; omega)
            rcases Nat.eq_or_lt_of_le hj with h2 | h2
            · have hjk : j = kf := Fin.ext (by simp [hkf]; omega)
              rw [hik, hjk, hck, mul_one, Real.mul_self_sqrt hSpos.le]
            · have hjk : kf < j := h2
              rw [hik, hck, hcgt j hjk, hSsymm kf j]
              field_simp
          · have hjk : j = kf := Fin.ext (by simp [hkf]; omega)
            rcases Nat.eq_or_lt_of_le hi with h2 | h2
            · have hik : i = kf := Fin.ext (by simp [hkf]; omega)
              rw [hik, hjk, hck, mul_one, Real.mul_self_sqrt hSpos.le]
            · have hik : kf < i := h2
              rw [hjk, hck, hcgt i hik]
              field_simp
        rw [hcc]; ring

theorem llt_success_factor (A : Matrix (Fin n) (Fin n) ℝ) (hAsymm : ∀ i j, A i j = A j i)
    (hs : (llt Real.sqrt A).m_info = true) :
    (∀ i, 0 < (llt Real.sqrt A).matrixL i i)
    ∧ (∀ i t, i < t → (llt Real.sqrt A).matrixL i t = 0)
    ∧ (llt Real.sqrt A).matrixL * ((llt Real.sqrt A).matrixL)ᵀ = A := by
  obtain ⟨h3, h4⟩ := lltUnblocked_success_invariant A hAsymm n le_rfl hs
  refine ⟨?_, ?_, ?_⟩
  · intro i
    rw [llt_matrixL_eq_lowerCols, lowerCols_diag n _ i i.isLt]
    exact h3 i i.isLt
  · intro i t hit
    rw [llt_matrixL_eq_lowerCols]
    exact lowerCols_zero_of_lt n _ i t hit
  · rw [llt_matrixL_eq_lowerCols]
    funext i j
    have := h4 i j (Or.inl i.isLt)
    rw [Matrix.diagonal_one, Matrix.mul_one] at this
    exact this

/-- A symmetric matrix on which the Cholesky kernel reports `Success` is positive
definite. -/
theorem llt_success_posDef (A : Matrix (Fin n) (Fin n) ℝ) (hAsymm : ∀ i j, A i j = A j i)
    (hs : (llt Real.sqrt A).m_info = true) : A.PosDef := by
  obtain ⟨hpos, htri, hLL⟩ := llt_success_factor A hAsymm hs
  set L := (llt Real.sqrt A).matrixL with hL
  have hdet : IsUnit Lᵀ.det := by
    rw [Matrix.det_transpose]
    exact isUnit_det_of_lower L htri (fun i => ne_of_gt (hpos i))
  refine ⟨?_, fun x hx => ?_⟩
  · ext i j
    rw [Matrix.conjTranspose_apply, star_trivial]
    exact hAsymm j i
  · have hne : Lᵀ *ᵥ x ≠ 0 := by
      intro h0
      apply hx
      have : x = (Lᵀ⁻¹ * Lᵀ) *ᵥ x := by
        rw [Matrix.nonsing_inv_mul _ hdet, Matrix.one_mulVec]
      rw [this, ← Matrix.mulVec_mulVec, h0, Matrix.mulVec_zero]
    have hq : star x ⬝ᵥ A *ᵥ x = (Lᵀ *ᵥ x) ⬝ᵥ (Lᵀ *ᵥ x) := by
      have e : A *ᵥ x = L *ᵥ (Lᵀ *ᵥ x) := by
        rw [Matrix.mulVec_mulVec, hLL]
      rw [star_trivial, e, Matrix.dotProduct_mulVec, ← Matrix.mulVec_transpose]
    rw [hq]
    have := (Matrix.dotProduct_star_self_pos_iff (v := Lᵀ *ᵥ x)).mpr hne
    simpa using this

/-- A symmetric matrix that is not positive definite makes the Cholesky kernel report
`NumericalIssue`. -/
theorem llt_not_posDef (A : Matrix (Fin n) (Fin n) ℝ) (hAsymm : ∀ i j, A i j = A j i)
    (hA : ¬ A.PosDef) : (llt Real.sqrt A).m_info = false := by
  by_contra h
  exact hA (llt_success_posDef A hAsymm (by simpa using h))

theorem lltUnblocked_diag_pos (A : Matrix (Fin n) (Fin n) ℝ) (hd : ∀ i, 0 < A i i) (k : ℕ)
    (i : Fin n) : 0 < (lltUnblocked Real.sqrt A k).1 i i := by
  induction k with
  | zero => exact hd i
  | succ k ih =>
    rw [lltUnblocked]
    by_cases h2 : (lltUnblocked Real.sqrt A k).2 = true
    · by_cases hk : k < n
      · simp only [h2, if_true, hk, dite_true]
        cases hc : lltColumn Real.sqrt (lltUnblocked Real.sqrt A k).1 ⟨k, hk⟩ with
        | none => exact ih
        | some m2 =>
          show 0 < m2 i i
          by_cases hik : i = ⟨k, hk⟩
          · unfold lltColumn at hc
            simp only at hc
            split_ifs at hc with hx
            have e := Option.some.inj hc
            rw [← e]
            simp only [hik, if_true]
            exact Real.sqrt_pos.mpr (not_le.mp hx)
          · rw [lltColumn_untouched Real.sqrt _ m2 ⟨k, hk⟩ hc i i hik]
            exact ih
      · simp only [h2, if_true, hk, dite_false]
        exact ih
    · simp only [h2, if_false]
      exact ih

/-- With a positive diagonal in the input, the diagonal left by the Cholesky kernel is
positive whether the factorisation succeeded or not: a pivot that passed is a square root,
and a diagonal entry at or after the rejected pivot is still the input's. -/
theorem llt_diag_pos_of_diag_pos (A : Matrix (Fin n) (Fin n) ℝ) (hd : ∀ i, 0 < A i i)
    (i : Fin n) : 0 < (llt Real.sqrt A).m_matrix i i :=
  lltUnblocked_diag_pos A hd n i

end LLTConverse

section FailedFactorisation

variable {α : Type} [LinearOrderedField α] {N P : ℕ}

theorem glsLocals_U_diag (sqrt : α → α) (psi : Matrix (Fin N) (Fin N) α)
    (X : Matrix (Fin N) (Fin P) α) (Y : Fin N → α) (i : Fin N) :
    (glsLocals sqrt psi X Y).U i i = (llt sqrt psi).m_matrix i i := by
  show ((llt sqrt psi).matrixL)ᵀ i i = _
  rw [Matrix.transpose_apply]
  unfold LLT.matrixL
  rw [if_pos le_rfl]

/-- A non-positive diagonal entry of `psi` is handed to `log` as it is. -/
theorem glsLocals_result_nonFinite (sqrt log : α → α) (psi : Matrix (Fin N) (Fin N) α)
    (X : Matrix (Fin N) (Fin P) α) (Y : Fin N → α) (i : Fin N) (h : psi i i ≤ 0) :
    (glsLocals sqrt psi X Y).result log = Outcome.nonFinite := by
  unfold Locals.result
  rw [if_neg]
  intro hall
  have := hall i
  rw [glsLocals_U_diag, (llt_nonpos_diag sqrt psi i h).2] at this
  exact absurd this (not_lt.mpr h)

/-- With a positive diagonal in `psi`, every entry handed to `log` is positive and a finite
value is returned, whatever the status of the factorisation. -/
theorem glsLocals_result_value_of_diag_pos (log : ℝ → ℝ) (psi : Matrix (Fin N) (Fin N) ℝ)
    (X : Matrix (Fin N) (Fin P) ℝ) (Y : Fin N → ℝ) (h : ∀ i, 0 < psi i i) :
    ∃ v, (glsLocals Real.sqrt psi X Y).result log = Outcome.value v := by
  unfold Locals.result
  rw [if_pos]
  · exact ⟨_, rfl⟩
  · intro i
    rw [glsLocals_U_diag]
    exact llt_diag_pos_of_diag_pos psi h i

theorem exPsiC_eq :
    (logProfileCpp.psi (nuggetKernels : Kernels ℝ) (vec3 1 0 0) exSame (vec2 1 2) (vec2 0 1)
        exRamp (vec1 1) 0.5).toMatrix (vec2 (1 : ℝ) 2).size (vec2 (1 : ℝ) 2).size
      = (Matrix.of ![![1, 2], ![2, 4]] : Matrix (Fin 2) (Fin 2) ℝ) := by
  funext i k
  unfold MatrixXd.toMatrix
  rw [logProfileCpp_psi_coeff]
  simp only [kernelSum, selectedKernel, nuggetKernels, vec1, vec2, vec3, exSame, exRamp,
    Finset.sum_range_one, if_true]
  fin_cases i <;> fin_cases k <;> simp <;> norm_num

theorem exPsiD_eq :
    (logProfileCppH.psi (nuggetKernels : Kernels ℝ) (vec2 1 0) exSame (vec2 1 2)
        exRamp (vec1 1) 0.5).toMatrix (vec2 (1 : ℝ) 2).size (vec2 (1 : ℝ) 2).size
      = (Matrix.of ![![1, 2], ![2, 4]] : Matrix (Fin 2) (Fin 2) ℝ) := by
  funext i k
  unfold MatrixXd.toMatrix
  rw [logProfileCppH_psi_coeff]
  simp only [kernelSum, selectedKernel, nuggetKernels, vec1, vec2, exSame, exRamp,
    Finset.sum_range_one, if_true]
  fin_cases i <;> fin_cases k <;> simp <;> norm_num

theorem exSingular_not_posDef :
    ¬ (Matrix.of ![![1, 2], ![2, 4]] : Matrix (Fin 2) (Fin 2) ℝ).PosDef := by
  intro h
  have := h.det_pos
  rw [Matrix.det_fin_two] at this
  norm_num at this

theorem exSingular_symm (i k : Fin 2) :
    (Matrix.of ![![1, 2], ![2, 4]] : Matrix (Fin 2) (Fin 2) ℝ) i k
      = (Matrix.of ![![1, 2], ![2, 4]] : Matrix (Fin 2) (Fin 2) ℝ) k i := by
  fin_cases i <;> fin_cases k <;> rfl

theorem exSingular_diag_pos (i : Fin 2) :
    0 < (Matrix.of ![![1, 2], ![2, 4]] : Matrix (Fin 2) (Fin 2) ℝ) i i := by
  fin_cases i <;> simp

theorem exAccessC :
    logProfileCpp.accessOk (vec3 (1 : ℝ) 0 0) exSame (vec2 1 2) exOnes (vec2 0 1) exRamp
      (vec1 1) := by
  unfold logProfileCpp.accessOk
  simp [vec1, vec2, vec3, exSame, exOnes, exRamp]

theorem exAccessD :
    logProfileCppH.accessOk (vec2 (1 : ℝ) 0) exSame (vec2 1 2) exOnes exRamp (vec1 1) := by
  unfold logProfileCppH.accessOk
  simp [vec1, vec2, exSame, exOnes, exRamp]

end FailedFactorisation

section SingularExample

theorem exLLT_step1 :
    lltUnblocked Real.sqrt (Matrix.of ![![1, 2], ![2, 4]] : Matrix (Fin 2) (Fin 2) ℝ) 1
      = ((Matrix.of ![![1, 2], ![2, 4]] : Matrix (Fin 2) (Fin 2) ℝ), true) := by
  have hc : lltColumn Real.sqrt (Matrix.of ![![1, 2], ![2, 4]] : Matrix (Fin 2) (Fin 2) ℝ)
      ⟨0, by omega⟩
      = some (Matrix.of ![![1, 2], ![2, 4]]) := by
    unfold lltColumn
    simp only [Finset.sum_filter, Fin.sum_univ_two]
    norm_num
    funext i j
    fin_cases i <;> fin_cases j <;> simp
  rw [lltUnblocked, lltUnblocked]
  simp only [if_true, show (0 : ℕ) < 2 by omega, dite_true, hc]

theorem exLLT_step2 :
    lltUnblocked Real.sqrt (Matrix.of ![![1, 2], ![2, 4]] : Matrix (Fin 2) (Fin 2) ℝ) 2
      = ((Matrix.of ![![1, 2], ![2, 4]] : Matrix (Fin 2) (Fin 2) ℝ), false) := by
  have hc : lltColumn Real.sqrt (Matrix.of ![![1, 2], ![2, 4]] : Matrix (Fin 2) (Fin 2) ℝ)
      ⟨1, by omega⟩
      = none := by
    unfold lltColumn
    simp only [Finset.sum_filter, Fin.sum_univ_two]
    norm_num
  rw [lltUnblocked, exLLT_step1]
  simp only [if_true, show (1 : ℕ) < 2 by omega, dite_true, hc]

theorem exLLT_eq :
    llt Real.sqrt (Matrix.of ![![1, 2], ![2, 4]] : Matrix (Fin 2) (Fin 2) ℝ)
      = ⟨Matrix.of ![![1, 2], ![2, 4]], false⟩ := by
  unfold llt
  rw [exLLT_step2]

theorem exLLT_solveVec :
    (llt Real.sqrt (Matrix.of ![![1, 2], ![2, 4]] : Matrix (Fin 2) (Fin 2) ℝ)).solveVec
      (fun _ => 1) = ![9 / 8, -1 / 16] := by
  rw [exLLT_eq]
  have hlow : solveLowerInPlace false
      (LLT.matrixL (⟨Matrix.of ![![1, 2], ![2, 4]], false⟩ : LLT ℝ 2)) (fun _ => 1) 2
      = ![1, -1 / 4] := by
    funext i
    rw [solveLowerInPlace, solveLowerInPlace, solveLowerInPlace]
    simp only [show (0 : ℕ) < 2 by omega, show (1 : ℕ) < 2 by omega, dite_true,
      Finset.sum_filter, Fin.sum_univ_two, LLT.matrixL]
    fin_cases i <;> simp [Function.update]
    norm_num
  unfold LLT.solveVec
  rw [hlow]
  funext i
  rw [solveUpperInPlace, solveUpperInPlace, solveUpperInPlace]
  simp only [show (0 : ℕ) < 2 by omega, show (1 : ℕ) < 2 by omega, dite_true,
    Finset.sum_filter, Fin.sum_univ_two, LLT.matrixL, Matrix.transpose_apply]
  fin_cases i <;> simp [Function.update, Fin.rev] <;> norm_num

theorem finRange_two : List.finRange 2 = [0, 1] := by decide

theorem finRange_one : List.finRange 1 = [0] := by decide

theorem exLDLT_step1 :
    ldltUnblocked (⟨selfadjointLower (Matrix.of ![![1, 2], ![2, 4]]), 1⟩ : LDLT ℝ 2) 1
      = ⟨Matrix.of ![![4, 2], ![1 / 2, 1]], Equiv.swap 0 1⟩ := by
  have hidx : indexOfBiggestInCorner
      (selfadjointLower (Matrix.of ![![1, 2], ![2, 4]] : Matrix (Fin 2) (Fin 2) ℝ)).diag
      ⟨0, by omega⟩ = 1 := by
    unfold indexOfBiggestInCorner
    rw [finRange_two]
    simp [selfadjointLower, Matrix.diag]
  rw [ldltUnblocked, ldltUnblocked]
  simp only [show (0 : ℕ) < 2 by omega, dite_true]
  unfold ldltColumn
  simp only [hidx, Finset.sum_filter, Fin.sum_univ_two]
  congr 1
  · funext i j
    fin_cases i <;> fin_cases j <;> simp [selfadjointLower, Equiv.swap_apply_def]
    norm_num

theorem exLDLT_eq :
    ldlt (Matrix.of ![![1, 2], ![2, 4]] : Matrix (Fin 2) (Fin 2) ℝ)
      = ⟨Matrix.of ![![4, 2], ![1 / 2, 0]], Equiv.swap 0 1⟩ := by
  have hidx : indexOfBiggestInCorner
      (Matrix.of ![![4, 2], ![1 / 2, 1]] : Matrix (Fin 2) (Fin 2) ℝ).diag
      ⟨1, by omega⟩ = 1 := by
    unfold indexOfBiggestInCorner
    rw [finRange_two]
    simp
  unfold ldlt
  rw [ldltUnblocked, exLDLT_step1]
  simp only [show (1 : ℕ) < 2 by omega, dite_true]
  unfold ldltColumn
  simp only [hidx, Finset.sum_filter, Fin.sum_univ_two]
  congr 1
  · funext i j
    fin_cases i <;> fin_cases j <;> simp [Equiv.swap_apply_def]
    norm_num
  · show Equiv.swap (0 : Fin 2) 1 * Equiv.swap (1 : Fin 2) 1 = _
    rw [Equiv.swap_self]
    rfl

theorem exLDLT_solve :
    (ldlt (Matrix.of ![![1, 2], ![2, 4]] : Matrix (Fin 2) (Fin 2) ℝ)).solve ![1 / 17, 18 / 17]
      = ![0, 9 / 34] := by
  rw [exLDLT_eq]
  unfold LDLT.solve
  have hlow : solveLowerInPlace true
      (LDLT.matrixL (⟨Matrix.of ![![4, 2], ![1 / 2, 0]], Equiv.swap 0 1⟩ : LDLT ℝ 2))
      (fun i => (![1 / 17, 18 / 17] : Fin 2 → ℝ) ((Equiv.swap (0 : Fin 2) 1) i)) 2
      = ![18 / 17, -8 / 17] := by
    funext i
    rw [solveLowerInPlace, solveLowerInPlace, solveLowerInPlace]
    simp only [show (0 : ℕ) < 2 by omega, show (1 : ℕ) < 2 by omega, dite_true,
      Finset.sum_filter, Fin.sum_univ_two, LDLT.matrixL]
    fin_cases i <;> simp [Function.update, Equiv.swap_apply_def]
    norm_num
  simp only [hlow]
  have hmid : (fun i : Fin 2 =>
      if |LDLT.vectorD (⟨Matrix.of ![![4, 2], ![1 / 2, 0]], Equiv.swap 0 1⟩ : LDLT ℝ 2) i| > 0
      then (![18 / 17, -8 / 17] : Fin 2 → ℝ) i
        / LDLT.vectorD (⟨Matrix.of ![![4, 2], ![1 / 2, 0]], Equiv.swap 0 1⟩ : LDLT ℝ 2) i
      else 0) = ![9 / 34, 0] := by
    funext i
    fin_cases i <;> simp [LDLT.vectorD]
    norm_num
  simp only [hmid]
  funext i
  rw [solveUpperInPlace, solveUpperInPlace, solveUpperInPlace]
  simp only [show (0 : ℕ) < 2 by omega, show (1 : ℕ) < 2 by omega, dite_true,
    Finset.sum_filter, Fin.sum_univ_two, LDLT.matrixL, Matrix.transpose_apply]
  fin_cases i <;> simp [Function.update, Fin.rev, Equiv.swap_apply_def]

theorem exLDLT_one_solve (g b : ℝ) (hg : 0 < g) :
    (ldlt (Matrix.of ![![g]] : Matrix (Fin 1) (Fin 1) ℝ)).solve ![b] = ![b / g] := by
  have hidx : indexOfBiggestInCorner
      (selfadjointLower (Matrix.of ![![g]] : Matrix (Fin 1) (Fin 1) ℝ)).diag
      ⟨0, by omega⟩ = 0 := by
    unfold indexOfBiggestInCorner
    rw [finRange_one]
    simp
  have hF : ldlt (Matrix.of ![![g]] : Matrix (Fin 1) (Fin 1) ℝ)
      = ⟨Matrix.of ![![g]], 1⟩ := by
    unfold ldlt
    rw [ldltUnblocked, ldltUnblocked]
    simp only [show (0 : ℕ) < 1 by omega, dite_true]
    unfold ldltColumn
    simp only [hidx, Finset.sum_filter]
    congr 1
    · funext i j
      fin_cases i
      fin_cases j
      simp [selfadjointLower]
    · show 1 * Equiv.swap (0 : Fin 1) 0 = 1
      rw [Equiv.swap_self, one_mul]
      rfl
  rw [hF]
  unfold LDLT.solve
  dsimp only
  funext i
  rw [solveUpperInPlace, solveUpperInPlace, solveLowerInPlace, solveLowerInPlace]
  fin_cases i
  simp [Function.update, Fin.rev, Finset.sum_filter, LDLT.vectorD, LDLT.matrixL, abs_pos,
    ne_of_gt hg]

theorem exGls_singular :
    (glsLocals Real.sqrt (Matrix.of ![![1, 2], ![2, 4]] : Matrix (Fin 2) (Fin 2) ℝ)
        (fun _ _ => 1 : Matrix (Fin 2) (Fin 1) ℝ) ![1, 2]).result Real.log
      = Outcome.value (81 / 289 + 2 * Real.log 4) := by
  have hSX : (llt Real.sqrt (Matrix.of ![![1, 2], ![2, 4]] : Matrix (Fin 2) (Fin 2) ℝ)).solve
      (fun _ _ => 1 : Matrix (Fin 2) (Fin 1) ℝ)
      = Matrix.of ![![9 / 8], ![-1 / 16]] := by
    funext i c
    unfold LLT.solve
    rw [exLLT_solveVec]
    fin_cases i <;> fin_cases c <;> rfl
  have hG : (fun _ _ => 1 : Matrix (Fin 2) (Fin 1) ℝ)ᵀ
      * (Matrix.of ![![9 / 8], ![-1 / 16]] : Matrix (Fin 2) (Fin 1) ℝ)
      = Matrix.of ![![17 / 16]] := by
    funext i j
    fin_cases i
    fin_cases j
    simp [Matrix.mul_apply, Fin.sum_univ_two]
    norm_num
  have hr : (Matrix.of ![![9 / 8], ![-1 / 16]] : Matrix (Fin 2) (Fin 1) ℝ)ᵀ *ᵥ ![1, 2]
      = ![1] := by
    funext i
    fin_cases i
    simp [Matrix.mulVec, Matrix.dotProduct, Fin.sum_univ_two]
    norm_num
  have hbeta : (ldlt (Matrix.of ![![17 / 16]] : Matrix (Fin 1) (Fin 1) ℝ)).solve ![1]
      = ![16 / 17] := by
    rw [exLDLT_one_solve _ _ (by norm_num)]
    norm_num
  have hres : (![1, 2] : Fin 2 → ℝ)
      - (fun _ _ => 1 : Matrix (Fin 2) (Fin 1) ℝ) *ᵥ ![16 / 17]
      = ![1 / 17, 18 / 17] := by
    funext i
    fin_cases i <;> simp [Matrix.mulVec, Matrix.dotProduct] <;> norm_num
  unfold Locals.result glsLocals
  simp only [hSX, hG, hr, hbeta, hres, exLDLT_solve]
  rw [if_pos]
  · congr 1
    rw [exLLT_eq]
    simp [Matrix.dotProduct, Fin.sum_univ_two, LLT.matrixL, Matrix.diag]
    norm_num
  · intro i
    rw [exLLT_eq]
    fin_cases i <;> simp [LLT.matrixL]

end SingularExample

section FailureVisibility

/-- Claim C11 as stated fails. Two observations at one site, `J = 1`, `LambEst = (1)`,
`theta = (1, 0)`, `PhiTime = (1, 2)ᵀ`, `XTR = (1, 1)ᵀ`, `Y = (1, 2)`, `nu = 0.5`: every kernel
is `1` at distance `0`, so `psi = [[1,2],[2,4]]`, which is singular and so not positive
definite. The Cholesky kernel rejects the second pivot (`4 - 2·2 = 0`) and reports
`NumericalIssue`, nothing reads that status, and the working matrix is used as it was left:
`U = [[1,2],[0,4]]`, `SX = (9/8, -1/16)ᵀ`, `beta = 16/17`, `resid = (1/17, 18/17)`,
`psi.ldlt().solve(resid) = (0, 9/34)`, `quadForm = 81/289`, `logUdet = 2·(log 1 + log 4)`.
`logProfileCppH` returns the finite value `81/289 + 2·log 4`. -/
theorem C11_counterexample_singular_psi_finite :
    ¬ ((logProfileCppH.psi (nuggetKernels : Kernels ℝ) (vec2 1 0) exSame (vec2 1 2)
          exRamp (vec1 1) 0.5).toMatrix (vec2 (1 : ℝ) 2).size (vec2 (1 : ℝ) 2).size).PosDef
    ∧ (llt Real.sqrt ((logProfileCppH.psi (nuggetKernels : Kernels ℝ) (vec2 1 0) exSame
          (vec2 1 2) exRamp (vec1 1) 0.5).toMatrix (vec2 (1 : ℝ) 2).size
          (vec2 (1 : ℝ) 2).size)).m_info = false
    ∧ logProfileCppH (nuggetKernels : Kernels ℝ) Real.sqrt Real.log (vec2 1 0)
        exSame (vec2 1 2) exOnes exRamp (vec1 1) 0.5
      = Outcome.value (81 / 289 + 2 * Real.log 4) := by
  have hnpd : ¬ ((logProfileCppH.psi (nuggetKernels : Kernels ℝ) (vec2 1 0) exSame (vec2 1 2)
      exRamp (vec1 1) 0.5).toMatrix (vec2 (1 : ℝ) 2).size (vec2 (1 : ℝ) 2).size).PosDef := by
    rw [exPsiD_eq]
    exact exSingular_not_posDef
  refine ⟨hnpd, ?_, ?_⟩
  · apply llt_not_posDef _ _ hnpd
    rw [exPsiD_eq]
    exact exSingular_symm
  · have hY : (vec2 (1 : ℝ) 2).toVec (vec2 (1 : ℝ) 2).size = ![1, 2] := by
      funext i
      fin_cases i <;> simp [VectorXd.toVec, vec2]
    unfold logProfileCppH logProfileCppH.locals
    rw [if_pos exAccessD, exPsiD_eq, hY]
    exact exGls_singular

/-- Claim C11, amended. For every input of matching shapes whose assembled `psi` is
symmetric and not positive definite, the Cholesky factorisation ends with the status
`NumericalIssue`; neither evaluator reads the status and no error is raised. The caller sees
a non-finite result when some diagonal entry of `psi` is not positive. When every diagonal
entry of `psi` is positive the entries handed to `log` are positive and a finite scalar is
returned (stated for `N < 32`, the sizes at which Eigen runs the column-wise kernel on the
whole matrix). -/
theorem C11_not_posDef_status_unread (K : Kernels ℝ) (thetaA thetaB : VectorXd ℝ)
    (DTR : MatrixXd ℝ) (Y : VectorXd ℝ) (XTR : MatrixXd ℝ) (subsetStatic : VectorXd ℝ)
    (PhiTime : MatrixXd ℝ) (LambEst : VectorXd ℝ) (nu : ℝ) :
    (logProfileCpp.accessOk thetaA DTR Y XTR subsetStatic PhiTime LambEst →
      ((logProfileCpp.psi K thetaA DTR Y subsetStatic PhiTime LambEst nu).toMatrix
          Y.size Y.size).IsSymm →
      ¬ ((logProfileCpp.psi K thetaA DTR Y subsetStatic PhiTime LambEst nu).toMatrix
          Y.size Y.size).PosDef →
      (llt Real.sqrt ((logProfileCpp.psi K thetaA DTR Y subsetStatic PhiTime LambEst
          nu).toMatrix Y.size Y.size)).m_info = false
      ∧ ((∃ i, (logProfileCpp.psi K thetaA DTR Y subsetStatic PhiTime LambEst nu).toMatrix
            Y.size Y.size i i ≤ 0) →
          logProfileCpp K Real.sqrt Real.log thetaA DTR Y XTR subsetStatic PhiTime LambEst nu
            = Outcome.nonFinite)
      ∧ ((∀ i, 0 < (logProfileCpp.psi K thetaA DTR Y subsetStatic PhiTime LambEst
            nu).toMatrix Y.size Y.size i i) → Y.size < 32 →
          ∃ v, logProfileCpp K Real.sqrt Real.log thetaA DTR Y XTR subsetStatic PhiTime
            LambEst nu = Outcome.value v))
    ∧ (logProfileCppH.accessOk thetaB DTR Y XTR PhiTime LambEst →
      ((logProfileCppH.psi K thetaB DTR Y PhiTime LambEst nu).toMatrix
          Y.size Y.size).IsSymm →
      ¬ ((logProfileCppH.psi K thetaB DTR Y PhiTime LambEst nu).toMatrix
          Y.size Y.size).PosDef →
      (llt Real.sqrt ((logProfileCppH.psi K thetaB DTR Y PhiTime LambEst
          nu).toMatrix Y.size Y.size)).m_info = false
      ∧ ((∃ i, (logProfileCppH.psi K thetaB DTR Y PhiTime LambEst nu).toMatrix
            Y.size Y.size i i ≤ 0) →
          logProfileCppH K Real.sqrt Real.log thetaB DTR Y XTR PhiTime LambEst nu
            = Outcome.nonFinite)
      ∧ ((∀ i, 0 < (logProfileCppH.psi K thetaB DTR Y PhiTime LambEst
            nu).toMatrix Y.size Y.size i i) → Y.size < 32 →
          ∃ v, logProfileCppH K Real.sqrt Real.log thetaB DTR Y XTR PhiTime
            LambEst nu = Outcome.value v)) := by
  constructor
  · intro hacc hsymm hnpd
    refine ⟨llt_not_posDef _ (fun i k => hsymm.apply k i) hnpd, ?_, ?_⟩
    · rintro ⟨i, hi⟩
      unfold logProfileCpp
      rw [if_pos hacc]
      exact glsLocals_result_nonFinite _ _ _ _ _ i hi
    · intro hpos _
      unfold logProfileCpp
      rw [if_pos hacc]
      exact glsLocals_result_value_of_diag_pos _ _ _ _ hpos
  · intro hacc hsymm hnpd
    refine ⟨llt_not_posDef _ (fun i k => hsymm.apply k i) hnpd, ?_, ?_⟩
    · rintro ⟨i, hi⟩
      unfold logProfileCppH
      rw [if_pos hacc]
      exact glsLocals_result_nonFinite _ _ _ _ _ i hi
    · intro hpos _
      unfold logProfileCppH
      rw [if_pos hacc]
      exact glsLocals_result_value_of_diag_pos _ _ _ _ hpos

/-- A run of the amended C11 on the singular `psi = [[1,2],[2,4]]`, reached by
`logProfileCpp` with `theta = (1, 0, 0)` and by `logProfileCppH` with `theta = (1, 0)`:
both report `NumericalIssue` and return a finite value. -/
theorem C11_not_posDef_status_unread_witness :
    ((llt Real.sqrt ((logProfileCpp.psi (nuggetKernels : Kernels ℝ) (vec3 1 0 0) exSame
          (vec2 1 2) (vec2 0 1) exRamp (vec1 1) 0.5).toMatrix (vec2 (1 : ℝ) 2).size
          (vec2 (1 : ℝ) 2).size)).m_info = false
      ∧ ∃ v : ℝ, logProfileCpp (nuggetKernels : Kernels ℝ) Real.sqrt Real.log (vec3 1 0 0)
          exSame (vec2 1 2) exOnes (vec2 0 1) exRamp (vec1 1) 0.5 = Outcome.value v)
    ∧ ((llt Real.sqrt ((logProfileCppH.psi (nuggetKernels : Kernels ℝ) (vec2 1 0) exSame
          (vec2 1 2) exRamp (vec1 1) 0.5).toMatrix (vec2 (1 : ℝ) 2).size
          (vec2 (1 : ℝ) 2).size)).m_info = false
      ∧ ∃ v : ℝ, logProfileCppH (nuggetKernels : Kernels ℝ) Real.sqrt Real.log (vec2 1 0)
          exSame (vec2 1 2) exOnes exRamp (vec1 1) 0.5 = Outcome.value v) := by
  have h := C11_not_posDef_status_unread (nuggetKernels : Kernels ℝ) (vec3 1 0 0) (vec2 1 0)
    exSame (vec2 1 2) exOnes (vec2 0 1) exRamp (vec1 1) 0.5
  have hA := h.1 exAccessC
    (by rw [exPsiC_eq]; exact Matrix.IsSymm.ext (fun i k => exSingular_symm k i))
    (by rw [exPsiC_eq]; exact exSingular_not_posDef)
  have hB := h.2 exAccessD
    (by rw [exPsiD_eq]; exact Matrix.IsSymm.ext (fun i k => exSingular_symm k i))
    (by rw [exPsiD_eq]; exact exSingular_not_posDef)
  have h32 : (vec2 (1 : ℝ) 2).size < 32 := by simp [vec2]
  exact ⟨⟨hA.1, hA.2.2 (by rw [exPsiC_eq]; exact exSingular_diag_pos) h32⟩,
    ⟨hB.1, hB.2.2 (by rw [exPsiD_eq]; exact exSingular_diag_pos) h32⟩⟩

end FailureVisibility

section ShapeChecks

variable {α : Type} [LinearOrderedField α]

theorem kernelSum_congr (Kj Kj2 : ℕ → MatrixXd α) (Phi Phi2 : MatrixXd α)
    (Lamb : VectorXd α) (N i k : ℕ) (hi : i < N) (hk : k < N)
    (hK : ∀ j, j < Lamb.size → Kj2 j = Kj j)
    (hP : ∀ r, r < N → ∀ j, j < Lamb.size → Phi2.coeff r j = Phi.coeff r j) :
    kernelSum Kj2 Phi2 Lamb i k = kernelSum Kj Phi Lamb i k := by
  unfold kernelSum
  apply Finset.sum_congr rfl
  intro j hj
  rw [Finset.mem_range] at hj
  rw [hK j hj, hP i hi j hj, hP k hk j hj]

/-- The `psi` of `logProfileCpp` is a function of `theta(0), …, theta(J+1)` and of the
first `J` columns of `PhiTime` on the rows below `N`. -/
theorem logProfileCpp_psi_reads (K : Kernels α) (theta theta2 : VectorXd α)
    (DTR : MatrixXd α) (Y subsetStatic : VectorXd α) (PhiTime PhiTime2 : MatrixXd α)
    (LambEst : VectorXd α) (nu : α)
    (hθ : ∀ j, j ≤ LambEst.size + 1 → theta2.coeff j = theta.coeff j)
    (hP : ∀ r, r < Y.size → ∀ j, j < LambEst.size → PhiTime2.coeff r j = PhiTime.coeff r j) :
    (logProfileCpp.psi K theta2 DTR Y subsetStatic PhiTime2 LambEst nu).toMatrix Y.size Y.size
      = (logProfileCpp.psi K theta DTR Y subsetStatic PhiTime LambEst nu).toMatrix
          Y.size Y.size := by
  funext i k
  unfold MatrixXd.toMatrix
  rw [logProfileCpp_psi_coeff, logProfileCpp_psi_coeff, hθ LambEst.size (by omega),
    hθ (LambEst.size + 1) le_rfl]
  congr 1
  apply kernelSum_congr _ _ _ _ _ Y.size i k i.isLt k.isLt _ hP
  intro j hj
  dsimp only
  rw [hθ j (by omega)]

/-- The `psi` of `logProfileCppH` is a function of `theta(0), …, theta(J)` and of the
first `J` columns of `PhiTime` on the rows below `N`. -/
theorem logProfileCppH_psi_reads (K : Kernels α) (theta theta2 : VectorXd α)
    (DTR : MatrixXd α) (Y : VectorXd α) (PhiTime PhiTime2 : MatrixXd α)
    (LambEst : VectorXd α) (nu : α)
    (hθ : ∀ j, j ≤ LambEst.size → theta2.coeff j = theta.coeff j)
    (hP : ∀ r, r < Y.size → ∀ j, j < LambEst.size → PhiTime2.coeff r j = PhiTime.coeff r j) :
    (logProfileCppH.psi K theta2 DTR Y PhiTime2 LambEst nu).toMatrix Y.size Y.size
      = (logProfileCppH.psi K theta DTR Y PhiTime LambEst nu).toMatrix Y.size Y.size := by
  funext i k
  unfold MatrixXd.toMatrix
  rw [logProfileCppH_psi_coeff, logProfileCppH_psi_coeff, hθ LambEst.size le_rfl]
  congr 1
  apply kernelSum_congr _ _ _ _ _ Y.size i k i.isLt k.isLt _ hP
  intro j hj
  dsimp only
  rw [hθ j (by omega)]

theorem exPsiE_eq (y1 y2 : ℝ) :
    (logProfileCpp.psi (nuggetKernels : Kernels ℝ) (vec4 1 2 3 99) exDTR (vec2 y1 y2)
        (vec2 0 1) exOnes (vec1 1) 0.5).toMatrix (vec2 y1 y2).size (vec2 y1 y2).size
      = Matrix.diagonal (fun i : Fin 2 => if i = 0 then (4 : ℝ) else 3) := by
  rw [← exPsiA_eq y1 y2]
  apply logProfileCpp_psi_reads
  · intro j hj
    have hj2 : j ≤ 2 := hj
    interval_cases j <;> simp [vec3, vec4]
  · intro r _ j _
    rfl

theorem exAccessE (y1 y2 : ℝ) :
    logProfileCpp.accessOk (vec4 (1 : ℝ) 2 3 99) exDTR (vec2 y1 y2) exOnes (vec2 0 1) exOnes
      (vec1 1) := by
  unfold logProfileCpp.accessOk
  simp [vec1, vec2, vec4, exDTR, exOnes]

theorem exOnes_mulVec_one :
    (vec2 (1 : ℝ) 1).toVec (vec2 (1 : ℝ) 1).size
      = (exOnes : MatrixXd ℝ).toMatrix (vec2 (1 : ℝ) 1).size (exOnes : MatrixXd ℝ).cols
          *ᵥ (fun _ => 1) := by
  funext i
  simp only [VectorXd.toVec, vec2, Matrix.mulVec, Matrix.dotProduct, MatrixXd.toMatrix,
    exOnes, one_mul, ite_self]
  show _ = ∑ x : Fin 1, (1 : ℝ)
  simp

end ShapeChecks

section ShapeClaim

/-- Claim C12 as stated fails. `logProfileCpp` with `J = 1` and the four-entry
`theta = (1, 2, 3, 99)` (one more than `J + 2`), two sites at distance `1`, `Y = (1, 1)`,
`XTR = PhiTime = (1, 1)ᵀ`, `subsetStatic = (0, 1)`, `LambEst = (1)`, `nu = 0.5`: no shape is
checked, `theta(3)` is never read, `psi = diag(4, 3)` is factored and the call returns the
finite value `log 12`. -/
theorem C12_counterexample_long_theta_accepted :
    (vec4 (1 : ℝ) 2 3 99).size ≠ (vec1 (1 : ℝ)).size + 2
    ∧ logProfileCpp (nuggetKernels : Kernels ℝ) Real.sqrt Real.log (vec4 1 2 3 99) exDTR
        (vec2 1 1) exOnes (vec2 0 1) exOnes (vec1 1) 0.5 = Outcome.value (Real.log 12) := by
  refine ⟨by simp [vec1, vec4], ?_⟩
  have hpd : ((logProfileCpp.psi (nuggetKernels : Kernels ℝ) (vec4 1 2 3 99) exDTR (vec2 1 1)
      (vec2 0 1) exOnes (vec1 1) 0.5).toMatrix (vec2 (1 : ℝ) 1).size
      (vec2 (1 : ℝ) 1).size).PosDef := by
    rw [exPsiE_eq]
    apply Matrix.PosDef.diagonal
    intro i
    fin_cases i <;> simp
  have hdet : ((logProfileCpp.psi (nuggetKernels : Kernels ℝ) (vec4 1 2 3 99) exDTR (vec2 1 1)
      (vec2 0 1) exOnes (vec1 1) 0.5).toMatrix (vec2 (1 : ℝ) 1).size
      (vec2 (1 : ℝ) 1).size).det = 12 := by
    rw [exPsiE_eq, Matrix.det_diagonal]
    show (∏ i : Fin 2, (if i = 0 then (4 : ℝ) else 3)) = 12
    rw [Fin.prod_univ_two]
    norm_num
  unfold logProfileCpp
  rw [if_pos (exAccessE 1 1)]
  have hq := (glsLocals_exact _ hpd ((exOnes : MatrixXd ℝ).toMatrix (vec2 (1 : ℝ) 1).size
    (exOnes : MatrixXd ℝ).cols) (fun _ => 1)).2
  rw [← exOnes_mulVec_one] at hq
  have hr := glsLocals_result _ hpd ((exOnes : MatrixXd ℝ).toMatrix (vec2 (1 : ℝ) 1).size
    (exOnes : MatrixXd ℝ).cols) ((vec2 (1 : ℝ) 1).toVec (vec2 (1 : ℝ) 1).size)
  rw [hq, zero_add, glsLocals_logdet _ hpd, hdet] at hr
  exact hr

variable {α : Type} [LinearOrderedField α]

/-- Claim C12, amended. Neither evaluator checks a shape, and none ever fails with a
dimension error. When every entry the body reads exists (`theta` has at least `J + 2`
entries in `logProfileCpp`, at least `J + 1` in `logProfileCppH`, and so on: `accessOk`), the
call goes on to the factorisation and its result depends only on the entries read: a
longer `theta` and a `PhiTime` with more columns give the result of the input cut to size.
When some entry read does not exist, the body indexes outside an operand, which has no
defined result. -/
theorem C12_no_shape_check (K : Kernels α) (sqrt log : α → α)
    (thetaA thetaA2 thetaB thetaB2 : VectorXd α) (DTR : MatrixXd α) (Y : VectorXd α)
    (XTR : MatrixXd α) (subsetStatic : VectorXd α) (PhiTime PhiTime2 : MatrixXd α)
    (LambEst : VectorXd α) (nu : α) :
    ((logProfileCpp.accessOk thetaA DTR Y XTR subsetStatic PhiTime LambEst →
        LambEst.size + 2 ≤ thetaA2.size →
        (∀ j, j ≤ LambEst.size + 1 → thetaA2.coeff j = thetaA.coeff j) →
        PhiTime2.rows = Y.size → LambEst.size ≤ PhiTime2.cols →
        (∀ r, r < Y.size → ∀ j, j < LambEst.size →
          PhiTime2.coeff r j = PhiTime.coeff r j) →
        logProfileCpp K sqrt log thetaA2 DTR Y XTR subsetStatic PhiTime2 LambEst nu
          = logProfileCpp K sqrt log thetaA DTR Y XTR subsetStatic PhiTime LambEst nu)
      ∧ (¬ logProfileCpp.accessOk thetaA DTR Y XTR subsetStatic PhiTime LambEst →
        logProfileCpp K sqrt log thetaA DTR Y XTR subsetStatic PhiTime LambEst nu
          = Outcome.undefinedAccess))
    ∧ ((logProfileCppH.accessOk thetaB DTR Y XTR PhiTime LambEst →
        LambEst.size + 1 ≤ thetaB2.size →
        (∀ j, j ≤ LambEst.size → thetaB2.coeff j = thetaB.coeff j) →
        PhiTime2.rows = Y.size → LambEst.size ≤ PhiTime2.cols →
        (∀ r, r < Y.size → ∀ j, j < LambEst.size →
          PhiTime2.coeff r j = PhiTime.coeff r j) →
        logProfileCppH K sqrt log thetaB2 DTR Y XTR PhiTime2 LambEst nu
          = logProfileCppH K sqrt log thetaB DTR Y XTR PhiTime LambEst nu)
      ∧ (¬ logProfileCppH.accessOk thetaB DTR Y XTR PhiTime LambEst →
        logProfileCppH K sqrt log thetaB DTR Y XTR PhiTime LambEst nu
          = Outcome.undefinedAccess)) := by
  refine ⟨⟨?_, ?_⟩, ⟨?_, ?_⟩⟩
  · intro hacc hsz hθ hrows hcols hP
    have hacc2 : logProfileCpp.accessOk thetaA2 DTR Y XTR subsetStatic PhiTime2 LambEst :=
      ⟨hsz, hacc.2.1, hacc.2.2.1, fun hJ =>
        ⟨(hacc.2.2.2 hJ).1, (hacc.2.2.2 hJ).2.1, hrows, hcols⟩⟩
    unfold logProfileCpp logProfileCpp.locals
    rw [if_pos hacc, if_pos hacc2, logProfileCpp_psi_reads K thetaA thetaA2 DTR Y subsetStatic
      PhiTime PhiTime2 LambEst nu hθ hP]
  · intro hacc
    unfold logProfileCpp
    rw [if_neg hacc]
  · intro hacc hsz hθ hrows hcols hP
    have hacc2 : logProfileCppH.accessOk thetaB2 DTR Y XTR PhiTime2 LambEst :=
      ⟨hsz, hacc.2.1, fun hJ =>
        ⟨(hacc.2.2 hJ).1, (hacc.2.2 hJ).2.1, hrows, hcols⟩⟩
    unfold logProfileCppH logProfileCppH.locals
    rw [if_pos hacc, if_pos hacc2, logProfileCppH_psi_reads K thetaB thetaB2 DTR Y
      PhiTime PhiTime2 LambEst nu hθ hP]
  · intro hacc
    unfold logProfileCppH
    rw [if_neg hacc]

/-- A run of the amended C12: `theta = (1, 2, 3, 99)` in `logProfileCpp` gives what
`(1, 2, 3)` gives, `theta = (1, 3, 99)` in `logProfileCppH` gives what `(1, 3)` gives, and
the one-entry `theta = (1)` with `J = 1` has no defined result in either. -/
theorem C12_no_shape_check_witness :
    (logProfileCpp (nuggetKernels : Kernels ℝ) Real.sqrt Real.log (vec4 1 2 3 99) exDTR
        (vec2 1 2) exOnes (vec2 0 1) exOnes (vec1 1) 0.5
      = logProfileCpp (nuggetKernels : Kernels ℝ) Real.sqrt Real.log (vec3 1 2 3) exDTR
        (vec2 1 2) exOnes (vec2 0 1) exOnes (vec1 1) 0.5)
    ∧ (logProfileCppH (nuggetKernels : Kernels ℝ) Real.sqrt Real.log (vec3 1 3 99) exDTR
        (vec2 1 2) exOnes exOnes (vec1 1) 0.5
      = logProfileCppH (nuggetKernels : Kernels ℝ) Real.sqrt Real.log (vec2 1 3) exDTR
        (vec2 1 2) exOnes exOnes (vec1 1) 0.5)
    ∧ logProfileCpp (nuggetKernels : Kernels ℝ) Real.sqrt Real.log (vec1 1) exDTR
        (vec2 1 2) exOnes (vec2 0 1) exOnes (vec1 1) 0.5 = Outcome.undefinedAccess
    ∧ logProfileCppH (nuggetKernels : Kernels ℝ) Real.sqrt Real.log (vec1 1) exDTR
        (vec2 1 2) exOnes exOnes (vec1 1) 0.5 = Outcome.undefinedAccess := by
  have h := C12_no_shape_check (nuggetKernels : Kernels ℝ) Real.sqrt Real.log (vec3 1 2 3)
    (vec4 1 2 3 99) (vec2 1 3) (vec3 1 3 99) exDTR (vec2 1 2) exOnes (vec2 0 1) exOnes exOnes
    (vec1 1) 0.5
  have h2 := C12_no_shape_check (nuggetKernels : Kernels ℝ) Real.sqrt Real.log (vec1 1)
    (vec1 1) (vec1 1) (vec1 1) exDTR (vec2 1 2) exOnes (vec2 0 1) exOnes exOnes (vec1 1) 0.5
  refine ⟨h.1.1 (exAccessA 1 2) (by simp [vec1, vec4]) ?_ rfl (by simp [vec1, exOnes])
      (fun _ _ _ _ => rfl),
    h.2.1 (exAccessB 1 2) (by simp [vec1, vec3]) ?_ rfl (by simp [vec1, exOnes])
      (fun _ _ _ _ => rfl),
    h2.1.2 ?_, h2.2.2 ?_⟩
  · intro j hj
    have hj2 : j ≤ 2 := hj
    interval_cases j <;> simp [vec3, vec4]
  · intro j hj
    have hj2 : j ≤ 1 := hj
    interval_cases j <;> simp [vec2, vec3]
  · intro hacc
    have := hacc.1
    simp [vec1] at this
  · intro hacc
    have := hacc.1
    simp [vec1] at this

end ShapeClaim

section TestCall

variable {α : Type} [LinearOrderedField α]

/-- Claim C13. The call in the `R` block at the end of `logProfile.cpp` passes
`LambEst = 1:2`, so `J = 2`, together with `theta = 1:3`. The body reads `theta(J+1)`, that
is `theta(3)`, one past the last entry of a three-entry vector (the function documents
`theta` as `(J + 2) × 1`). Whatever the kernels and whatever `nu`, the call has no defined
result. -/
theorem C13_test_call_reads_past_theta (K : Kernels α) (sqrt log : α → α) (nu : α) :
    (testY : VectorXd α).size = 420
    ∧ (testTheta : VectorXd α).size = 3
    ∧ (testLambEst : VectorXd α).size + 1 = 3
    ∧ ¬ logProfileCpp.accessOk (testTheta : VectorXd α) testDTR testY testXTR
        testSubsetStatic testPhiTime testLambEst
    ∧ logProfileCpp K sqrt log testTheta testDTR testY testXTR testSubsetStatic testPhiTime
        testLambEst nu = Outcome.undefinedAccess := by
  have hacc : ¬ logProfileCpp.accessOk (testTheta : VectorXd α) testDTR testY testXTR
      testSubsetStatic testPhiTime testLambEst := by
    intro h
    have := h.1
    simp [testTheta, testLambEst, vec2, vec3] at this
  refine ⟨rfl, rfl, rfl, hacc, ?_⟩
  unfold logProfileCpp
  rw [if_neg hacc]

end TestCall

section PosDefAssembly

variable {n : ℕ}

theorem posSemidef_smul (A : Matrix (Fin n) (Fin n) ℝ) (hA : A.PosSemidef) (r : ℝ)
    (hr : 0 ≤ r) : (r • A).PosSemidef := by
  refine ⟨?_, fun x => ?_⟩
  · show (r • A)ᴴ = r • A
    rw [Matrix.conjTranspose_smul, hA.1.eq, star_trivial]
  · rw [Matrix.smul_mulVec_assoc, Matrix.dotProduct_smul, smul_eq_mul]
    exact mul_nonneg hr (hA.2 x)

theorem posSemidef_sum_range (f : ℕ → Matrix (Fin n) (Fin n) ℝ) (J : ℕ)
    (h : ∀ j, j < J → (f j).PosSemidef) : (∑ j in Finset.range J, f j).PosSemidef := by
  induction J with
  | zero =>
    rw [Finset.sum_range_zero]
    exact Matrix.PosSemidef.zero
  | succ J ih =>
    rw [Finset.sum_range_succ]
    exact (ih (fun j hj => h j (by omega))).add (h J (by omega))

/-- The coefficient-wise product of a positive semidefinite `K` with an outer product
`φ·φᵀ` is `diag(φ)·K·diag(φ)`, which is positive semidefinite. -/
theorem posSemidef_diagonal_mul_mul (Kf : Matrix (Fin n) (Fin n) ℝ) (hK : Kf.PosSemidef)
    (d : Fin n → ℝ) : (Matrix.diagonal d * Kf * Matrix.diagonal d).PosSemidef := by
  have h := hK.mul_mul_conjTranspose_same (Matrix.diagonal d)
  rw [Matrix.conjTranspose_eq_transpose_of_trivial, Matrix.diagonal_transpose] at h
  exact h

theorem kernelSum_eq_sum_scaled (Kj : ℕ → MatrixXd ℝ) (PhiTime : MatrixXd ℝ)
    (LambEst : VectorXd ℝ) (N : ℕ) (i k : Fin N) :
    kernelSum Kj PhiTime LambEst i k
      = (∑ j in Finset.range LambEst.size, LambEst.coeff j •
          (Matrix.diagonal (fun r : Fin N => PhiTime.coeff r j) * (Kj j).toMatrix N N
            * Matrix.diagonal (fun r : Fin N => PhiTime.coeff r j))) i k := by
  rw [Matrix.sum_apply]
  unfold kernelSum
  refine Finset.sum_congr rfl (fun j _ => ?_)
  rw [Matrix.smul_apply, Matrix.mul_diagonal, Matrix.diagonal_mul, smul_eq_mul]
  unfold MatrixXd.toMatrix
  ring

/-- A nonnegative combination of positive semidefinite kernels, each multiplied
coefficient-wise by an outer product, plus a positive diagonal, is positive definite. -/
theorem assembled_posDef (Kj : ℕ → MatrixXd ℝ) (PhiTime : MatrixXd ℝ) (LambEst : VectorXd ℝ)
    (N : ℕ) (d : ℕ → ℝ) (M : Matrix (Fin N) (Fin N) ℝ)
    (hM : ∀ i k : Fin N, M i k
      = kernelSum Kj PhiTime LambEst i k + if (i : ℕ) = (k : ℕ) then d i else 0)
    (hK : ∀ j, j < LambEst.size → ((Kj j).toMatrix N N).PosSemidef)
    (hL : ∀ j, j < LambEst.size → 0 ≤ LambEst.coeff j)
    (hd : ∀ i, i < N → 0 < d i) : M.PosDef := by
  have e : M = (∑ j in Finset.range LambEst.size, LambEst.coeff j •
          (Matrix.diagonal (fun r : Fin N => PhiTime.coeff r j) * (Kj j).toMatrix N N
            * Matrix.diagonal (fun r : Fin N => PhiTime.coeff r j)))
        + Matrix.diagonal (fun i : Fin N => d i) := by
    funext i k
    rw [hM, Matrix.add_apply, ← kernelSum_eq_sum_scaled, Matrix.diagonal_apply]
    congr 1
    by_cases h : i = k
    · simp [h]
    · have h2 : (i : ℕ) ≠ (k : ℕ) := fun h3 => h (Fin.ext h3)
      simp [h, h2]
  rw [e]
  apply Matrix.PosDef.posSemidef_add
  · apply posSemidef_sum_range
    intro j hj
    exact posSemidef_smul _ (posSemidef_diagonal_mul_mul _ (hK j hj) _) _ (hL j hj)
  · apply Matrix.PosDef.diagonal
    intro i
    exact hd i i.isLt

theorem exKernel_posSemidef (r : ℝ) :
    ((selectedKernel (nuggetKernels : Kernels ℝ) 0.5 exDTR r).toMatrix 2 2).PosSemidef := by
  have e : (selectedKernel (nuggetKernels : Kernels ℝ) 0.5 exDTR r).toMatrix 2 2
      = (1 : Matrix (Fin 2) (Fin 2) ℝ) := by
    funext i k
    simp only [selectedKernel, if_true, nuggetKernels, MatrixXd.toMatrix, exDTR]
    fin_cases i <;> fin_cases k <;> simp
  rw [e]
  exact Matrix.PosSemidef.one

end PosDefAssembly

section PosDefClaim

/-- Claim C14. For an input of matching shapes in which every kernel matrix `K_j` (on the
`N × N` block) is symmetric positive semidefinite, every `LambEst(j) ≥ 0` and every
diagonal noise term is positive (`theta(J+1) + (theta(J) - theta(J+1))·subsetStatic(i) > 0`
for all `i` in `logProfileCpp`; `theta(J) > 0` in `logProfileCppH`), the assembled `psi` is
positive definite for any `PhiTime`; the Cholesky factorisation ends with `Success`, every
`U[i,i]` handed to `log` is positive, and the call returns a finite value. -/
theorem C14_psi_posDef_of_psd_kernels (K : Kernels ℝ) (thetaA thetaB : VectorXd ℝ)
    (DTR : MatrixXd ℝ) (Y : VectorXd ℝ) (XTR : MatrixXd ℝ) (subsetStatic : VectorXd ℝ)
    (PhiTime : MatrixXd ℝ) (LambEst : VectorXd ℝ) (nu : ℝ) :
    (logProfileCpp.accessOk thetaA DTR Y XTR subsetStatic PhiTime LambEst →
      (∀ j, j < LambEst.size →
        ((selectedKernel K nu DTR (thetaA.coeff j)).toMatrix Y.size Y.size).PosSemidef) →
      (∀ j, j < LambEst.size → 0 ≤ LambEst.coeff j) →
      (∀ i, i < Y.size → 0 < thetaA.coeff (LambEst.size + 1)
        + (thetaA.coeff LambEst.size - thetaA.coeff (LambEst.size + 1))
          * subsetStatic.coeff i) →
      ((logProfileCpp.psi K thetaA DTR Y subsetStatic PhiTime LambEst nu).toMatrix
          Y.size Y.size).PosDef
      ∧ (llt Real.sqrt ((logProfileCpp.psi K thetaA DTR Y subsetStatic PhiTime LambEst
          nu).toMatrix Y.size Y.size)).m_info = true
      ∧ (∀ i, 0 < (logProfileCpp.locals K Real.sqrt thetaA DTR Y XTR subsetStatic PhiTime
          LambEst nu).U i i)
      ∧ ∃ v, logProfileCpp K Real.sqrt Real.log thetaA DTR Y XTR subsetStatic PhiTime
          LambEst nu = Outcome.value v)
    ∧ (logProfileCppH.accessOk thetaB DTR Y XTR PhiTime LambEst →
      (∀ j, j < LambEst.size →
        ((selectedKernel K nu DTR (thetaB.coeff j)).toMatrix Y.size Y.size).PosSemidef) →
      (∀ j, j < LambEst.size → 0 ≤ LambEst.coeff j) →
      0 < thetaB.coeff LambEst.size →
      ((logProfileCppH.psi K thetaB DTR Y PhiTime LambEst nu).toMatrix
          Y.size Y.size).PosDef
      ∧ (llt Real.sqrt ((logProfileCppH.psi K thetaB DTR Y PhiTime LambEst
          nu).toMatrix Y.size Y.size)).m_info = true
      ∧ (∀ i, 0 < (logProfileCppH.locals K Real.sqrt thetaB DTR Y XTR PhiTime
          LambEst nu).U i i)
      ∧ ∃ v, logProfileCppH K Real.sqrt Real.log thetaB DTR Y XTR PhiTime
          LambEst nu = Outcome.value v) := by
  constructor
  · intro hacc hK hL hd
    have hpd : ((logProfileCpp.psi K thetaA DTR Y subsetStatic PhiTime LambEst nu).toMatrix
        Y.size Y.size).PosDef :=
      assembled_posDef (fun j => selectedKernel K nu DTR (thetaA.coeff j)) PhiTime LambEst
        Y.size (fun i => thetaA.coeff (LambEst.size + 1)
          + (thetaA.coeff LambEst.size - thetaA.coeff (LambEst.size + 1))
            * subsetStatic.coeff i) _
        (fun i k => logProfileCpp_psi_coeff K thetaA DTR Y subsetStatic PhiTime LambEst nu i k)
        hK hL hd
    refine ⟨hpd, (llt_posDef _ hpd).1, glsLocals_U_pos _ hpd _ _, ?_⟩
    unfold logProfileCpp
    rw [if_pos hacc]
    exact ⟨_, glsLocals_result _ hpd _ _⟩
  · intro hacc hK hL hd
    have hpd : ((logProfileCppH.psi K thetaB DTR Y PhiTime LambEst nu).toMatrix
        Y.size Y.size).PosDef :=
      assembled_posDef (fun j => selectedKernel K nu DTR (thetaB.coeff j)) PhiTime LambEst
        Y.size (fun _ => thetaB.coeff LambEst.size) _
        (fun i k => logProfileCppH_psi_coeff K thetaB DTR Y PhiTime LambEst nu i k)
        hK hL (fun _ _ => hd)
    refine ⟨hpd, (llt_posDef _ hpd).1, glsLocals_U_pos _ hpd _ _, ?_⟩
    unfold logProfileCppH
    rw [if_pos hacc]
    exact ⟨_, glsLocals_result _ hpd _ _⟩

/-- A run of C14 on the two-site input: the kernel matrix is the identity, `LambEst = (1)`,
and the noise terms are `3, 2` (for `logProfileCpp`) and `3` (for `logProfileCppH`). -/
theorem C14_psi_posDef_of_psd_kernels_witness :
    (((logProfileCpp.psi (nuggetKernels : Kernels ℝ) (vec3 1 2 3) exDTR (vec2 1 2) (vec2 0 1)
          exOnes (vec1 1) 0.5).toMatrix (vec2 (1 : ℝ) 2).size (vec2 (1 : ℝ) 2).size).PosDef
      ∧ (llt Real.sqrt ((logProfileCpp.psi (nuggetKernels : Kernels ℝ) (vec3 1 2 3) exDTR
          (vec2 1 2) (vec2 0 1) exOnes (vec1 1) 0.5).toMatrix (vec2 (1 : ℝ) 2).size
          (vec2 (1 : ℝ) 2).size)).m_info = true
      ∧ (∀ i, 0 < (logProfileCpp.locals (nuggetKernels : Kernels ℝ) Real.sqrt (vec3 1 2 3)
          exDTR (vec2 1 2) exOnes (vec2 0 1) exOnes (vec1 1) 0.5).U i i)
      ∧ ∃ v, logProfileCpp (nuggetKernels : Kernels ℝ) Real.sqrt Real.log (vec3 1 2 3) exDTR
          (vec2 1 2) exOnes (vec2 0 1) exOnes (vec1 1) 0.5 = Outcome.value v)
    ∧ (((logProfileCppH.psi (nuggetKernels : Kernels ℝ) (vec2 1 3) exDTR (vec2 1 2)
          exOnes (vec1 1) 0.5).toMatrix (vec2 (1 : ℝ) 2).size (vec2 (1 : ℝ) 2).size).PosDef
      ∧ (llt Real.sqrt ((logProfileCppH.psi (nuggetKernels : Kernels ℝ) (vec2 1 3) exDTR
          (vec2 1 2) exOnes (vec1 1) 0.5).toMatrix (vec2 (1 : ℝ) 2).size
          (vec2 (1 : ℝ) 2).size)).m_info = true
      ∧ (∀ i, 0 < (logProfileCppH.locals (nuggetKernels : Kernels ℝ) Real.sqrt (vec2 1 3)
          exDTR (vec2 1 2) exOnes exOnes (vec1 1) 0.5).U i i)
      ∧ ∃ v, logProfileCppH (nuggetKernels : Kernels ℝ) Real.sqrt Real.log (vec2 1 3) exDTR
          (vec2 1 2) exOnes exOnes (vec1 1) 0.5 = Outcome.value v) := by
  have h := C14_psi_posDef_of_psd_kernels (nuggetKernels : Kernels ℝ) (vec3 1 2 3) (vec2 1 3)
    exDTR (vec2 1 2) exOnes (vec2 0 1) exOnes (vec1 1) 0.5
  refine ⟨h.1 (exAccessA 1 2) (fun j _ => exKernel_posSemidef _) ?_ ?_,
    h.2 (exAccessB 1 2) (fun j _ => exKernel_posSemidef _) ?_ ?_⟩
  · intro j _
    simp [vec1]
  · intro i hi
    have hi2 : i < 2 := hi
    interval_cases i <;> simp [vec1, vec2, vec3]
  · intro j _
    simp [vec1]
  · simp [vec1, vec2]

end PosDefClaim

section ShiftInvariance

variable {n p : ℕ}

/-- For a positive definite `psi` the value returned is unchanged when a combination of the
columns of `XTR` is added to `Y`: both values are the least value of the same set. -/
theorem glsLocals_result_shift (psi : Matrix (Fin n) (Fin n) ℝ) (hpsi : psi.PosDef)
    (X : Matrix (Fin n) (Fin p) ℝ) (Y : Fin n → ℝ) (c : Fin p → ℝ) :
    (glsLocals Real.sqrt psi X (Y + X *ᵥ c)).result Real.log
      = (glsLocals Real.sqrt psi X Y).result Real.log := by
  have key : ∀ b, (Y + X *ᵥ c) - X *ᵥ b = Y - X *ᵥ (b - c) := by
    intro b
    rw [Matrix.mulVec_sub]
    abel
  have hS : Set.range (fun b : Fin p → ℝ =>
        ((Y + X *ᵥ c) - X *ᵥ b) ⬝ᵥ psi⁻¹ *ᵥ ((Y + X *ᵥ c) - X *ᵥ b) + Real.log psi.det)
      = Set.range (fun b : Fin p → ℝ =>
        (Y - X *ᵥ b) ⬝ᵥ psi⁻¹ *ᵥ (Y - X *ᵥ b) + Real.log psi.det) := by
    ext v
    constructor
    · rintro ⟨b, rfl⟩
      exact ⟨b - c, by dsimp only; rw [key]⟩
    · rintro ⟨b, rfl⟩
      exact ⟨b + c, by dsimp only; rw [key, add_sub_cancel_right]⟩
  have h1 := glsLocals_least psi hpsi X (Y + X *ᵥ c)
  have h2 := glsLocals_least psi hpsi X Y
  rw [hS] at h1
  rw [glsLocals_result psi hpsi, glsLocals_result psi hpsi, h1.unique h2]

theorem add_mulVec_toVec (Y : VectorXd ℝ) (XTR : MatrixXd ℝ) (c : VectorXd ℝ) :
    (Y.add (XTR.mulVec c)).toVec Y.size
      = Y.toVec Y.size + XTR.toMatrix Y.size XTR.cols *ᵥ c.toVec XTR.cols := by
  funext i
  simp only [VectorXd.toVec, VectorXd.add, MatrixXd.mulVec, Pi.add_apply, Matrix.mulVec,
    Matrix.dotProduct, MatrixXd.toMatrix]
  rw [Finset.sum_range]

/-- Claim C15. For an input of matching shapes whose `psi` is (symmetric) positive
definite and a vector `c` of length `P = XTR.cols()`, replacing `Y` by `Y + XTR·c` leaves
the value returned by `logProfileCpp` and by `logProfileCppH` unchanged. -/
theorem C15_shift_by_column_space (K : Kernels ℝ) (thetaA thetaB : VectorXd ℝ)
    (DTR : MatrixXd ℝ) (Y : VectorXd ℝ) (XTR : MatrixXd ℝ) (subsetStatic : VectorXd ℝ)
    (PhiTime : MatrixXd ℝ) (LambEst : VectorXd ℝ) (nu : ℝ) (c : VectorXd ℝ) :
    (logProfileCpp.accessOk thetaA DTR Y XTR subsetStatic PhiTime LambEst →
      ((logProfileCpp.psi K thetaA DTR Y subsetStatic PhiTime LambEst nu).toMatrix
          Y.size Y.size).PosDef →
      c.size = XTR.cols →
      logProfileCpp K Real.sqrt Real.log thetaA DTR (Y.add (XTR.mulVec c)) XTR subsetStatic
          PhiTime LambEst nu
        = logProfileCpp K Real.sqrt Real.log thetaA DTR Y XTR subsetStatic PhiTime LambEst nu)
    ∧ (logProfileCppH.accessOk thetaB DTR Y XTR PhiTime LambEst →
      ((logProfileCppH.psi K thetaB DTR Y PhiTime LambEst nu).toMatrix
          Y.size Y.size).PosDef →
      c.size = XTR.cols →
      logProfileCppH K Real.sqrt Real.log thetaB DTR (Y.add (XTR.mulVec c)) XTR
          PhiTime LambEst nu
        = logProfileCppH K Real.sqrt Real.log thetaB DTR Y XTR PhiTime LambEst nu) := by
  constructor
  · intro hacc hpd _
    have hacc2 : logProfileCpp.accessOk thetaA DTR (Y.add (XTR.mulVec c)) XTR subsetStatic
        PhiTime LambEst := hacc
    unfold logProfileCpp
    rw [if_pos hacc, if_pos hacc2]
    show (glsLocals Real.sqrt
        ((logProfileCpp.psi K thetaA DTR Y subsetStatic PhiTime LambEst nu).toMatrix
          Y.size Y.size) (XTR.toMatrix Y.size XTR.cols)
        ((Y.add (XTR.mulVec c)).toVec Y.size)).result Real.log = _
    rw [add_mulVec_toVec]
    exact glsLocals_result_shift _ hpd _ _ _
  · intro hacc hpd _
    have hacc2 : logProfileCppH.accessOk thetaB DTR (Y.add (XTR.mulVec c)) XTR
        PhiTime LambEst := hacc
    unfold logProfileCppH
    rw [if_pos hacc, if_pos hacc2]
    show (glsLocals Real.sqrt
        ((logProfileCppH.psi K thetaB DTR Y PhiTime LambEst nu).toMatrix
          Y.size Y.size) (XTR.toMatrix Y.size XTR.cols)
        ((Y.add (XTR.mulVec c)).toVec Y.size)).result Real.log = _
    rw [add_mulVec_toVec]
    exact glsLocals_result_shift _ hpd _ _ _

/-- A run of C15 on the two-site input with `Y = (1, 2)` and `c = (5)`, so that
`Y + XTR·c = (6, 7)`. -/
theorem C15_shift_by_column_space_witness :
    (logProfileCpp (nuggetKernels : Kernels ℝ) Real.sqrt Real.log (vec3 1 2 3) exDTR
        ((vec2 1 2).add (exOnes.mulVec (vec1 5))) exOnes (vec2 0 1) exOnes (vec1 1) 0.5
      = logProfileCpp (nuggetKernels : Kernels ℝ) Real.sqrt Real.log (vec3 1 2 3) exDTR
        (vec2 1 2) exOnes (vec2 0 1) exOnes (vec1 1) 0.5)
    ∧ (logProfileCppH (nuggetKernels : Kernels ℝ) Real.sqrt Real.log (vec2 1 3) exDTR
        ((vec2 1 2).add (exOnes.mulVec (vec1 5))) exOnes exOnes (vec1 1) 0.5
      = logProfileCppH (nuggetKernels : Kernels ℝ) Real.sqrt Real.log (vec2 1 3) exDTR
        (vec2 1 2) exOnes exOnes (vec1 1) 0.5)
    ∧ ((vec2 (1 : ℝ) 2).add (exOnes.mulVec (vec1 5))).coeff 0 = 6
    ∧ ((vec2 (1 : ℝ) 2).add (exOnes.mulVec (vec1 5))).coeff 1 = 7 := by
  have h := C15_shift_by_column_space (nuggetKernels : Kernels ℝ) (vec3 1 2 3) (vec2 1 3)
    exDTR (vec2 1 2) exOnes (vec2 0 1) exOnes (vec1 1) 0.5 (vec1 5)
  refine ⟨h.1 (exAccessA 1 2) (exPsiA_posDef 1 2) rfl,
    h.2 (exAccessB 1 2) (exPsiB_posDef 1 2) rfl, ?_, ?_⟩
  · simp [VectorXd.add, MatrixXd.mulVec, vec1, vec2, exOnes]
    norm_num
  · simp [VectorXd.add, MatrixXd.mulVec, vec1, vec2, exOnes]
    norm_num

end ShiftInvariance

end Stdf
